import Mathlib

/-!
# Verification of the ERPNext account synchronizer (`sync_accounts_v2.py`, `sync_accounts.py`)

This file gives a shallow embedding, in Lean 4, of the hierarchy-aware account
reconciliation engine of the repository:

* name normalization (`normalize_name` of both script variants),
* field-level diffing (`account_differences` / `compare_accounts`),
* payload preparation (`prepare_source_doc_for_transfer`, parent payloads),
* the memoized recursive depth computation (`compute_depth_for`),
* the sequential reconciliation loop (`sync_all`), with the remote ERPNext
  store modelled as an explicit store of documents and an oracle deciding
  which create calls succeed.

Strings are modelled as `List Char`; Python dictionaries with the account
fields appearing in the scripts are modelled as association lists over a
closed field universe.  Python values in those slots are strings, integers or
`None`; missing keys are modelled by absence from the association list.
Python's ASCII-relevant behaviour of `str.lower` coincides with
`Char.toLower`; names in the claims are ASCII.  Where Python would raise on
ill-typed data (an integer in a name slot, a missing `name` key on a source
document), theorems carry explicit well-formedness hypotheses and the
embedding's value at the ill-typed point is irrelevant to the claims.
-/

namespace AccountSync

abbrev LC := List Char

/-- Whitespace characters stripped by Python's `str.strip()` and matched by
the regex class `\s` (ASCII part). -/
def isPySpace (c : Char) : Bool :=
  c.toNat = 32 || c.toNat = 9 || c.toNat = 10 || c.toNat = 13 || c.toNat = 11 || c.toNat = 12

/-- ASCII decimal digit, the regex class `\d`. -/
def isDigitChar (c : Char) : Bool :=
  48 ≤ c.toNat && c.toNat ≤ 57

/-- The separator class `[\s\-\._:]` of the leading-number regex in
`sync_accounts_v2.py`. -/
def isSepChar (c : Char) : Bool :=
  isPySpace c || c.toNat = 45 || c.toNat = 46 || c.toNat = 95 || c.toNat = 58

/-- Python `str.strip()`: drop leading and trailing whitespace.
(`List.rdropWhile p l` is definitionally `(l.reverse.dropWhile p).reverse`.) -/
def pyStrip (s : LC) : LC :=
  List.rdropWhile isPySpace (s.dropWhile isPySpace)

/-- One application of the regex rewrite
`m = re.match(r"^\s*\d+[\s\-\._:]+(.*)$", n); if m: n = m.group(1).strip()`
of `sync_accounts_v2.py` (line 125, applied at lines 133-135).

The regex matches iff, after optional leading whitespace, there is a nonempty
digit run, then a nonempty separator run, and the remaining text contains no
newline (`.` does not match `\n`, and with the string already stripped `$`
only matches at the very end, so any interior newline in the remainder makes
every backtracking alternative fail). -/
def stripLeadingNumber (n : LC) : LC :=
  let afterWs := n.dropWhile isPySpace
  let ds := afterWs.takeWhile isDigitChar
  let r1 := afterWs.dropWhile isDigitChar
  let seps := r1.takeWhile isSepChar
  let rest := r1.dropWhile isSepChar
  if ds.isEmpty || seps.isEmpty || rest.contains '\n' then n else pyStrip rest

/-- Python `re.sub(r"\s+", " ", n)`: collapse each whitespace run to a single
space. -/
def collapseWs : LC → LC
  | [] => []
  | [c] => if isPySpace c then [' '] else [c]
  | c :: d :: rest =>
    if isPySpace c && isPySpace d then collapseWs (d :: rest)
    else (if isPySpace c then ' ' else c) :: collapseWs (d :: rest)

/-- `normalize_name` of `sync_accounts_v2.py` (lines 127-138): empty/missing
names yield the empty key; otherwise strip, drop a leading numeric prefix
followed by separators, collapse whitespace runs, lower-case. -/
def normalize_name (name : LC) : LC :=
  if name.isEmpty then []
  else (collapseWs (stripLeadingNumber (pyStrip name))).map Char.toLower

/-- Split a list at the first occurrence of `c`, mirroring Python's
`name.split(c, 1)`: returns the parts before and after the first `c`, or
`none` when `c` does not occur. -/
def splitOnce (c : Char) : LC → Option (LC × LC)
  | [] => none
  | d :: rest =>
    if d = c then some ([], rest)
    else match splitOnce c rest with
      | some (pre, post) => some (d :: pre, post)
      | none => none

/-- Python `str.isdigit()` restricted to ASCII: nonempty and all digits. -/
def isDigitString (s : LC) : Bool :=
  !s.isEmpty && s.all isDigitChar

/-- `normalize_name` of `sync_accounts.py` (lines 86-93): split at the first
dash; if the part before it strips to a digit string, return the stripped
part after it, else return the stripped input. -/
def normalize_name_v1 (name : LC) : LC :=
  if name.isEmpty then []
  else match splitOnce '-' name with
    | some (pre, post) => if isDigitString (pyStrip pre) then pyStrip post else pyStrip name
    | none => pyStrip name

/-- No-whitespace-at-the-head predicate, used to characterize stripped
strings. -/
def headWsFree (s : LC) : Prop :=
  ∀ c, s.head? = some c → isPySpace c = false

/-- No-whitespace-at-the-end predicate. -/
def lastWsFree (s : LC) : Prop :=
  ∀ c, s.getLast? = some c → isPySpace c = false

/-- A string is singly spaced when every whitespace character in it is a
plain space and no two adjacent characters are both whitespace.  This is the
shape `re.sub(r"\s+", " ", ...)` produces. -/
def singlySpaced : LC → Bool
  | [] => true
  | [c] => !isPySpace c || c = ' '
  | c :: d :: rest =>
    (!isPySpace c || c = ' ') && !(isPySpace c && isPySpace d) && singlySpaced (d :: rest)

/-! ## Python values, account fields and documents

An account document is a Python dict whose keys, over the two scripts, range
over the fixed field universe below.  Presence of a key with value `None`
(`PyVal.vNone`) is distinct from absence of the key. -/

inductive PyVal where
  | vStr (s : LC)
  | vInt (n : Int)
  | vNone
deriving DecidableEq, Repr

inductive Field where
  | name
  | account_name
  | parent_account
  | is_group
  | account_type
  | root_type
  | report_type
  | company
  | account_currency
  | balance
  | total_debit
  | total_credit
deriving DecidableEq, Repr

/-- A Python dict over the account field universe: an association list whose
key order models dict insertion order. -/
abbrev Doc := List (Field × PyVal)

/-- `d.get(f)`: `none` when the key is absent. -/
def dget (d : Doc) (f : Field) : Option PyVal :=
  match d with
  | [] => none
  | (k, v) :: rest => if k = f then some v else dget rest f

/-- `d[f] = v`: replace in place if present (Python dicts keep the original
key position), else append. -/
def dset (d : Doc) (f : Field) (v : PyVal) : Doc :=
  match d with
  | [] => [(f, v)]
  | (k, w) :: rest => if k = f then (k, v) :: rest else (k, w) :: dset rest f v

/-- `d.pop(f, None)`: remove the key if present (keys are unique in a
Python dict, so removing every occurrence is the same operation). -/
def dpop (d : Doc) (f : Field) : Doc :=
  match d with
  | [] => []
  | (k, w) :: rest => if k = f then dpop rest f else (k, w) :: dpop rest f

/-- Python truthiness of the values appearing in account docs: `None`, `""`
and `0` are falsy. -/
def truthy : PyVal → Bool
  | PyVal.vStr s => !s.isEmpty
  | PyVal.vInt n => n ≠ 0
  | PyVal.vNone => false

/-- `d.get(f)` when the result is used as a (truthy) string, as in
`if parent: ... normalize_name(parent)`.  A truthy `int` in such a slot
would make Python raise inside `normalize_name` (`int` has no `.strip`);
theorems quantify over well-formed docs that exclude that case, so the
`vInt` branch of this function is never relevant. -/
def truthyStrField (d : Doc) (f : Field) : Option LC :=
  match dget d f with
  | some (PyVal.vStr s) => if s.isEmpty then none else some s
  | _ => none

/-- Value well-formedness for string slots: not an `int` (Python would raise
when such a value reaches `normalize_name` or string interpolation). -/
def valStrOk : Option PyVal → Bool
  | some (PyVal.vInt _) => false
  | _ => true

/-- Python `(x or "")` for a `.get` result, as used by the differs. -/
def orEmpty : Option PyVal → PyVal
  | none => PyVal.vStr []
  | some v => if truthy v then v else PyVal.vStr []

/-- `normalize_name(s) if s else None` applied to a `.get("parent_account")`
result (`account_differences`, lines 223-224 of `sync_accounts_v2.py`). -/
def normParentVal (v : Option PyVal) : Option LC :=
  match v with
  | some (PyVal.vStr s) => if s.isEmpty then none else some (normalize_name s)
  | _ => none

/-- Same for the v1 script's `compare_accounts` (its own `normalize_name`). -/
def normParentValV1 (v : Option PyVal) : Option LC :=
  match v with
  | some (PyVal.vStr s) => if s.isEmpty then none else some (normalize_name_v1 s)
  | _ => none

/-- `COMPARE_FIELDS` of `sync_accounts_v2.py` (line 203); the same list is
inlined in `compare_accounts` of `sync_accounts.py` (line 96). -/
def COMPARE_FIELDS : List Field :=
  [Field.account_name, Field.parent_account, Field.account_type, Field.root_type,
    Field.report_type, Field.is_group, Field.company]

/-- The fields copied by `prepare_source_doc_for_transfer` (line 209). -/
def TRANSFER_FIELDS : List Field :=
  [Field.name, Field.account_name, Field.parent_account, Field.is_group,
    Field.account_type, Field.root_type, Field.report_type, Field.company]

/-- The protected fields of the claims: balance, currency, total
debit/credit.  They are never copied by the preparation functions. -/
def PROTECTED_FIELDS : List Field :=
  [Field.account_currency, Field.balance, Field.total_debit, Field.total_credit]

/-- `prepare_source_doc_for_transfer` (lines 205-214 of
`sync_accounts_v2.py`): copy the allowed fields that are present, in order;
balances and currency are never copied. -/
def prepare_source_doc_for_transfer (src : Doc) : Doc :=
  TRANSFER_FIELDS.foldl
    (fun doc k => match dget src k with
      | some v => dset doc k v
      | none => doc) []

/-- The defensive `src_doc.pop(f, None)` loop of `sync_all` (lines 397-398). -/
def popProtected (d : Doc) : Doc :=
  dpop (dpop (dpop (dpop d Field.account_currency) Field.balance) Field.total_debit)
    Field.total_credit

/-- The contribution of one compared field to the diff dict of
`account_differences` (lines 218-229 of `sync_accounts_v2.py`):
`parent_account` is compared by normalized value, all other fields by raw
value with falsy values coerced to the empty string; a changed field
contributes `{f: (s, t)}`. -/
def diffEntry (src tgt : Doc) (f : Field) : List (Field × (Option PyVal × Option PyVal)) :=
  if f = Field.parent_account then
    if normParentVal (dget src f) ≠ normParentVal (dget tgt f) then
      [(f, (dget src f, dget tgt f))]
    else []
  else
    if orEmpty (dget src f) ≠ orEmpty (dget tgt f) then
      [(f, (dget src f, dget tgt f))]
    else []

/-- `account_differences` (lines 216-230 of `sync_accounts_v2.py`): the dict
of changed fields, in `COMPARE_FIELDS` order. -/
def account_differences (src tgt : Doc) : List (Field × (Option PyVal × Option PyVal)) :=
  COMPARE_FIELDS.foldl (fun diffs f => diffs ++ diffEntry src tgt f) []

/-- The per-field contribution for `compare_accounts` of `sync_accounts.py`
(lines 98-105): like `diffEntry` but with the v1 normalizer and raw
(uncoerced) comparison of the other fields. -/
def diffEntryV1 (src tgt : Doc) (f : Field) : List (Field × (Option PyVal × Option PyVal)) :=
  if f = Field.parent_account then
    if normParentValV1 (dget src f) ≠ normParentValV1 (dget tgt f) then
      [(f, (dget src f, dget tgt f))]
    else []
  else
    if dget src f ≠ dget tgt f then
      [(f, (dget src f, dget tgt f))]
    else []

/-- `compare_accounts` of `sync_accounts.py` (lines 95-106). -/
def compare_accounts (src tgt : Doc) : List (Field × (Option PyVal × Option PyVal)) :=
  COMPARE_FIELDS.foldl (fun diffs f => diffs ++ diffEntryV1 src tgt f) []

/-- The parent payload built from the parent's own source record
(`sync_all`, lines 433-439): prepare, force `is_group = 1`
(`1 if parent_payload.get("is_group") else 1` is always `1`), default
`company` to `""` when the key is absent, pop `account_currency`. -/
def mkParentPayloadFromSource (pdoc : Doc) : Doc :=
  let p := prepare_source_doc_for_transfer pdoc
  let p := dset p Field.is_group (PyVal.vInt 1)
  let p := if (dget p Field.company).isSome then p else dset p Field.company (PyVal.vStr [])
  dpop p Field.account_currency

/-- The minimal placeholder parent payload (`sync_all`, lines 442-448). -/
def mkPlaceholderParent (parent : LC) : Doc :=
  [(Field.account_name, PyVal.vStr (pyStrip parent)),
    (Field.is_group, PyVal.vInt 1),
    (Field.parent_account, PyVal.vNone),
    (Field.company, PyVal.vStr [])]

/-- The fixed parent payload of `ensure_parent` in `sync_accounts.py`
(lines 165-172). -/
def parent_data_v1 (norm_parent : LC) : Doc :=
  [(Field.account_name, PyVal.vStr norm_parent),
    (Field.is_group, PyVal.vInt 1),
    (Field.root_type, PyVal.vStr "Asset".data),
    (Field.account_type, PyVal.vStr []),
    (Field.parent_account, PyVal.vNone),
    (Field.company, PyVal.vStr [])]

/-- The protected/audit fields popped by `fetch_and_sync` in
`sync_accounts.py` (lines 254-256), restricted to the field universe of the
embedding (the audit fields `creation`, `modified`, ... do not occur on the
documents modelled here). -/
def fetch_strip_v1 (d : Doc) : Doc :=
  popProtected d

/-- An association-list lookup keyed by strings, used for
`target_norm_lookup`, `name_to_doc` and the memoized `depths` dict. -/
def alookup {α : Type} (m : List (LC × α)) (k : LC) : Option α :=
  match m with
  | [] => none
  | (k2, v) :: rest => if k2 = k then some v else alookup rest k

/-- Dict update for string-keyed dicts: replace in place or append. -/
def aset {α : Type} (m : List (LC × α)) (k : LC) (v : α) : List (LC × α) :=
  match m with
  | [] => [(k, v)]
  | (k2, w) :: rest => if k2 = k then (k2, v) :: rest else (k2, w) :: aset rest k v

/-- `target_norm_lookup.get(dpn)` followed by
`isinstance(pit, dict) and pit.get("name")` and the fallback to the raw
parent string (`sync_all`, lines 487-496 and 511-516): resolve a desired
parent name to the matched target record's own name when available. -/
def resolvedParentName (lk : List (LC × Doc)) (dp : LC) : LC :=
  match alookup lk (normalize_name dp) with
  | some pit =>
    match truthyStrField pit Field.name with
    | some n2 => n2
    | none => dp
  | none => dp

/-- One iteration of the update-payload loop of `sync_all`
(lines 485-498): for `parent_account`, resolve the desired parent through
the match table when the source value is truthy, and add nothing when it is
falsy (the `if desired_parent:` guard has no else branch); for any other
changed field, copy the source value (`None` when the key is absent). -/
def updateStep (src : Doc) (lk : List (LC × Doc)) (pl : Doc) (k : Field) : Doc :=
  if k = Field.parent_account then
    match truthyStrField src Field.parent_account with
    | some dp => dset pl Field.parent_account (PyVal.vStr (resolvedParentName lk dp))
    | none => pl
  else dset pl k ((dget src k).getD PyVal.vNone)

/-- The update payload construction of `sync_all` (lines 484-498):
`update_payload = {}` then one `updateStep` per changed field, in order. -/
def buildUpdatePayload (src : Doc) (diffKeys : List Field) (lk : List (LC × Doc)) : Doc :=
  diffKeys.foldl (updateStep src lk) []

/-- The key/value pair `updateStep` would add for a given changed field
(`none` when it adds nothing). -/
def updateEntry (src : Doc) (lk : List (LC × Doc)) (k : Field) : Option (Field × PyVal) :=
  if k = Field.parent_account then
    match truthyStrField src Field.parent_account with
    | some dp => some (Field.parent_account, PyVal.vStr (resolvedParentName lk dp))
    | none => none
  else some (k, (dget src k).getD PyVal.vNone)

/-- The update payload of `sync_account` in `sync_accounts.py` (line 206):
`{f: src_doc[f] for f in diffs.keys()}`. -/
def update_data_v1 (src : Doc) (diffKeys : List Field) : Doc :=
  diffKeys.foldl (fun pl k => dset pl k ((dget src k).getD PyVal.vNone)) []

/-! ## The depth computation of `sync_all` (lines 334-376) -/

/-- `cd.get("name") or cd.get("account_name") or cand`: the name expression
used both to key the normalized lookups and to resolve parents (`sync_all`
lines 364, 400, 425; `compute_depths` line 291). -/
def nameIsh (cd : Doc) (cand : LC) : LC :=
  match truthyStrField cd Field.name with
  | some s => s
  | none =>
    match truthyStrField cd Field.account_name with
    | some s => s
    | none => cand

/-- The first candidate in `name_to_doc` iteration order whose name
expression normalizes to `pnorm` (the fallback loop of lines 362-366). -/
def findCand (ntd : List (LC × Doc)) (pnorm : LC) : Option LC :=
  match ntd with
  | [] => none
  | (cand, cd) :: rest =>
    if normalize_name (nameIsh cd cand) = pnorm then some cand else findCand rest pnorm

/-- Parent resolution of `compute_depth_for` (lines 357-369) and of the
parent-ensure block of `sync_all` (lines 421-427): exact key match first,
then first normalized match; a falsy (empty-string) resolved key is
discarded by the truthiness tests `if not parent_key:` (line 367) and
`if parent_src_key:` (line 433), leaving the parent unresolved. -/
def resolveParentKey (ntd : List (LC × Doc)) (parent : LC) : Option LC :=
  match (if (alookup ntd parent).isSome then some parent
    else findCand ntd (normalize_name parent)) with
  | some k => if k.isEmpty then none else some k
  | none => none

/-- One resolved-parent step: from a record's key to the source key of its
resolved parent, `none` when the record is missing, has no truthy parent
reference, or the parent resolves to nothing. -/
def resolveStep (ntd : List (LC × Doc)) (n : LC) : Option LC :=
  match alookup ntd n with
  | none => none
  | some doc =>
    match truthyStrField doc Field.parent_account with
    | none => none
    | some parent => resolveParentKey ntd parent

/-- `compute_depth_for` (lines 340-373): memoized recursion over parent
chains with a per-top-call visited set.  The Python recursion's depth is
bounded by the number of distinct keys (each recursive call requires its
argument not to be in the visited set and adds it), so a fuel of
`ntd.length + 1` makes the fuel-exhaustion branch unreachable; its value is
irrelevant.  Returns the computed depth and the updated memo dict.  Note
that the final `depths[name] = d` (line 372) happens after the recursive
call returns, so it can overwrite the `0` recorded by the
cycle-detection branch (line 346). -/
def depthGo (ntd : List (LC × Doc)) :
    Nat → LC → List LC → List (LC × Nat) → Nat × List (LC × Nat)
  | 0, _, _, depths => (0, depths)
  | fuel + 1, nm, visited, depths =>
    match alookup depths nm with
    | some d => (d, depths)
    | none =>
      if nm ∈ visited then (0, aset depths nm 0)
      else
        match alookup ntd nm with
        | none => (0, aset depths nm 0)
        | some doc =>
          match truthyStrField doc Field.parent_account with
          | none => (0, aset depths nm 0)
          | some parent =>
            match resolveParentKey ntd parent with
            | none => (1, aset depths nm 1)
            | some pk =>
              let r := depthGo ntd fuel pk (nm :: visited) depths
              (r.1 + 1, aset r.2 nm (r.1 + 1))

/-- The top-level depth loop (lines 375-376): call `compute_depth_for` on
every source key in order, threading the memo dict. -/
def computeDepths (ntd : List (LC × Doc)) : List (LC × Nat) :=
  (ntd.map Prod.fst).foldl (fun depths n => (depthGo ntd (ntd.length + 1) n [] depths).2) []

/-- A synthetic 2-cycle: `a`'s parent reference is `b` and vice versa. -/
def twoCycle (a b : LC) : List (LC × Doc) :=
  [(a, [(Field.name, PyVal.vStr a), (Field.parent_account, PyVal.vStr b)]),
    (b, [(Field.name, PyVal.vStr b), (Field.parent_account, PyVal.vStr a)])]

/-- Concrete two-record chain: root `A`, child `B` with parent `A`. -/
def chainNtd : List (LC × Doc) :=
  [("A".data, [(Field.name, PyVal.vStr "A".data)]),
    ("B".data, [(Field.name, PyVal.vStr "B".data),
      (Field.parent_account, PyVal.vStr "A".data)])]

/-- A rank function witnessing that `chainNtd`'s parent chains are acyclic. -/
def chainRank : LC → Nat := fun n => if n = "A".data then 0 else 1

/-- Concrete one-record set whose parent reference `"Z"` resolves to
nothing. -/
def orphNtd : List (LC × Doc) :=
  [("C".data, [(Field.name, PyVal.vStr "C".data),
    (Field.parent_account, PyVal.vStr "Z".data)])]

/-- The specification of one memo entry of the depth computation: roots get
`0`, records with unresolvable parents get `1`, and a record with resolved
parent `pk` is one deeper than the memoized depth of `pk`. -/
def depthSpec (ntd : List (LC × Doc)) (n : LC) (d : Nat) (m : List (LC × Nat)) : Prop :=
  match alookup ntd n with
  | none => d = 0
  | some doc =>
    match truthyStrField doc Field.parent_account with
    | none => d = 0
    | some parent =>
      match resolveParentKey ntd parent with
      | none => d = 1
      | some pk => ∃ dp, alookup m pk = some dp ∧ d = dp + 1

/-- All memo entries satisfy `depthSpec`. -/
def depthInv (ntd : List (LC × Doc)) (m : List (LC × Nat)) : Prop :=
  ∀ n d, alookup m n = some d → depthSpec ntd n d m

/-- A record whose truthy parent reference resolves to nothing in the
source set. -/
def orphanRec (ntd : List (LC × Doc)) (n : LC) : Prop :=
  ∃ doc parent, alookup ntd n = some doc ∧
    truthyStrField doc Field.parent_account = some parent ∧
    resolveParentKey ntd parent = none

/-- Memo entries of orphan records are `1` when present. -/
def orphanInv (ntd : List (LC × Doc)) (m : List (LC × Nat)) : Prop :=
  ∀ n, orphanRec ntd n → (alookup m n = none ∨ alookup m n = some 1)

/-! ## The reconciliation loop `sync_all` (lines 313-534)

The remote target store is modelled explicitly: it holds the fetched target
inventory, `get_account` is a lookup by identifying name, a successful
`create_account` stores the payload under the name ERPNext would assign
(the payload's `name`, else its `account_name`) and echoes it, and
`update_account` merges the partial payload into the stored document.
Whether the i-th create call succeeds is an oracle (`Cfg.createOk`);
update failures only affect logging in the script, and the model lets
updates succeed.  Decisions are the per-record create/update/skip log
lines; mutations are the remote POST/PUT calls and the retry sleeps. -/

inductive Decision where
  | create (nm : Option PyVal)
  | update (nm : Option PyVal) (changed : List Field)
  | skip (nm : Option PyVal)
  | parentFail (nm : LC)
  | failed (nm : LC)
deriving DecidableEq, Repr

inductive Mut where
  | createCall (payload : Doc)
  | updateCall (nm : LC) (payload : Doc)
  | sleepCall (delay : Int)
deriving DecidableEq, Repr

structure Cfg where
  dryRun : Bool
  maxParentRetries : Nat
  retryDelay : Int
  createOk : Nat → Bool

structure St where
  lookup : List (LC × Doc)
  store : List Doc
  cidx : Nat
  decisions : List Decision
  muts : List Mut
deriving DecidableEq, Repr

/-- The identifying name of a stored document. -/
def docName (d : Doc) : Option LC :=
  match dget d Field.name with
  | some (PyVal.vStr s) => some s
  | _ => none

/-- `get_account` against the modelled remote store: first document whose
identifying name matches. -/
def storeGet : List Doc → LC → Option Doc
  | [], _ => none
  | d :: rest, n => if docName d = some n then some d else storeGet rest n

/-- The name ERPNext assigns to a created account in the model: the posted
`name` when present and truthy, else the posted `account_name`. -/
def createdName (p : Doc) : LC :=
  match truthyStrField p Field.name with
  | some s => s
  | none =>
    match truthyStrField p Field.account_name with
    | some s => s
    | none => []

/-- The stored document resulting from a successful create. -/
def mkCreated (p : Doc) : Doc :=
  dset p Field.name (PyVal.vStr (createdName p))

/-- Merge a partial update payload into a stored document. -/
def dmerge (d p : Doc) : Doc :=
  p.foldl (fun acc kv => dset acc kv.1 kv.2) d

/-- `update_account` against the modelled remote store. -/
def storeUpdate (store : List Doc) (n : LC) (p : Doc) : List Doc :=
  store.map (fun d => if docName d = some n then dmerge d p else d)

/-- `a.get("name") or a.get("account_name")` for target inventory entries
(line 325). -/
def nOf (a : Doc) : Option LC :=
  match truthyStrField a Field.name with
  | some s => some s
  | none => truthyStrField a Field.account_name

/-- `target_norm_lookup` construction (lines 323-328): skip entries with no
truthy name, key the full doc by its normalized name, later entries
overwriting earlier ones. -/
def mkTargetLookup (tgts : List Doc) : List (LC × Doc) :=
  tgts.foldl
    (fun lk a => match nOf a with
      | some n => aset lk (normalize_name n) a
      | none => lk) []

/-- `name_to_doc = {a["name"]: a for a in source_accounts}` (line 331);
`a["name"]` must be a string for the run to be modelled (Python would raise
`KeyError` on a missing key, and a non-string key would break the later
string operations). -/
def mkNameToDoc (srcs : List Doc) : Option (List (LC × Doc)) :=
  srcs.foldl
    (fun acc a =>
      match acc, dget a Field.name with
      | some m, some (PyVal.vStr s) => some (aset m s a)
      | _, _ => none) (some [])

/-- Ascending sort of the distinct depth values (`sorted(depth_buckets.keys())`). -/
def sortNat (l : List Nat) : List Nat :=
  List.insertionSort (fun a b => a ≤ b) l

/-- The names grouped into the bucket of depth `d`, in `depths` insertion
order (lines 379-381). -/
def bucketNames (depths : List (LC × Nat)) (d : Nat) : List LC :=
  (depths.filter (fun p => p.2 == d)).map Prod.fst

/-- The record processing order of `sync_all` (lines 389-391): buckets in
ascending depth order, insertion order within a bucket. -/
def processOrder (depths : List (LC × Nat)) : List LC :=
  (sortNat ((depths.map Prod.snd).dedup)).flatMap (bucketNames depths)

/-- The parent payload chosen at lines 420-448: built from the parent's own
source record when the parent resolves in the source set, else the minimal
placeholder. -/
def parentPayloadFor (ntd : List (LC × Doc)) (parent : LC) : Doc :=
  match resolveParentKey ntd parent with
  | some k => mkParentPayloadFromSource ((alookup ntd k).getD [])
  | none => mkPlaceholderParent parent

/-- The bounded parent-creation retry loop (lines 428-465): in dry-run mode
insert `{"name": payload["account_name"]}` under the parent's normalized
key and make no call; otherwise attempt `create_account` up to the retry
budget, sleeping `retry_delay` after each failure; on success insert the
created record under the parent's normalized key. -/
def ensureLoop (cfg : Cfg) (payload : Doc) (pnorm : LC) : Nat → St → Bool × St
  | 0, st => (false, st)
  | k + 1, st =>
    if cfg.dryRun then
      (true, { st with lookup := (aset st.lookup pnorm
        [(Field.name, (dget payload Field.account_name).getD PyVal.vNone)]) })
    else if cfg.createOk st.cidx then
      (true, { st with
        store := st.store ++ [mkCreated payload],
        lookup := aset st.lookup pnorm (mkCreated payload),
        cidx := st.cidx + 1,
        muts := st.muts ++ [Mut.createCall payload] })
    else
      ensureLoop cfg payload pnorm k { st with
        cidx := st.cidx + 1,
        muts := st.muts ++ [Mut.createCall payload, Mut.sleepCall cfg.retryDelay] }

/-- The parent-reference rewrite before a create (lines 511-516): when the
record's truthy parent reference has a match-table entry with a truthy
name, replace the parent reference by that target-side name. -/
def rewriteCreateParent (lk : List (LC × Doc)) (src_doc : Doc) : Doc :=
  match truthyStrField src_doc Field.parent_account with
  | some dp =>
    match alookup lk (normalize_name dp) with
    | some pit =>
      match truthyStrField pit Field.name with
      | some n2 => dset src_doc Field.parent_account (PyVal.vStr n2)
      | none => src_doc
    | none => src_doc
  | none => src_doc

/-- The create-or-update half of the per-record loop (lines 474-527),
entered once the parent (if any) is ensured. -/
def afterParent (cfg : Cfg) (st : St) (src_doc : Doc) (src_norm : LC)
    (tgt_full : Option Doc) : St :=
  match tgt_full with
  | some tfull =>
    let diffs := account_differences src_doc tfull
    if diffs.isEmpty then
      { st with decisions := st.decisions ++ [Decision.skip (dget src_doc Field.name)] }
    else if cfg.dryRun then
      { st with decisions := st.decisions
          ++ [Decision.update (dget src_doc Field.name) (diffs.map Prod.fst)] }
    else
      let payload := buildUpdatePayload src_doc (diffs.map Prod.fst) st.lookup
      let tname := match dget tfull Field.name with
        | some (PyVal.vStr s) => s
        | _ => []
      { st with
        decisions := st.decisions
          ++ [Decision.update (dget src_doc Field.name) (diffs.map Prod.fst)],
        muts := st.muts ++ [Mut.updateCall tname payload],
        store := storeUpdate st.store tname payload }
  | none =>
    let src_doc2 := rewriteCreateParent st.lookup src_doc
    if cfg.dryRun then
      { st with
        decisions := st.decisions ++ [Decision.create (dget src_doc Field.name)],
        lookup := aset st.lookup src_norm
          [(Field.name, (dget src_doc2 Field.name).getD PyVal.vNone)] }
    else if cfg.createOk st.cidx then
      { st with
        decisions := st.decisions ++ [Decision.create (dget src_doc Field.name)],
        muts := st.muts ++ [Mut.createCall src_doc2],
        store := st.store ++ [mkCreated src_doc2],
        lookup := aset st.lookup src_norm (mkCreated src_doc2),
        cidx := st.cidx + 1 }
    else
      { st with
        decisions := st.decisions ++ [Decision.create (dget src_doc Field.name)],
        muts := st.muts ++ [Mut.createCall src_doc2],
        cidx := st.cidx + 1 }

/-- The parent-ensuring step (lines 413-472) wrapped around `afterParent`:
no truthy parent reference or parent already present in the match table
proceeds directly; otherwise the retry loop runs and exhaustion skips the
record. -/
def withParent (cfg : Cfg) (ntd : List (LC × Doc)) (st : St) (src_doc : Doc)
    (src_norm : LC) (src_name : LC) (tgt_full : Option Doc) : St :=
  match truthyStrField src_doc Field.parent_account with
  | some parent =>
    let pnorm := normalize_name parent
    if (alookup st.lookup pnorm).isSome then
      afterParent cfg st src_doc src_norm tgt_full
    else
      match ensureLoop cfg (parentPayloadFor ntd parent) pnorm cfg.maxParentRetries st with
      | (true, st2) => afterParent cfg st2 src_doc src_norm tgt_full
      | (false, st2) =>
        { st2 with decisions := st2.decisions ++ [Decision.parentFail src_name] }
  | none => afterParent cfg st src_doc src_norm tgt_full

/-- One iteration of the per-record loop (lines 391-531): prepare and strip
the source doc, look it up in the match table by normalized name, fetch the
full target doc for a hit (`tgt["name"]` raising on an entry without a
usable string name is the caught per-record exception of line 528, modelled
as `Decision.failed`), then ensure the parent and create/update/skip. -/
def processRecord (cfg : Cfg) (ntd : List (LC × Doc)) (st : St) (src_name : LC) : St :=
  match alookup ntd src_name with
  | none => st
  | some raw =>
    let src_doc := popProtected (prepare_source_doc_for_transfer raw)
    let src_norm := normalize_name (nameIsh src_doc src_name)
    match alookup st.lookup src_norm with
    | some t =>
      match dget t Field.name with
      | some (PyVal.vStr n) =>
        withParent cfg ntd st src_doc src_norm src_name (storeGet st.store n)
      | _ => { st with decisions := st.decisions ++ [Decision.failed src_name] }
    | none => withParent cfg ntd st src_doc src_norm src_name none

/-- `sync_all` (lines 313-534): build the lookups, compute depths, and
process every record in depth order, threading the run state.  `none` when
a source record has no string identifying name (Python would raise building
`name_to_doc`). -/
def syncAll (cfg : Cfg) (srcs tgts : List Doc) : Option St :=
  match mkNameToDoc srcs with
  | none => none
  | some ntd =>
    some ((processOrder (computeDepths ntd)).foldl (processRecord cfg ntd)
      { lookup := mkTargetLookup tgts, store := tgts, cidx := 0, decisions := [], muts := [] })

/-- Live configuration with an always-succeeding remote, retry budget 5. -/
def cfgLive : Cfg :=
  { dryRun := false, maxParentRetries := 5, retryDelay := 1, createOk := fun _ => true }

/-- The same configuration in dry-run mode. -/
def cfgDry : Cfg :=
  { dryRun := true, maxParentRetries := 5, retryDelay := 1, createOk := fun _ => true }

/-- Two source records sharing the normalized key `cash`. -/
def dupSrcs : List Doc :=
  [[(Field.name, PyVal.vStr "1 - Cash".data), (Field.account_name, PyVal.vStr "Cash".data)],
    [(Field.name, PyVal.vStr "2 - Cash".data), (Field.account_name, PyVal.vStr "Cash".data)]]

/-- Whether a mutation is a remote create call. -/
def isCreateMut : Mut → Bool
  | Mut.createCall _ => true
  | _ => false

/-- A mutation carries no protected field in its payload. -/
def mutProtectedFree : Mut → Prop
  | Mut.createCall p => ∀ f ∈ PROTECTED_FIELDS, dget p f = none
  | Mut.updateCall _ p => ∀ f ∈ PROTECTED_FIELDS, dget p f = none
  | Mut.sleepCall _ => True

/-- Concrete source record for the `account_type`-only update scenario. -/
def exSrcAccountType : Doc :=
  [(Field.account_name, PyVal.vStr "Cash".data), (Field.account_type, PyVal.vStr "Bank".data)]

/-- Concrete matched target record for the `account_type`-only update
scenario. -/
def exTgtAccountType : Doc :=
  [(Field.account_name, PyVal.vStr "Cash".data), (Field.account_type, PyVal.vStr "Cash".data)]

/-- The normalized key under which the per-record loop of `sync_all` looks
up a processed source record in the match table (line 400):
`normalize_name` of the name expression of the stripped prepared doc,
expressed as a function of the record's `name_to_doc` key. -/
def srcNormOfKey (ntd : List (LC × Doc)) (n : LC) : LC :=
  match alookup ntd n with
  | some raw => normalize_name (nameIsh (popProtected (prepare_source_doc_for_transfer raw)) n)
  | none => n

/-- The lockstep coupling between a dry-run state `stD` and a live state
`stL` of `sync_all`, relative to the initial match table `lk0`, the target
inventory `tgts`, and the source keys `rem` still to be processed: the
decision logs agree, the dry run has touched neither the remote store nor
the mutation log, the match tables have the same keys in the same order,
both match tables still hold the initial entry (or initial absence) at the
normalized key of every unprocessed record, and the live store still
answers `get_account` like the untouched inventory for the names of the
initially matched entries of unprocessed records. -/
def coupled (tgts : List Doc) (lk0 : List (LC × Doc)) (ntd : List (LC × Doc))
    (rem : List LC) (stD stL : St) : Prop :=
  stD.decisions = stL.decisions ∧
  stD.store = tgts ∧
  stD.muts = [] ∧
  stD.lookup.map Prod.fst = stL.lookup.map Prod.fst ∧
  (∀ n ∈ rem, alookup stD.lookup (srcNormOfKey ntd n) = alookup lk0 (srcNormOfKey ntd n)) ∧
  (∀ n ∈ rem, alookup stL.lookup (srcNormOfKey ntd n) = alookup lk0 (srcNormOfKey ntd n)) ∧
  (∀ n ∈ rem, ∀ t s, alookup lk0 (srcNormOfKey ntd n) = some t →
    dget t Field.name = some (PyVal.vStr s) → storeGet stL.store s = storeGet tgts s)

/-- Concrete two-record source inventory (root `A`, child `B`) whose
`name_to_doc` is `chainNtd`. -/
def witSrcs : List Doc :=
  [[(Field.name, PyVal.vStr "A".data)],
    [(Field.name, PyVal.vStr "B".data), (Field.parent_account, PyVal.vStr "A".data)]]

-- ===== end of definitions (claims C1, C9 scope); more definitions are added below, before the theorems =====

/-! ## Character-level lemmas -/

theorem char_toNat_ofNat (n : Nat) (h : n.isValidChar) : (Char.ofNat n).toNat = n := by
  simp [Char.ofNat, h, Char.ofNatAux, Char.toNat, UInt32.toNat]

theorem toLower_eq_self (c : Char) (h : ¬(65 ≤ c.toNat ∧ c.toNat ≤ 90)) :
    Char.toLower c = c := by
  simp only [Char.toLower]
  rw [if_neg]
  omega

theorem toLower_toNat_upper (c : Char) (h : 65 ≤ c.toNat ∧ c.toNat ≤ 90) :
    (Char.toLower c).toNat = c.toNat + 32 := by
  simp only [Char.toLower]
  rw [if_pos (by omega)]
  exact char_toNat_ofNat _ (Or.inl (by omega))

theorem toLower_idem (c : Char) : Char.toLower (Char.toLower c) = Char.toLower c := by
  by_cases h : 65 ≤ c.toNat ∧ c.toNat ≤ 90
  · have h2 := toLower_toNat_upper c h
    exact toLower_eq_self _ (by omega)
  · rw [toLower_eq_self c h]
    exact toLower_eq_self c h

theorem isPySpace_toLower (c : Char) : isPySpace (Char.toLower c) = isPySpace c := by
  by_cases h : 65 ≤ c.toNat ∧ c.toNat ≤ 90
  · have h2 := toLower_toNat_upper c h
    have hA : isPySpace (Char.toLower c) = false := by
      simp only [isPySpace, h2, Bool.or_eq_false_iff, decide_eq_false_iff_not]
      omega
    have hB : isPySpace c = false := by
      simp only [isPySpace, Bool.or_eq_false_iff, decide_eq_false_iff_not]
      omega
    rw [hA, hB]
  · rw [toLower_eq_self c h]

theorem map_toLower_idem (s : List Char) :
    (s.map Char.toLower).map Char.toLower = s.map Char.toLower := by
  induction s with
  | nil => rfl
  | cons c cs ih => simp [toLower_idem, ih]

/-! ## Lemmas about `pyStrip` -/

theorem dropWhile_headWsFree (s : LC) : headWsFree (s.dropWhile isPySpace) := by
  induction s with
  | nil => intro c h; simp [List.dropWhile] at h
  | cons a t ih =>
    intro c h
    by_cases ha : isPySpace a
    · rw [List.dropWhile_cons, if_pos ha] at h
      exact ih c h
    · rw [List.dropWhile_cons, if_neg ha] at h
      simp only [List.head?_cons, Option.some.injEq] at h
      subst h
      simpa using ha

theorem dropWhile_fix (s : LC) (h : headWsFree s) : s.dropWhile isPySpace = s := by
  cases s with
  | nil => rfl
  | cons a t =>
    rw [List.dropWhile_cons, if_neg]
    have := h a rfl
    simp [this]

theorem pyStrip_headWsFree (s : LC) : headWsFree (pyStrip s) := by
  intro c h
  obtain ⟨r, hr⟩ := List.rdropWhile_prefix isPySpace (s.dropWhile isPySpace)
  apply dropWhile_headWsFree s c
  have hr2 : s.dropWhile isPySpace = pyStrip s ++ r := hr.symm
  rw [hr2]
  cases hp : pyStrip s with
  | nil => rw [hp] at h; simp at h
  | cons a t =>
    rw [hp] at h
    simp only [List.head?_cons, Option.some.injEq] at h
    simp [h]

theorem pyStrip_lastWsFree (s : LC) : lastWsFree (pyStrip s) := by
  intro c h
  unfold pyStrip at h
  have hne : List.rdropWhile isPySpace (s.dropWhile isPySpace) ≠ [] := by
    intro hnil; rw [hnil] at h; simp at h
  have hlast := List.rdropWhile_last_not isPySpace (s.dropWhile isPySpace) hne
  rw [List.getLast?_eq_getLast_of_ne_nil hne] at h
  simp only [Option.some.injEq] at h
  rw [h] at hlast
  simpa using hlast

theorem rdropWhile_fix (s : LC) (h : lastWsFree s) : List.rdropWhile isPySpace s = s := by
  rw [List.rdropWhile_eq_self_iff]
  intro hl
  have := h _ (List.getLast?_eq_getLast_of_ne_nil hl)
  simp [this]

theorem pyStrip_fix (s : LC) (h1 : headWsFree s) (h2 : lastWsFree s) : pyStrip s = s := by
  unfold pyStrip
  rw [dropWhile_fix s h1, rdropWhile_fix s h2]

theorem stripLeadingNumber_cases (n : LC) :
    stripLeadingNumber n = n ∨ ∃ t, stripLeadingNumber n = pyStrip t := by
  simp only [stripLeadingNumber]
  split
  · exact Or.inl rfl
  · exact Or.inr ⟨_, rfl⟩

/-! ## Lemmas about `collapseWs` -/

theorem collapse_head_cons (d : Char) (rest : LC) (hd : isPySpace d = false) :
    (collapseWs (d :: rest)).head? = some d := by
  cases rest with
  | nil => simp [collapseWs, hd]
  | cons e rest2 => simp [collapseWs, hd]

theorem collapse_ne_nil (s : LC) (h : s ≠ []) : collapseWs s ≠ [] := by
  induction s with
  | nil => exact absurd rfl h
  | cons c tail ih =>
    cases tail with
    | nil =>
      simp only [collapseWs]
      split <;> simp
    | cons d rest =>
      simp only [collapseWs]
      split
      · exact ih (by simp)
      · simp

theorem singlySpaced_cons (x : Char) (t : LC) (hx : (!isPySpace x || x = ' ') = true)
    (hhead : ∀ e, t.head? = some e → ¬(isPySpace x = true ∧ isPySpace e = true))
    (ht : singlySpaced t = true) : singlySpaced (x :: t) = true := by
  cases t with
  | nil => simpa [singlySpaced] using hx
  | cons e t2 =>
    simp only [singlySpaced, Bool.and_eq_true, Bool.not_eq_true']
    refine ⟨⟨hx, ?_⟩, ht⟩
    have := hhead e rfl
    simp only [Bool.and_eq_false_iff]
    by_cases h1 : isPySpace x = true
    · right
      by_cases h2 : isPySpace e = true
      · exact absurd ⟨h1, h2⟩ this
      · simpa using h2
    · left
      simpa using h1

theorem ss_collapse (s : LC) : singlySpaced (collapseWs s) = true := by
  induction s with
  | nil => rfl
  | cons c tail ih =>
    cases tail with
    | nil =>
      simp only [collapseWs]
      split <;> simp_all [singlySpaced]
    | cons d rest =>
      by_cases hcd : (isPySpace c && isPySpace d) = true
      · rw [show collapseWs (c :: d :: rest) = collapseWs (d :: rest) by
          simp only [collapseWs]; rw [if_pos hcd]]
        exact ih
      · rw [show collapseWs (c :: d :: rest)
            = (if isPySpace c then ' ' else c) :: collapseWs (d :: rest) by
          simp only [collapseWs]; rw [if_neg hcd]]
        apply singlySpaced_cons
        · by_cases hc : isPySpace c = true
          · simp [hc]
          · simp [hc]
        · intro e he hcontra
          by_cases hc : isPySpace c = true
          · rw [if_pos hc] at hcontra
            have hd : isPySpace d = false := by
              simp [hc] at hcd
              simpa using hcd
            rw [collapse_head_cons d rest hd] at he
            simp only [Option.some.injEq] at he
            rw [← he] at hcontra
            rw [hd] at hcontra
            simp at hcontra
          · rw [if_neg hc] at hcontra
            exact hc hcontra.1
        · exact ih

theorem collapse_fix (t : LC) (h : singlySpaced t = true) : collapseWs t = t := by
  induction t with
  | nil => rfl
  | cons c tail ih =>
    cases tail with
    | nil =>
      simp only [singlySpaced, Bool.or_eq_true, Bool.not_eq_true'] at h
      simp only [collapseWs]
      rcases h with h | h
      · rw [if_neg (by simp [h])]
      · have hc' : c = ' ' := by simpa using h
        rw [hc']
        split <;> rfl
    | cons d rest =>
      simp only [singlySpaced, Bool.and_eq_true, Bool.not_eq_true'] at h
      obtain ⟨⟨hc, hcd⟩, htail⟩ := h
      simp only [collapseWs]
      rw [if_neg (by simp [hcd])]
      have htail2 : singlySpaced (d :: rest) = true := htail
      rw [ih htail2]
      congr 1
      rcases (Bool.or_eq_true _ _).mp hc with h1 | h1
      · rw [if_neg (by simpa using h1)]
      · have : c = ' ' := by simpa using h1
        rw [this]
        split <;> rfl

theorem ss_map_toLower (s : LC) (h : singlySpaced s = true) :
    singlySpaced (s.map Char.toLower) = true := by
  induction s with
  | nil => rfl
  | cons c tail ih =>
    cases tail with
    | nil =>
      simp only [singlySpaced, Bool.or_eq_true, Bool.not_eq_true'] at h
      simp only [List.map_cons, List.map_nil, singlySpaced, Bool.or_eq_true, Bool.not_eq_true']
      rcases h with h | h
      · left; rw [isPySpace_toLower, h]
      · right
        have hc' : c = ' ' := by simpa using h
        rw [hc']
        decide
    | cons d rest =>
      simp only [singlySpaced, Bool.and_eq_true, Bool.not_eq_true'] at h
      obtain ⟨⟨hc, hcd⟩, htail⟩ := h
      have ih2 := ih htail
      simp only [List.map_cons] at ih2 ⊢
      simp only [singlySpaced, Bool.and_eq_true, Bool.not_eq_true']
      refine ⟨⟨?_, ?_⟩, ih2⟩
      · rcases (Bool.or_eq_true _ _).mp hc with h1 | h1
        · simp only [Bool.or_eq_true, Bool.not_eq_true']
          left; rw [isPySpace_toLower]; simpa using h1
        · simp only [Bool.or_eq_true]
          right
          have hc' : c = ' ' := by simpa using h1
          rw [hc']; decide
      · rw [Bool.and_eq_false_iff] at hcd ⊢
        rcases hcd with h1 | h1
        · left; rw [isPySpace_toLower]; exact h1
        · right; rw [isPySpace_toLower]; exact h1

theorem collapse_headWsFree (s : LC) (h : headWsFree s) : headWsFree (collapseWs s) := by
  intro c hc
  cases s with
  | nil => simp [collapseWs] at hc
  | cons a tail =>
    have ha : isPySpace a = false := h a rfl
    rw [collapse_head_cons a tail ha] at hc
    simp only [Option.some.injEq] at hc
    rw [← hc]; exact ha

theorem collapse_last (s : LC) (c : Char) (hlast : s.getLast? = some c)
    (hc : isPySpace c = false) : (collapseWs s).getLast? = some c := by
  induction s with
  | nil => simp at hlast
  | cons a tail ih =>
    cases tail with
    | nil =>
      simp only [List.getLast?_singleton, Option.some.injEq] at hlast
      rw [← hlast] at hc ⊢
      simp [collapseWs, hc]
    | cons d rest =>
      rw [List.getLast?_cons_cons] at hlast
      have ih2 := ih hlast
      by_cases had : (isPySpace a && isPySpace d) = true
      · rw [show collapseWs (a :: d :: rest) = collapseWs (d :: rest) by
          simp only [collapseWs]; rw [if_pos had]]
        exact ih2
      · rw [show collapseWs (a :: d :: rest)
            = (if isPySpace a then ' ' else a) :: collapseWs (d :: rest) by
          simp only [collapseWs]; rw [if_neg had]]
        cases hcc : collapseWs (d :: rest) with
        | nil => exact absurd hcc (collapse_ne_nil _ (by simp))
        | cons e t =>
          rw [hcc] at ih2
          rw [List.getLast?_cons_cons]
          exact ih2

theorem collapse_lastWsFree (s : LC) (h : lastWsFree s) : lastWsFree (collapseWs s) := by
  intro c hc
  cases hl : s.getLast? with
  | none =>
    have : s = [] := by
      cases s with
      | nil => rfl
      | cons a t => rw [List.getLast?_eq_getLast_of_ne_nil (by simp)] at hl; simp at hl
    rw [this] at hc
    simp [collapseWs] at hc
  | some d =>
    have hd : isPySpace d = false := h d hl
    rw [collapse_last s d hl hd] at hc
    simp only [Option.some.injEq] at hc
    rw [← hc]; exact hd

theorem map_toLower_headWsFree (s : LC) (h : headWsFree s) :
    headWsFree (s.map Char.toLower) := by
  intro c hc
  rw [List.head?_map] at hc
  obtain ⟨d, hd, hdc⟩ := Option.map_eq_some'.mp hc
  rw [← hdc, isPySpace_toLower]
  exact h d hd

theorem map_toLower_lastWsFree (s : LC) (h : lastWsFree s) :
    lastWsFree (s.map Char.toLower) := by
  intro c hc
  rw [List.getLast?_map] at hc
  obtain ⟨d, hd, hdc⟩ := Option.map_eq_some'.mp hc
  rw [← hdc, isPySpace_toLower]
  exact h d hd

/-! ## The shape of `normalize_name`'s output -/

theorem stripLeadingNumber_strip_headWsFree (s : LC) :
    headWsFree (stripLeadingNumber (pyStrip s)) := by
  rcases stripLeadingNumber_cases (pyStrip s) with h | ⟨t, h⟩
  · rw [h]; exact pyStrip_headWsFree s
  · rw [h]; exact pyStrip_headWsFree t

theorem stripLeadingNumber_strip_lastWsFree (s : LC) :
    lastWsFree (stripLeadingNumber (pyStrip s)) := by
  rcases stripLeadingNumber_cases (pyStrip s) with h | ⟨t, h⟩
  · rw [h]; exact pyStrip_lastWsFree s
  · rw [h]; exact pyStrip_lastWsFree t

theorem normalize_name_eq_of_not_empty (n : LC) (hn : n.isEmpty = false) :
    normalize_name n = (collapseWs (stripLeadingNumber (pyStrip n))).map Char.toLower := by
  simp [normalize_name, hn]

theorem normalize_name_headWsFree (n : LC) : headWsFree (normalize_name n) := by
  by_cases hn : n.isEmpty
  · intro c hc; simp [normalize_name, hn] at hc
  · rw [normalize_name_eq_of_not_empty n (by simpa using hn)]
    exact map_toLower_headWsFree _ (collapse_headWsFree _ (stripLeadingNumber_strip_headWsFree n))

theorem normalize_name_lastWsFree (n : LC) : lastWsFree (normalize_name n) := by
  by_cases hn : n.isEmpty
  · intro c hc; simp [normalize_name, hn] at hc
  · rw [normalize_name_eq_of_not_empty n (by simpa using hn)]
    exact map_toLower_lastWsFree _ (collapse_lastWsFree _ (stripLeadingNumber_strip_lastWsFree n))

theorem normalize_name_singlySpaced (n : LC) : singlySpaced (normalize_name n) = true := by
  by_cases hn : n.isEmpty
  · have : normalize_name n = [] := by simp [normalize_name, hn]
    rw [this]; rfl
  · rw [normalize_name_eq_of_not_empty n (by simpa using hn)]
    exact ss_map_toLower _ (ss_collapse _)

theorem normalize_name_map_toLower_fix (n : LC) :
    (normalize_name n).map Char.toLower = normalize_name n := by
  by_cases hn : n.isEmpty
  · have : normalize_name n = [] := by simp [normalize_name, hn]
    rw [this]; rfl
  · rw [normalize_name_eq_of_not_empty n (by simpa using hn)]
    exact map_toLower_idem _

/-- Claim C1, counterexample.  `normalize_name` is not idempotent: the name
`"1 2 3"` normalizes to `"2 3"`, which normalizes again to `"3"` (the regex
strips one leading numeric prefix per application, so stacked numeric
prefixes strip one layer per call).  Likewise the `sync_accounts.py` variant
on `"1000-2000-Cash"`. -/
theorem claim_C1_counterexample :
    (normalize_name (normalize_name "1 2 3".data) ≠ normalize_name "1 2 3".data ∧
      normalize_name "1 2 3".data = "2 3".data ∧
      normalize_name (normalize_name "1 2 3".data) = "3".data) ∧
    normalize_name_v1 (normalize_name_v1 "1000-2000-Cash".data) ≠
      normalize_name_v1 "1000-2000-Cash".data := by
  constructor
  · refine ⟨by decide, by decide, by decide⟩
  · decide

/-- Claim C1, amended.  `normalize_name` is total by construction (it is a
Lean function on all of `List Char`), and it is idempotent on every name
whose normalized form is not itself subject to the leading-numeric-prefix
rewrite — that is, whenever `stripLeadingNumber` fixes `normalize_name n`,
then `normalize_name (normalize_name n) = normalize_name n`.  (Names with
stacked numeric prefixes such as `"1 2 3"` violate idempotence, see the
counterexample.) -/
theorem claim_C1 (n : LC)
    (h : stripLeadingNumber (normalize_name n) = normalize_name n) :
    normalize_name (normalize_name n) = normalize_name n := by
  by_cases hm : (normalize_name n).isEmpty
  · have h0 : normalize_name n = [] := by
      cases hmm : normalize_name n with
      | nil => rfl
      | cons a t => rw [hmm] at hm; simp at hm
    rw [h0]
    rfl
  · rw [normalize_name_eq_of_not_empty _ (by simpa using hm)]
    rw [pyStrip_fix _ (normalize_name_headWsFree n) (normalize_name_lastWsFree n)]
    rw [h]
    rw [collapse_fix _ (normalize_name_singlySpaced n)]
    exact normalize_name_map_toLower_fix n

/-- Witness for claim C1's amended theorem at the concrete name
`"1000 - Cash"`. -/
theorem claim_C1_witness :
    (stripLeadingNumber (normalize_name "1000 - Cash".data) = normalize_name "1000 - Cash".data) ∧
      normalize_name (normalize_name "1000 - Cash".data) = normalize_name "1000 - Cash".data :=
  ⟨by decide, claim_C1 _ (by decide)⟩

/-! ## Dict operation lemmas -/

theorem dget_dset_same (d : Doc) (f : Field) (v : PyVal) : dget (dset d f v) f = some v := by
  induction d with
  | nil => simp [dset, dget]
  | cons kv rest ih =>
    obtain ⟨k, w⟩ := kv
    by_cases hk : k = f
    · simp [dset, dget, hk]
    · simp [dset, dget, hk, ih]

theorem dget_dset_other (d : Doc) (f g : Field) (v : PyVal) (h : f ≠ g) :
    dget (dset d g v) f = dget d f := by
  induction d with
  | nil =>
    simp only [dset, dget]
    rw [if_neg (fun hh : g = f => h hh.symm)]
  | cons kv rest ih =>
    obtain ⟨k, w⟩ := kv
    simp only [dset]
    by_cases hk : k = g
    · rw [if_pos hk]
      simp only [dget]
      have hkf : ¬k = f := fun hh => h (by rw [← hh, hk])
      rw [if_neg hkf, if_neg hkf]
    · rw [if_neg hk]
      simp only [dget]
      by_cases hkf : k = f
      · rw [if_pos hkf, if_pos hkf]
      · rw [if_neg hkf, if_neg hkf]
        exact ih

theorem dget_dpop_same (d : Doc) (f : Field) : dget (dpop d f) f = none := by
  induction d with
  | nil => rfl
  | cons kv rest ih =>
    obtain ⟨k, w⟩ := kv
    simp only [dpop]
    by_cases hk : k = f
    · rw [if_pos hk]; exact ih
    · rw [if_neg hk]
      simp only [dget]
      rw [if_neg hk]
      exact ih

theorem dget_dpop_other (d : Doc) (f g : Field) (h : f ≠ g) :
    dget (dpop d g) f = dget d f := by
  induction d with
  | nil => rfl
  | cons kv rest ih =>
    obtain ⟨k, w⟩ := kv
    simp only [dpop]
    by_cases hk : k = g
    · rw [if_pos hk]
      simp only [dget]
      have hkf : ¬k = f := fun hh => h (by rw [← hh, hk])
      rw [if_neg hkf]
      exact ih
    · rw [if_neg hk]
      simp only [dget]
      by_cases hkf : k = f
      · rw [if_pos hkf, if_pos hkf]
      · rw [if_neg hkf, if_neg hkf]
        exact ih

theorem dget_nil (f : Field) : dget [] f = none := rfl

/-! ## Claim C9: reflexivity of the differs -/

/-- Claim C9: the diff of any record against itself is empty, for the
`sync_accounts_v2.py` differ and the `sync_accounts.py` differ alike.  The
well-formedness hypothesis excludes an integer in the `parent_account` slot,
where Python's `normalize_name` would raise rather than return an empty
diff. -/
theorem claim_C9 (x : Doc) (hp : valStrOk (dget x Field.parent_account) = true) :
    account_differences x x = [] ∧ compare_accounts x x = [] := by
  constructor
  · simp [account_differences, COMPARE_FIELDS, diffEntry]
  · simp [compare_accounts, COMPARE_FIELDS, diffEntryV1]

/-- Witness for claim C9 at a concrete record (with protected fields
present). -/
theorem claim_C9_witness :
    (valStrOk (dget [(Field.account_name, PyVal.vStr "Cash".data),
        (Field.parent_account, PyVal.vStr "1 - Assets".data),
        (Field.is_group, PyVal.vInt 0),
        (Field.balance, PyVal.vInt 100)] Field.parent_account) = true) ∧
      account_differences [(Field.account_name, PyVal.vStr "Cash".data),
        (Field.parent_account, PyVal.vStr "1 - Assets".data),
        (Field.is_group, PyVal.vInt 0),
        (Field.balance, PyVal.vInt 100)]
        [(Field.account_name, PyVal.vStr "Cash".data),
        (Field.parent_account, PyVal.vStr "1 - Assets".data),
        (Field.is_group, PyVal.vInt 0),
        (Field.balance, PyVal.vInt 100)] = [] :=
  ⟨by decide, (claim_C9 _ (by decide)).1⟩

/-! ## Claim C10: auto-created parents are always groups -/

/-- Claim C10: every parent-creation payload the reconciler builds has
`is_group = 1`: the payload derived from the parent's source record (where
line 437 of `sync_accounts_v2.py` forces `is_group` to `1` regardless of the
source value), the minimal placeholder payload, and the fixed
`ensure_parent` payload of `sync_accounts.py`. -/
theorem claim_C10 :
    (∀ pdoc : Doc, dget (mkParentPayloadFromSource pdoc) Field.is_group = some (PyVal.vInt 1)) ∧
    (∀ parent : LC, dget (mkPlaceholderParent parent) Field.is_group = some (PyVal.vInt 1)) ∧
    (∀ norm_parent : LC, dget (parent_data_v1 norm_parent) Field.is_group = some (PyVal.vInt 1)) := by
  refine ⟨?_, ?_, ?_⟩
  · intro pdoc
    unfold mkParentPayloadFromSource
    rw [dget_dpop_other _ _ _ (by decide)]
    split
    · exact dget_dset_same _ _ _
    · rw [dget_dset_other _ _ _ _ (by decide)]
      exact dget_dset_same _ _ _
  · intro parent
    simp [mkPlaceholderParent, dget]
  · intro norm_parent
    simp [parent_data_v1, dget]

/-! ## Shape of the diff dict and of the update payload -/

theorem foldl_append_eq {α β : Type} (e : α → List β) (l : List α) (acc : List β) :
    l.foldl (fun a x => a ++ e x) acc = acc ++ l.flatMap e := by
  induction l generalizing acc with
  | nil => simp
  | cons x rest ih => simp [ih, List.append_assoc]

theorem flatMap_map_fst_sublist {α β : Type} (e : α → List (α × β)) (l : List α)
    (h : ∀ x, ((e x).map Prod.fst).Sublist [x]) :
    ((l.flatMap e).map Prod.fst).Sublist l := by
  induction l with
  | nil => simp
  | cons x rest ih =>
    rw [List.flatMap_cons, List.map_append]
    have := List.Sublist.append (h x) ih
    simpa using this

theorem diffEntry_key (src tgt : Doc) (f : Field) :
    ((diffEntry src tgt f).map Prod.fst).Sublist [f] := by
  unfold diffEntry
  split <;> split <;> simp

theorem account_differences_keys_sublist (src tgt : Doc) :
    ((account_differences src tgt).map Prod.fst).Sublist COMPARE_FIELDS := by
  unfold account_differences
  rw [foldl_append_eq]
  simpa using flatMap_map_fst_sublist _ _ (diffEntry_key src tgt)

theorem account_differences_keys_nodup (src tgt : Doc) :
    ((account_differences src tgt).map Prod.fst).Nodup :=
  (account_differences_keys_sublist src tgt).nodup (by decide)

theorem dset_append_of_fresh (pl : Doc) (k : Field) (v : PyVal) (h : dget pl k = none) :
    dset pl k v = pl ++ [(k, v)] := by
  induction pl with
  | nil => rfl
  | cons kv rest ih =>
    obtain ⟨k2, w⟩ := kv
    simp only [dget] at h
    by_cases hk : k2 = k
    · rw [if_pos hk] at h; simp at h
    · rw [if_neg hk] at h
      simp only [dset]
      rw [if_neg hk, List.cons_append]
      rw [ih h]

theorem dget_append_left (a b : Doc) (k : Field) (v : PyVal) (h : dget a k = some v) :
    dget (a ++ b) k = some v := by
  induction a with
  | nil => simp [dget] at h
  | cons kv rest ih =>
    obtain ⟨k2, w⟩ := kv
    simp only [dget] at h ⊢
    by_cases hk : k2 = k
    · rw [if_pos hk] at h ⊢; exact h
    · rw [if_neg hk] at h ⊢; exact ih h

theorem dget_append_right (a b : Doc) (k : Field) (h : dget a k = none) :
    dget (a ++ b) k = dget b k := by
  induction a with
  | nil => rfl
  | cons kv rest ih =>
    obtain ⟨k2, w⟩ := kv
    simp only [dget] at h ⊢
    by_cases hk : k2 = k
    · rw [if_pos hk] at h; simp at h
    · rw [if_neg hk] at h ⊢; exact ih h

theorem updateEntry_key (src : Doc) (lk : List (LC × Doc)) (k : Field) (e : Field × PyVal)
    (h : updateEntry src lk k = some e) : e.1 = k := by
  unfold updateEntry at h
  by_cases hk : k = Field.parent_account
  · rw [if_pos hk] at h
    cases hts : truthyStrField src Field.parent_account with
    | none => rw [hts] at h; simp at h
    | some dp =>
      rw [hts] at h
      simp only [Option.some.injEq] at h
      rw [← h, hk]
  · rw [if_neg hk] at h
    simp only [Option.some.injEq] at h
    rw [← h]

theorem updateStep_eq_entry (src : Doc) (lk : List (LC × Doc)) (pl : Doc) (k : Field) :
    updateStep src lk pl k =
      match updateEntry src lk k with
      | some e => dset pl e.1 e.2
      | none => pl := by
  unfold updateStep updateEntry
  by_cases hk : k = Field.parent_account
  · rw [if_pos hk, if_pos hk]
    cases truthyStrField src Field.parent_account <;> rfl
  · rw [if_neg hk, if_neg hk]

theorem updateFold_eq_filterMap (src : Doc) (lk : List (LC × Doc)) :
    ∀ (ks : List Field) (pl : Doc), ks.Nodup → (∀ k ∈ ks, dget pl k = none) →
      ks.foldl (updateStep src lk) pl = pl ++ ks.filterMap (updateEntry src lk) := by
  intro ks
  induction ks with
  | nil => intro pl _ _; simp
  | cons k rest ih =>
    intro pl hnd hfresh
    rw [List.foldl_cons, updateStep_eq_entry]
    cases he : updateEntry src lk k with
    | none =>
      dsimp only
      rw [List.filterMap_cons, he]
      exact ih pl (List.Nodup.of_cons hnd) (fun k2 hk2 => hfresh k2 (List.mem_cons_of_mem k hk2))
    | some e =>
      dsimp only
      have hek : e.1 = k := updateEntry_key src lk k e he
      have hfr : dget pl e.1 = none := hek ▸ hfresh k (List.mem_cons_self k rest)
      rw [dset_append_of_fresh pl e.1 e.2 hfr]
      rw [List.filterMap_cons, he]
      dsimp only
      have hfresh2 : ∀ k2 ∈ rest, dget (pl ++ [(e.1, e.2)]) k2 = none := by
        intro k2 hk2
        rw [dget_append_right _ _ _ (hfresh k2 (List.mem_cons_of_mem k hk2))]
        simp only [dget]
        rw [if_neg]
        rw [hek]
        intro hkk
        rw [List.nodup_cons] at hnd
        exact hnd.1 (hkk ▸ hk2)
      rw [ih (pl ++ [(e.1, e.2)]) (List.Nodup.of_cons hnd) hfresh2]
      simp

theorem buildUpdatePayload_eq (src : Doc) (lk : List (LC × Doc)) (ks : List Field)
    (hnd : ks.Nodup) :
    buildUpdatePayload src ks lk = ks.filterMap (updateEntry src lk) := by
  unfold buildUpdatePayload
  rw [updateFold_eq_filterMap src lk ks [] hnd (fun k _ => rfl)]
  rfl

theorem filterMap_updateEntry_keys (src : Doc) (lk : List (LC × Doc)) (ks : List Field) :
    ((ks.filterMap (updateEntry src lk)).map Prod.fst)
      = ks.filter (fun k =>
          if k = Field.parent_account then (truthyStrField src Field.parent_account).isSome
          else true) := by
  induction ks with
  | nil => rfl
  | cons k rest ih =>
    rw [List.filterMap_cons, List.filter_cons]
    by_cases hk : k = Field.parent_account
    · cases hts : truthyStrField src Field.parent_account with
      | none =>
        have he : updateEntry src lk k = none := by
          unfold updateEntry
          rw [if_pos hk, hts]
        rw [he, if_neg (by simp [hk, hts])]
        dsimp only
        rw [hts] at ih
        exact ih
      | some dp =>
        have he : updateEntry src lk k
            = some (Field.parent_account, PyVal.vStr (resolvedParentName lk dp)) := by
          unfold updateEntry
          rw [if_pos hk, hts]
        rw [he, if_pos (by simp [hk, hts])]
        dsimp only
        rw [hts] at ih
        simp only [List.map_cons, ih]
        rw [hk]
    · have he : updateEntry src lk k = some (k, (dget src k).getD PyVal.vNone) := by
        unfold updateEntry
        rw [if_neg hk]
      rw [he, if_pos (by simp [hk])]
      dsimp only
      simp only [List.map_cons, ih]

theorem dget_filterMap_updateEntry (src : Doc) (lk : List (LC × Doc)) (ks : List Field)
    (k : Field) (e : Field × PyVal) (hke : updateEntry src lk k = some e) (hk1 : e.1 = k)
    (hmem : k ∈ ks) :
    dget (ks.filterMap (updateEntry src lk)) k = some e.2 := by
  induction ks with
  | nil => simp at hmem
  | cons k0 rest ih =>
    rw [List.filterMap_cons]
    by_cases h0 : k0 = k
    · rw [h0, hke]
      simp only [dget]
      rw [if_pos hk1]
    · cases he0 : updateEntry src lk k0 with
      | none =>
        exact ih (by rcases List.mem_cons.mp hmem with h | h; exact absurd h.symm h0; exact h)
      | some e0 =>
        simp only [dget]
        rw [if_neg (by rw [updateEntry_key src lk k0 e0 he0]; exact h0)]
        exact ih (by rcases List.mem_cons.mp hmem with h | h; exact absurd h.symm h0; exact h)

/-! ## Claim C6: shape of the update payload -/

/-- Claim C6, counterexample.  A source record with no `parent_account` key,
matched against a target record whose `parent_account` is `"P"`, yields the
diff `{parent_account}`; but the update payload built from that diff is the
empty dict, because the payload loop's `if desired_parent:` guard has no
else branch.  So the payload's key set is not the diff's key set. -/
theorem claim_C6_counterexample :
    ((account_differences [(Field.account_name, PyVal.vStr "x".data)]
          [(Field.account_name, PyVal.vStr "x".data),
            (Field.parent_account, PyVal.vStr "P".data)]).map Prod.fst
        = [Field.parent_account]) ∧
      buildUpdatePayload [(Field.account_name, PyVal.vStr "x".data)]
          ((account_differences [(Field.account_name, PyVal.vStr "x".data)]
            [(Field.account_name, PyVal.vStr "x".data),
              (Field.parent_account, PyVal.vStr "P".data)]).map Prod.fst) []
        = [] := by
  refine ⟨by decide, by decide⟩

/-- Claim C6, amended.  The update payload's key set equals the diff's key
set except that a changed `parent_account` is omitted when the source
record's own parent reference is falsy (absent, `None` or empty).  For a
changed `parent_account` with truthy source value `dp`, the payload's value
is the parent's target-side name resolved through the match table when a
resolved entry with a truthy name is available, and the raw source-side
string otherwise (`resolvedParentName`).  Every other changed field is
copied from the source record verbatim. -/
theorem claim_C6 (src tgt : Doc) (lk : List (LC × Doc)) :
    ((buildUpdatePayload src ((account_differences src tgt).map Prod.fst) lk).map Prod.fst
        = ((account_differences src tgt).map Prod.fst).filter
            (fun k => if k = Field.parent_account
              then (truthyStrField src Field.parent_account).isSome else true)) ∧
      (∀ dp, truthyStrField src Field.parent_account = some dp →
        Field.parent_account ∈ (account_differences src tgt).map Prod.fst →
        dget (buildUpdatePayload src ((account_differences src tgt).map Prod.fst) lk)
            Field.parent_account = some (PyVal.vStr (resolvedParentName lk dp))) ∧
      (∀ k ∈ (account_differences src tgt).map Prod.fst, k ≠ Field.parent_account →
        dget (buildUpdatePayload src ((account_differences src tgt).map Prod.fst) lk) k
          = some ((dget src k).getD PyVal.vNone)) := by
  have hnd := account_differences_keys_nodup src tgt
  rw [buildUpdatePayload_eq src lk _ hnd]
  refine ⟨filterMap_updateEntry_keys src lk _, ?_, ?_⟩
  · intro dp hdp hmem
    have he : updateEntry src lk Field.parent_account
        = some (Field.parent_account, PyVal.vStr (resolvedParentName lk dp)) := by
      unfold updateEntry
      rw [if_pos rfl, hdp]
    exact dget_filterMap_updateEntry src lk _ Field.parent_account _ he rfl hmem
  · intro k hmem hk
    have he : updateEntry src lk k = some (k, (dget src k).getD PyVal.vNone) := by
      unfold updateEntry
      rw [if_neg hk]
    exact dget_filterMap_updateEntry src lk _ k _ he rfl hmem

/-- Witness for claim C6 at the `account_type`-only scenario: the pair
differs exactly in `account_type` and the payload carries the source's
`account_type` value. -/
theorem claim_C6_witness :
    (Field.account_type ∈ (account_differences exSrcAccountType exTgtAccountType).map Prod.fst) ∧
      dget (buildUpdatePayload exSrcAccountType
          ((account_differences exSrcAccountType exTgtAccountType).map Prod.fst) [])
        Field.account_type = some ((dget exSrcAccountType Field.account_type).getD PyVal.vNone) :=
  ⟨by decide, (claim_C6 exSrcAccountType exTgtAccountType []).2.2 Field.account_type
    (by decide) (by decide)⟩

/-! ## String-keyed dict lemmas -/

theorem alookup_aset_same {α : Type} (m : List (LC × α)) (k : LC) (v : α) :
    alookup (aset m k v) k = some v := by
  induction m with
  | nil => simp [aset, alookup]
  | cons kv rest ih =>
    obtain ⟨k2, w⟩ := kv
    simp only [aset]
    by_cases hk : k2 = k
    · rw [if_pos hk]
      simp only [alookup]
      rw [if_pos hk]
    · rw [if_neg hk]
      simp only [alookup]
      rw [if_neg hk]
      exact ih

theorem alookup_aset_other {α : Type} (m : List (LC × α)) (k k2 : LC) (v : α) (h : k ≠ k2) :
    alookup (aset m k2 v) k = alookup m k := by
  induction m with
  | nil =>
    simp only [aset, alookup]
    rw [if_neg (fun hh : k2 = k => h hh.symm)]
  | cons kv rest ih =>
    obtain ⟨k0, w⟩ := kv
    simp only [aset]
    by_cases hk : k0 = k2
    · rw [if_pos hk]
      simp only [alookup]
      have h0 : ¬k0 = k := fun hh => h (by rw [← hh, hk])
      rw [if_neg h0, if_neg h0]
    · rw [if_neg hk]
      simp only [alookup]
      by_cases h0 : k0 = k
      · rw [if_pos h0, if_pos h0]
      · rw [if_neg h0, if_neg h0]
        exact ih

theorem alookup_some_mem_keys {α : Type} (m : List (LC × α)) (k : LC) (v : α)
    (h : alookup m k = some v) : k ∈ m.map Prod.fst := by
  induction m with
  | nil => simp [alookup] at h
  | cons kv rest ih =>
    obtain ⟨k2, w⟩ := kv
    simp only [alookup] at h
    by_cases hk : k2 = k
    · simp only [List.map_cons, List.mem_cons]
      exact Or.inl hk.symm
    · rw [if_neg hk] at h
      simp only [List.map_cons, List.mem_cons]
      exact Or.inr (ih h)

theorem aset_extends {α : Type} (m : List (LC × α)) (k : LC) (v : α)
    (hfresh : alookup m k = none) :
    ∀ n w, alookup m n = some w → alookup (aset m k v) n = some w := by
  intro n w hn
  by_cases hnk : n = k
  · rw [hnk] at hn
    rw [hn] at hfresh
    simp at hfresh
  · rw [alookup_aset_other m n k v hnk]
    exact hn

theorem aset_some_preserved {α : Type} (m : List (LC × α)) (k : LC) (v : α) (n : LC)
    (h : alookup m n ≠ none) : alookup (aset m k v) n ≠ none := by
  by_cases hnk : n = k
  · rw [hnk, alookup_aset_same]
    simp
  · rw [alookup_aset_other m n k v hnk]
    exact h

/-! ## Correctness of the depth computation -/

theorem depthSpec_mono (ntd : List (LC × Doc)) (n : LC) (d : Nat)
    (m m2 : List (LC × Nat))
    (hext : ∀ k v, alookup m k = some v → alookup m2 k = some v)
    (h : depthSpec ntd n d m) : depthSpec ntd n d m2 := by
  unfold depthSpec at h ⊢
  cases hx : alookup ntd n with
  | none => rw [hx] at h; exact h
  | some doc =>
    rw [hx] at h
    dsimp only at h ⊢
    cases hy : truthyStrField doc Field.parent_account with
    | none => rw [hy] at h; exact h
    | some parent =>
      rw [hy] at h
      dsimp only at h ⊢
      cases hz : resolveParentKey ntd parent with
      | none => rw [hz] at h; exact h
      | some pk =>
        rw [hz] at h
        dsimp only at h ⊢
        obtain ⟨dp, h1, h2⟩ := h
        exact ⟨dp, hext pk dp h1, h2⟩

theorem depthSpec_of_lookup_none (ntd : List (LC × Doc)) (nm : LC) (m : List (LC × Nat))
    (h : alookup ntd nm = none) : depthSpec ntd nm 0 m := by
  unfold depthSpec
  rw [h]

theorem depthSpec_of_parent_none (ntd : List (LC × Doc)) (nm : LC) (doc : Doc)
    (m : List (LC × Nat)) (h1 : alookup ntd nm = some doc)
    (h2 : truthyStrField doc Field.parent_account = none) : depthSpec ntd nm 0 m := by
  unfold depthSpec
  rw [h1]
  dsimp only
  rw [h2]

theorem depthSpec_of_resolve_none (ntd : List (LC × Doc)) (nm : LC) (doc : Doc) (parent : LC)
    (m : List (LC × Nat)) (h1 : alookup ntd nm = some doc)
    (h2 : truthyStrField doc Field.parent_account = some parent)
    (h3 : resolveParentKey ntd parent = none) : depthSpec ntd nm 1 m := by
  unfold depthSpec
  rw [h1]
  dsimp only
  rw [h2]
  dsimp only
  rw [h3]

theorem depthSpec_of_resolve_some (ntd : List (LC × Doc)) (nm : LC) (doc : Doc) (parent pk : LC)
    (dp : Nat) (m : List (LC × Nat)) (h1 : alookup ntd nm = some doc)
    (h2 : truthyStrField doc Field.parent_account = some parent)
    (h3 : resolveParentKey ntd parent = some pk) (hdp : alookup m pk = some dp) :
    depthSpec ntd nm (dp + 1) m := by
  unfold depthSpec
  rw [h1]
  dsimp only
  rw [h2]
  dsimp only
  rw [h3]
  exact ⟨dp, hdp, rfl⟩

theorem depthInv_write (ntd : List (LC × Doc)) (m : List (LC × Nat)) (nm : LC) (val : Nat)
    (hmemo : alookup m nm = none) (hinv : depthInv ntd m)
    (hspec : depthSpec ntd nm val (aset m nm val)) :
    depthInv ntd (aset m nm val) := by
  intro n d0 hn
  by_cases hnk : n = nm
  · subst hnk
    rw [alookup_aset_same] at hn
    simp only [Option.some.injEq] at hn
    rw [← hn]
    exact hspec
  · rw [alookup_aset_other m n nm val hnk] at hn
    exact depthSpec_mono ntd n d0 m _ (aset_extends m nm val hmemo) (hinv n d0 hn)

theorem depthGo_correct (ntd : List (LC × Doc)) (ρ : LC → Nat)
    (hρ : ∀ x y, resolveStep ntd x = some y → ρ y < ρ x) :
    ∀ (fuel : Nat) (nm : LC) (visited : List LC) (m : List (LC × Nat)),
      ρ nm < fuel → depthInv ntd m → (∀ v ∈ visited, ρ nm < ρ v) →
      depthInv ntd (depthGo ntd fuel nm visited m).2 ∧
        alookup (depthGo ntd fuel nm visited m).2 nm
          = some (depthGo ntd fuel nm visited m).1 ∧
        (∀ n d0, alookup m n = some d0 →
          alookup (depthGo ntd fuel nm visited m).2 n = some d0) ∧
        (∀ n, alookup m n = none →
          alookup (depthGo ntd fuel nm visited m).2 n ≠ none → ρ n ≤ ρ nm) := by
  intro fuel
  induction fuel with
  | zero => intro nm visited m hfuel; omega
  | succ f ih =>
    intro nm visited m hfuel hinv hvis
    simp only [depthGo]
    cases hmemo : alookup m nm with
    | some d =>
      dsimp only
      refine ⟨hinv, hmemo, fun n d0 h0 => h0, fun n h0 h1 => absurd h0 h1⟩
    | none =>
      dsimp only
      rw [if_neg (fun hmem => absurd (hvis nm hmem) (lt_irrefl _))]
      cases hdoc : alookup ntd nm with
      | none =>
        dsimp only
        refine ⟨depthInv_write ntd m nm 0 hmemo hinv
            (depthSpec_of_lookup_none ntd nm _ hdoc),
          by simp [alookup_aset_same], aset_extends m nm 0 hmemo, ?_⟩
        intro n h0 h1
        by_cases hnk : n = nm
        · rw [hnk]
        · rw [alookup_aset_other m n nm 0 hnk] at h1
          exact absurd h0 h1
      | some doc =>
        dsimp only
        cases hpar : truthyStrField doc Field.parent_account with
        | none =>
          dsimp only
          refine ⟨depthInv_write ntd m nm 0 hmemo hinv
              (depthSpec_of_parent_none ntd nm doc _ hdoc hpar),
            by simp [alookup_aset_same], aset_extends m nm 0 hmemo, ?_⟩
          intro n h0 h1
          by_cases hnk : n = nm
          · rw [hnk]
          · rw [alookup_aset_other m n nm 0 hnk] at h1
            exact absurd h0 h1
        | some parent =>
          dsimp only
          cases hres : resolveParentKey ntd parent with
          | none =>
            dsimp only
            refine ⟨depthInv_write ntd m nm 1 hmemo hinv
                (depthSpec_of_resolve_none ntd nm doc parent _ hdoc hpar hres),
              by simp [alookup_aset_same], aset_extends m nm 1 hmemo, ?_⟩
            intro n h0 h1
            by_cases hnk : n = nm
            · rw [hnk]
            · rw [alookup_aset_other m n nm 1 hnk] at h1
              exact absurd h0 h1
          | some pk =>
            have hstep : resolveStep ntd nm = some pk := by
              unfold resolveStep
              rw [hdoc]
              dsimp only
              rw [hpar]
              dsimp only
              rw [hres]
            have hlt : ρ pk < ρ nm := hρ nm pk hstep
            have hvis2 : ∀ v ∈ nm :: visited, ρ pk < ρ v := by
              intro v hv
              rcases List.mem_cons.mp hv with h | h
              · rw [h]; exact hlt
              · exact lt_trans hlt (hvis v h)
            obtain ⟨hinv1, hlk1, hext1, hwr1⟩ :=
              ih pk (nm :: visited) m (by omega) hinv hvis2
            have hm1nm : alookup (depthGo ntd f pk (nm :: visited) m).2 nm = none := by
              by_cases h1 : alookup (depthGo ntd f pk (nm :: visited) m).2 nm = none
              · exact h1
              · have := hwr1 nm hmemo h1
                omega
            dsimp only
            have hpk_ne : pk ≠ nm := fun hh => by rw [hh] at hlt; omega
            refine ⟨?_, by simp [alookup_aset_same], ?_, ?_⟩
            · apply depthInv_write ntd _ nm _ hm1nm hinv1
              apply depthSpec_of_resolve_some ntd nm doc parent pk _ _ hdoc hpar hres
              rw [alookup_aset_other _ pk nm _ hpk_ne]
              exact hlk1
            · intro n d0 h0
              exact aset_extends _ nm _ hm1nm n d0 (hext1 n d0 h0)
            · intro n h0 h1
              by_cases hnk : n = nm
              · rw [hnk]
              · rw [alookup_aset_other _ n nm _ hnk] at h1
                have := hwr1 n h0 h1
                omega

theorem depthFold_correct (ntd : List (LC × Doc)) (ρ : LC → Nat)
    (hbound : ∀ x, ρ x ≤ ntd.length)
    (hρ : ∀ x y, resolveStep ntd x = some y → ρ y < ρ x) :
    ∀ (ks : List LC) (m : List (LC × Nat)), depthInv ntd m →
      depthInv ntd
          (ks.foldl (fun depths n => (depthGo ntd (ntd.length + 1) n [] depths).2) m) ∧
        (∀ n d0, alookup m n = some d0 →
          alookup (ks.foldl (fun depths n => (depthGo ntd (ntd.length + 1) n [] depths).2) m) n
            = some d0) ∧
        (∀ n ∈ ks,
          alookup (ks.foldl (fun depths n => (depthGo ntd (ntd.length + 1) n [] depths).2) m) n
            ≠ none) := by
  intro ks
  induction ks with
  | nil => intro m hinv; exact ⟨hinv, fun n d0 h0 => h0, fun n hn => absurd hn (by simp)⟩
  | cons k rest ih =>
    intro m hinv
    obtain ⟨hinv1, hlk1, hext1, _⟩ :=
      depthGo_correct ntd ρ hρ (ntd.length + 1) k [] m
        (by have := hbound k; omega) hinv (by simp)
    rw [List.foldl_cons]
    obtain ⟨hinvF, hextF, hrestF⟩ := ih _ hinv1
    refine ⟨hinvF, ?_, ?_⟩
    · intro n d0 h0
      exact hextF n d0 (hext1 n d0 h0)
    · intro n hn
      rcases List.mem_cons.mp hn with h | h
      · rw [h]
        rw [hextF k _ hlk1]
        simp
      · exact hrestF n h

theorem computeDepths_correct (ntd : List (LC × Doc)) (ρ : LC → Nat)
    (hbound : ∀ x, ρ x ≤ ntd.length)
    (hρ : ∀ x y, resolveStep ntd x = some y → ρ y < ρ x) :
    depthInv ntd (computeDepths ntd) ∧
      ∀ n ∈ ntd.map Prod.fst, alookup (computeDepths ntd) n ≠ none := by
  have h0 : depthInv ntd [] := by
    intro n d h
    simp [alookup] at h
  obtain ⟨h1, _, h3⟩ := depthFold_correct ntd ρ hbound hρ (ntd.map Prod.fst) [] h0
  exact ⟨h1, h3⟩

/-! ## Claims C2, C3 -/

/-- Claim C3, counterexample.  In the synthetic 2-cycle `A ↔ B`, `B`'s
parent reference resolves to `A`, yet the final depth map assigns depth `1`
to `B` and depth `2` to `A`: the claimed equation `depth(B) = depth(A) + 1`
fails (1 ≠ 3).  The cycle makes the memoized recursion write a transient `0`
that is later overwritten on unwind, breaking the parent-child equation for
the cycle-closing edge. -/
theorem claim_C3_counterexample :
    resolveStep (twoCycle "A".data "B".data) "B".data = some "A".data ∧
      alookup (computeDepths (twoCycle "A".data "B".data)) "B".data = some 1 ∧
      alookup (computeDepths (twoCycle "A".data "B".data)) "A".data = some 2 ∧
      (1 : Nat) ≠ 2 + 1 := by
  refine ⟨by decide, by decide, by decide, by decide⟩

/-- Claim C3, amended.  When the resolved-parent relation of the source set
is acyclic — witnessed by a rank function `ρ`, bounded by the record count,
that strictly decreases along `resolveStep` — the computed depth map
satisfies both claimed equations: a record with no truthy parent reference
has depth `0`, and a record whose parent resolves to `pk` has depth
`depth(pk) + 1`.  (On cyclic inputs the second equation fails, see the
counterexample.) -/
theorem claim_C3 (ntd : List (LC × Doc)) (ρ : LC → Nat)
    (hbound : ∀ x, ρ x ≤ ntd.length)
    (hρ : ∀ x y, resolveStep ntd x = some y → ρ y < ρ x) :
    (∀ r doc, alookup ntd r = some doc →
      truthyStrField doc Field.parent_account = none →
      alookup (computeDepths ntd) r = some 0) ∧
      (∀ r pk, resolveStep ntd r = some pk →
        ∃ dp, alookup (computeDepths ntd) pk = some dp ∧
          alookup (computeDepths ntd) r = some (dp + 1)) := by
  obtain ⟨hinv, htotal⟩ := computeDepths_correct ntd ρ hbound hρ
  constructor
  · intro r doc h1 h2
    have hmem : r ∈ ntd.map Prod.fst := alookup_some_mem_keys ntd r doc h1
    cases hr : alookup (computeDepths ntd) r with
    | none => exact absurd hr (htotal r hmem)
    | some d =>
      have hspec := hinv r d hr
      unfold depthSpec at hspec
      rw [h1] at hspec
      dsimp only at hspec
      rw [h2] at hspec
      dsimp only at hspec
      rw [hspec]
  · intro r pk hstep
    have h1 : ∃ doc, alookup ntd r = some doc := by
      unfold resolveStep at hstep
      cases hx : alookup ntd r with
      | none => rw [hx] at hstep; simp at hstep
      | some doc => exact ⟨doc, rfl⟩
    obtain ⟨doc, hdoc⟩ := h1
    have h2 : ∃ parent, truthyStrField doc Field.parent_account = some parent ∧
        resolveParentKey ntd parent = some pk := by
      unfold resolveStep at hstep
      rw [hdoc] at hstep
      dsimp only at hstep
      cases hy : truthyStrField doc Field.parent_account with
      | none => rw [hy] at hstep; simp at hstep
      | some parent =>
        rw [hy] at hstep
        exact ⟨parent, rfl, hstep⟩
    obtain ⟨parent, hpar, hres⟩ := h2
    have hmem : r ∈ ntd.map Prod.fst := alookup_some_mem_keys ntd r doc hdoc
    cases hr : alookup (computeDepths ntd) r with
    | none => exact absurd hr (htotal r hmem)
    | some d =>
      have hspec := hinv r d hr
      unfold depthSpec at hspec
      rw [hdoc] at hspec
      dsimp only at hspec
      rw [hpar] at hspec
      dsimp only at hspec
      rw [hres] at hspec
      dsimp only at hspec
      obtain ⟨dp, hdp, hd⟩ := hspec
      exact ⟨dp, hdp, by rw [hd]⟩

/-- Witness for claim C3 at the concrete chain (root `A`, child `B`). -/
theorem claim_C3_witness :
    (∀ x, chainRank x ≤ chainNtd.length) ∧
      (∀ x y, resolveStep chainNtd x = some y → chainRank y < chainRank x) ∧
      (∃ dp, alookup (computeDepths chainNtd) "A".data = some dp ∧
        alookup (computeDepths chainNtd) "B".data = some (dp + 1)) := by
  have hbound : ∀ x, chainRank x ≤ chainNtd.length := by
    intro x
    unfold chainRank
    split <;> decide
  have hρ : ∀ x y, resolveStep chainNtd x = some y → chainRank y < chainRank x := by
    intro x y h
    by_cases hxa : x = "A".data
    · subst hxa
      rw [show resolveStep chainNtd "A".data = none from by decide] at h
      simp at h
    · by_cases hxb : x = "B".data
      · subst hxb
        rw [show resolveStep chainNtd "B".data = some "A".data from by decide] at h
        simp only [Option.some.injEq] at h
        rw [← h]
        show chainRank "A".data < chainRank "B".data
        decide
      · have hnone : alookup chainNtd x = none := by
          have hA : ¬("A".data = x) := fun hh => hxa hh.symm
          have hB : ¬("B".data = x) := fun hh => hxb hh.symm
          simp only [chainNtd, alookup]
          rw [if_neg hA, if_neg hB]
        unfold resolveStep at h
        rw [hnone] at h
        simp at h
  exact ⟨hbound, hρ, (claim_C3 chainNtd chainRank hbound hρ).2 "B".data "A".data (by decide)⟩

theorem isEmpty_false_of_ne_nil (l : LC) (h : l ≠ []) : l.isEmpty = false := by
  cases l with
  | nil => exact absurd rfl h
  | cons c t => rfl

theorem twoCycle_eval_inner (a b : LC) (hab : a ≠ b) :
    depthGo (twoCycle a b) 1 a [b, a] [] = (0, [(a, 0)]) := by
  have h1 : alookup ([] : List (LC × Nat)) a = none := rfl
  simp only [depthGo, h1]
  rw [if_pos (show a ∈ [b, a] by simp)]
  rfl

theorem twoCycle_eval_b (a b : LC) (hab : a ≠ b) (ha : a ≠ []) (hb : b ≠ []) :
    depthGo (twoCycle a b) 2 b [a] [] = (1, [(a, 0), (b, 1)]) := by
  have hae : a.isEmpty = false := isEmpty_false_of_ne_nil a ha
  have hmemo : alookup ([] : List (LC × Nat)) b = none := rfl
  have hnotmem : ¬b ∈ [a] := by
    simp only [List.mem_singleton]
    exact fun hh => hab hh.symm
  have hlkB : alookup (twoCycle a b) b
      = some [(Field.name, PyVal.vStr b), (Field.parent_account, PyVal.vStr a)] := by
    simp [twoCycle, alookup, hab]
  have hparB : truthyStrField
      [(Field.name, PyVal.vStr b), (Field.parent_account, PyVal.vStr a)]
      Field.parent_account = some a := by
    simp [truthyStrField, dget, hae]
  have hresA : resolveParentKey (twoCycle a b) a = some a := by
    have hlkA : alookup (twoCycle a b) a
        = some [(Field.name, PyVal.vStr a), (Field.parent_account, PyVal.vStr b)] := by
      simp [twoCycle, alookup]
    simp [resolveParentKey, hlkA, hae]
  simp only [depthGo]
  simp [hlkB, hparB, hresA, alookup, aset, hab, Ne.symm hab]

theorem twoCycle_eval_a (a b : LC) (hab : a ≠ b) (ha : a ≠ []) (hb : b ≠ []) :
    depthGo (twoCycle a b) 3 a [] [] = (2, [(a, 2), (b, 1)]) := by
  have hbe : b.isEmpty = false := isEmpty_false_of_ne_nil b hb
  have hae : a.isEmpty = false := isEmpty_false_of_ne_nil a ha
  have hlkA : alookup (twoCycle a b) a
      = some [(Field.name, PyVal.vStr a), (Field.parent_account, PyVal.vStr b)] := by
    simp [twoCycle, alookup]
  have hlkB : alookup (twoCycle a b) b
      = some [(Field.name, PyVal.vStr b), (Field.parent_account, PyVal.vStr a)] := by
    simp [twoCycle, alookup, hab]
  have hparA : truthyStrField
      [(Field.name, PyVal.vStr a), (Field.parent_account, PyVal.vStr b)]
      Field.parent_account = some b := by
    simp [truthyStrField, dget, hbe]
  have hparB : truthyStrField
      [(Field.name, PyVal.vStr b), (Field.parent_account, PyVal.vStr a)]
      Field.parent_account = some a := by
    simp [truthyStrField, dget, hae]
  have hresB : resolveParentKey (twoCycle a b) b = some b := by
    simp [resolveParentKey, hlkB, hbe]
  have hresA : resolveParentKey (twoCycle a b) a = some a := by
    simp [resolveParentKey, hlkA, hae]
  simp only [depthGo]
  simp [hlkA, hparA, hresB, hlkB, hparB, hresA, alookup, aset, hab, Ne.symm hab]

/-- Claim C2, counterexample.  On the synthetic 2-cycle `A ↔ B` the depth
computation terminates, but no cycle member ends with depth `0` in the
resulting depth map: the cycle-detection branch writes a transient `0` for
the cycle-closing record, and the pending `depths[name] = d` assignment of
the unwinding recursion overwrites it, leaving `A ↦ 2` and `B ↦ 1`. -/
theorem claim_C2_counterexample :
    (alookup (computeDepths (twoCycle "A".data "B".data)) "A".data ≠ some 0) ∧
      (alookup (computeDepths (twoCycle "A".data "B".data)) "B".data ≠ some 0) ∧
      computeDepths (twoCycle "A".data "B".data) = [("A".data, 2), ("B".data, 1)] := by
  refine ⟨by decide, by decide, by decide⟩

/-- Claim C2, amended.  For every synthetic 2-cycle (distinct nonempty
names `a`, `b`, each the other's parent reference), the depth computation
terminates — it is a total function, and the fuel bound is never reached —
and produces exactly the depth map `{a ↦ 2, b ↦ 1}`: the transient depth
`0` assigned to the cycle-closing member is overwritten when the recursion
unwinds, so no cycle member retains depth `0`. -/
theorem claim_C2 (a b : LC) (hab : a ≠ b) (ha : a ≠ []) (hb : b ≠ []) :
    computeDepths (twoCycle a b) = [(a, 2), (b, 1)] ∧
      alookup (computeDepths (twoCycle a b)) a ≠ some 0 ∧
      alookup (computeDepths (twoCycle a b)) b ≠ some 0 := by
  have hkeys : (twoCycle a b).map Prod.fst = [a, b] := by simp [twoCycle]
  have hlen : (twoCycle a b).length + 1 = 3 := by simp [twoCycle]
  have hmain : computeDepths (twoCycle a b) = [(a, 2), (b, 1)] := by
    unfold computeDepths
    rw [hkeys, hlen]
    simp only [List.foldl_cons, List.foldl_nil]
    rw [twoCycle_eval_a a b hab ha hb]
    have hmemoB : alookup [(a, 2), (b, 1)] b = some 1 := by
      simp [alookup, hab]
    simp only [depthGo, hmemoB]
  refine ⟨hmain, ?_, ?_⟩
  · rw [hmain]
    simp [alookup]
  · rw [hmain]
    simp [alookup, hab]

/-- Witness for claim C2 at the concrete names `A`, `B`. -/
theorem claim_C2_witness :
    ("A".data ≠ "B".data ∧ "A".data ≠ ([] : LC) ∧ "B".data ≠ ([] : LC)) ∧
      computeDepths (twoCycle "A".data "B".data) = [("A".data, 2), ("B".data, 1)] :=
  ⟨⟨by decide, by decide, by decide⟩,
    (claim_C2 "A".data "B".data (by decide) (by decide) (by decide)).1⟩

/-! ## Claim C7: orphan policy -/

theorem resolveStep_some_not_orphan (ntd : List (LC × Doc)) (n : LC) (w : LC)
    (h : resolveStep ntd n = some w) : ¬orphanRec ntd n := by
  rintro ⟨doc, parent, h1, h2, h3⟩
  unfold resolveStep at h
  rw [h1] at h
  dsimp only at h
  rw [h2] at h
  dsimp only at h
  rw [h3] at h
  simp at h

theorem orphanInv_write_not_orphan (ntd : List (LC × Doc)) (m : List (LC × Nat)) (nm : LC)
    (v : Nat) (hinv : orphanInv ntd m) (hno : ¬orphanRec ntd nm) :
    orphanInv ntd (aset m nm v) := by
  intro n hn
  by_cases hnk : n = nm
  · subst hnk
    exact absurd hn hno
  · rw [alookup_aset_other m n nm v hnk]
    exact hinv n hn

theorem orphanInv_write_one (ntd : List (LC × Doc)) (m : List (LC × Nat)) (nm : LC)
    (hinv : orphanInv ntd m) : orphanInv ntd (aset m nm 1) := by
  intro n hn
  by_cases hnk : n = nm
  · subst hnk
    rw [alookup_aset_same]
    exact Or.inr rfl
  · rw [alookup_aset_other m n nm 1 hnk]
    exact hinv n hn

theorem depthGo_orphan (ntd : List (LC × Doc)) :
    ∀ (fuel : Nat) (nm : LC) (visited : List LC) (m : List (LC × Nat)),
      orphanInv ntd m →
      (∀ v ∈ visited, ∃ w, resolveStep ntd v = some w) →
      orphanInv ntd (depthGo ntd fuel nm visited m).2 ∧
        (∀ n, alookup m n ≠ none → alookup (depthGo ntd fuel nm visited m).2 n ≠ none) ∧
        (fuel ≠ 0 → alookup (depthGo ntd fuel nm visited m).2 nm ≠ none) := by
  intro fuel
  induction fuel with
  | zero =>
    intro nm visited m hinv hvis
    exact ⟨hinv, fun n h => h, fun h => absurd rfl h⟩
  | succ f ih =>
    intro nm visited m hinv hvis
    simp only [depthGo]
    cases hmemo : alookup m nm with
    | some d =>
      dsimp only
      refine ⟨hinv, fun n h => h, fun _ => ?_⟩
      rw [hmemo]
      simp
    | none =>
      dsimp only
      by_cases hmem : nm ∈ visited
      · rw [if_pos hmem]
        obtain ⟨w, hw⟩ := hvis nm hmem
        refine ⟨orphanInv_write_not_orphan ntd m nm 0 hinv
            (resolveStep_some_not_orphan ntd nm w hw),
          fun n h => aset_some_preserved m nm 0 n h, fun _ => ?_⟩
        rw [alookup_aset_same]
        simp
      · rw [if_neg hmem]
        cases hdoc : alookup ntd nm with
        | none =>
          dsimp only
          have hno : ¬orphanRec ntd nm := by
            rintro ⟨doc, parent, h1, _, _⟩
            rw [hdoc] at h1
            simp at h1
          refine ⟨orphanInv_write_not_orphan ntd m nm 0 hinv hno,
            fun n h => aset_some_preserved m nm 0 n h, fun _ => ?_⟩
          rw [alookup_aset_same]
          simp
        | some doc =>
          dsimp only
          cases hpar : truthyStrField doc Field.parent_account with
          | none =>
            dsimp only
            have hno : ¬orphanRec ntd nm := by
              rintro ⟨doc2, parent, h1, h2, _⟩
              rw [hdoc] at h1
              simp only [Option.some.injEq] at h1
              rw [← h1] at h2
              rw [hpar] at h2
              simp at h2
            refine ⟨orphanInv_write_not_orphan ntd m nm 0 hinv hno,
              fun n h => aset_some_preserved m nm 0 n h, fun _ => ?_⟩
            rw [alookup_aset_same]
            simp
          | some parent =>
            dsimp only
            cases hres : resolveParentKey ntd parent with
            | none =>
              dsimp only
              refine ⟨orphanInv_write_one ntd m nm hinv,
                fun n h => aset_some_preserved m nm 1 n h, fun _ => ?_⟩
              rw [alookup_aset_same]
              simp
            | some pk =>
              dsimp only
              have hstep : resolveStep ntd nm = some pk := by
                unfold resolveStep
                rw [hdoc]
                dsimp only
                rw [hpar]
                dsimp only
                rw [hres]
              have hvis2 : ∀ v ∈ nm :: visited, ∃ w, resolveStep ntd v = some w := by
                intro v hv
                rcases List.mem_cons.mp hv with h | h
                · rw [h]; exact ⟨pk, hstep⟩
                · exact hvis v h
              obtain ⟨hinv1, hsome1, _⟩ := ih pk (nm :: visited) m hinv hvis2
              refine ⟨orphanInv_write_not_orphan ntd _ nm _ hinv1
                  (resolveStep_some_not_orphan ntd nm pk hstep),
                fun n h => aset_some_preserved _ nm _ n (hsome1 n h), fun _ => ?_⟩
              rw [alookup_aset_same]
              simp

theorem orphanFold (ntd : List (LC × Doc)) :
    ∀ (ks : List LC) (m : List (LC × Nat)), orphanInv ntd m →
      orphanInv ntd
          (ks.foldl (fun depths n => (depthGo ntd (ntd.length + 1) n [] depths).2) m) ∧
        (∀ n, alookup m n ≠ none →
          alookup (ks.foldl (fun depths n => (depthGo ntd (ntd.length + 1) n [] depths).2) m) n
            ≠ none) ∧
        (∀ n ∈ ks,
          alookup (ks.foldl (fun depths n => (depthGo ntd (ntd.length + 1) n [] depths).2) m) n
            ≠ none) := by
  intro ks
  induction ks with
  | nil => intro m hinv; exact ⟨hinv, fun n h => h, fun n hn => absurd hn (by simp)⟩
  | cons k rest ih =>
    intro m hinv
    obtain ⟨hinv1, hsome1, hk1⟩ :=
      depthGo_orphan ntd (ntd.length + 1) k [] m hinv (by simp)
    rw [List.foldl_cons]
    obtain ⟨hinvF, hsomeF, hrestF⟩ := ih _ hinv1
    refine ⟨hinvF, ?_, ?_⟩
    · intro n h
      exact hsomeF n (hsome1 n h)
    · intro n hn
      rcases List.mem_cons.mp hn with h | h
      · rw [h]
        exact hsomeF k (hk1 (by omega))
      · exact hrestF n h

/-- Claim C7: a record whose truthy parent reference resolves to no record
in the source set (neither by exact key nor by normalized match) is
assigned depth exactly `1` in the final depth map — not `0`, and it is not
rejected (it has an entry like every other record), on every input,
including cyclic ones. -/
theorem claim_C7 (ntd : List (LC × Doc)) (r : LC) (doc : Doc) (parent : LC)
    (h1 : alookup ntd r = some doc)
    (h2 : truthyStrField doc Field.parent_account = some parent)
    (h3 : resolveParentKey ntd parent = none) :
    alookup (computeDepths ntd) r = some 1 := by
  have h0 : orphanInv ntd [] := by
    intro n hn
    exact Or.inl rfl
  obtain ⟨hinv, _, htotal⟩ := orphanFold ntd (ntd.map Prod.fst) [] h0
  have hmem : r ∈ ntd.map Prod.fst := alookup_some_mem_keys ntd r doc h1
  have horph : orphanRec ntd r := ⟨doc, parent, h1, h2, h3⟩
  rcases hinv r horph with h | h
  · exact absurd h (htotal r hmem)
  · exact h

/-- Witness for claim C7 at the concrete orphan record `C` with parent
reference `Z` resolving to nothing. -/
theorem claim_C7_witness :
    (alookup orphNtd "C".data
        = some [(Field.name, PyVal.vStr "C".data),
          (Field.parent_account, PyVal.vStr "Z".data)]) ∧
      alookup (computeDepths orphNtd) "C".data = some 1 :=
  ⟨by decide, claim_C7 orphNtd "C".data
    [(Field.name, PyVal.vStr "C".data), (Field.parent_account, PyVal.vStr "Z".data)]
    "Z".data (by decide) (by decide) (by decide)⟩

/-! ## Properties of the parent-creation retry loop -/

theorem ensureLoop_spec (cfg : Cfg) (payload : Doc) (pnorm : LC) :
    ∀ (fuel : Nat) (st : St), ∃ new,
      (ensureLoop cfg payload pnorm fuel st).2.muts = st.muts ++ new ∧
        (new.filter isCreateMut).length ≤ fuel ∧
        (∀ d, Mut.sleepCall d ∈ new → d = cfg.retryDelay) ∧
        (∀ m ∈ new, m = Mut.createCall payload ∨ m = Mut.sleepCall cfg.retryDelay) ∧
        (ensureLoop cfg payload pnorm fuel st).2.decisions = st.decisions ∧
        ((ensureLoop cfg payload pnorm fuel st).1 = true → cfg.dryRun = false →
          alookup (ensureLoop cfg payload pnorm fuel st).2.lookup pnorm
            = some (mkCreated payload)) := by
  intro fuel
  induction fuel with
  | zero =>
    intro st
    refine ⟨[], by simp [ensureLoop], by simp, by simp, by simp, by simp [ensureLoop], ?_⟩
    intro h
    simp [ensureLoop] at h
  | succ k ih =>
    intro st
    by_cases hdry : cfg.dryRun
    · refine ⟨[], ?_, by simp, by simp, by simp, ?_, ?_⟩
      · simp [ensureLoop, hdry]
      · simp [ensureLoop, hdry]
      · intro _ hlive
        rw [hdry] at hlive
        simp at hlive
    · by_cases hok : cfg.createOk st.cidx
      · refine ⟨[Mut.createCall payload], ?_, ?_, ?_, ?_, ?_, ?_⟩
        · simp [ensureLoop, hdry, hok]
        · simp [isCreateMut]
        · intro d hd; simp at hd
        · intro m hm
          simp only [List.mem_singleton] at hm
          exact Or.inl hm
        · simp [ensureLoop, hdry, hok]
        · intro _ _
          simp [ensureLoop, hdry, hok, alookup_aset_same]
      · obtain ⟨new, h1, h2, h3, h4, h5, h6⟩ :=
          ih { st with cidx := st.cidx + 1, muts := st.muts ++ [Mut.createCall payload, Mut.sleepCall cfg.retryDelay] }
        have heq : ensureLoop cfg payload pnorm (k + 1) st
            = ensureLoop cfg payload pnorm k
              { st with cidx := st.cidx + 1, muts := st.muts ++ [Mut.createCall payload, Mut.sleepCall cfg.retryDelay] } := by
          simp [ensureLoop, hdry, hok]
        refine ⟨[Mut.createCall payload, Mut.sleepCall cfg.retryDelay] ++ new, ?_, ?_, ?_, ?_, ?_, ?_⟩
        · rw [heq, h1]
          simp
        · rw [List.filter_append]
          simp only [List.length_append]
          have : ([Mut.createCall payload, Mut.sleepCall cfg.retryDelay].filter isCreateMut).length
              = 1 := by simp [isCreateMut]
          omega
        · intro d hd
          rcases List.mem_append.mp hd with h | h
          · simp at h
            exact h
          · exact h3 d h
        · intro m hm
          rcases List.mem_append.mp hm with h | h
          · simp only [List.mem_cons, List.not_mem_nil, or_false] at h
            rcases h with h | h
            · exact Or.inl h
            · exact Or.inr h
          · exact h4 m h
        · rw [heq, h5]
        · rw [heq]
          exact h6

/-! ## Every processed record is in the source key set -/

theorem alookup_isSome_of_mem {α : Type} (m : List (LC × α)) (k : LC)
    (h : k ∈ m.map Prod.fst) : alookup m k ≠ none := by
  induction m with
  | nil => simp at h
  | cons kv rest ih =>
    obtain ⟨k2, w⟩ := kv
    simp only [List.map_cons, List.mem_cons] at h
    simp only [alookup]
    by_cases hk : k2 = k
    · rw [if_pos hk]; simp
    · rw [if_neg hk]
      rcases h with h | h
      · exact absurd h.symm hk
      · exact ih h

theorem findCand_mem (ntd : List (LC × Doc)) (pnorm : LC) (pk : LC)
    (h : findCand ntd pnorm = some pk) : pk ∈ ntd.map Prod.fst := by
  induction ntd with
  | nil => simp [findCand] at h
  | cons kv rest ih =>
    obtain ⟨cand, cd⟩ := kv
    simp only [findCand] at h
    by_cases hc : normalize_name (nameIsh cd cand) = pnorm
    · rw [if_pos hc] at h
      simp only [Option.some.injEq] at h
      simp [← h]
    · rw [if_neg hc] at h
      simp only [List.map_cons, List.mem_cons]
      exact Or.inr (ih h)

theorem resolveParentKey_some_inv (ntd : List (LC × Doc)) (parent pk : LC)
    (h : resolveParentKey ntd parent = some pk) :
    (if (alookup ntd parent).isSome then some parent
      else findCand ntd (normalize_name parent)) = some pk ∧ pk.isEmpty = false := by
  unfold resolveParentKey at h
  cases hx : (if (alookup ntd parent).isSome then some parent
      else findCand ntd (normalize_name parent)) with
  | none => rw [hx] at h; simp at h
  | some k =>
    rw [hx] at h
    dsimp only at h
    by_cases hke : k.isEmpty = true
    · rw [if_pos hke] at h; simp at h
    · rw [if_neg hke] at h
      simp only [Option.some.injEq] at h
      rw [← h]
      refine ⟨rfl, ?_⟩
      cases hk2 : k.isEmpty with
      | false => rfl
      | true => exact absurd hk2 hke

theorem resolveParentKey_mem (ntd : List (LC × Doc)) (parent pk : LC)
    (h : resolveParentKey ntd parent = some pk) : pk ∈ ntd.map Prod.fst := by
  obtain ⟨hpre, _⟩ := resolveParentKey_some_inv ntd parent pk h
  by_cases hl : (alookup ntd parent).isSome
  · rw [if_pos hl] at hpre
    simp only [Option.some.injEq] at hpre
    obtain ⟨doc, hdoc⟩ := Option.isSome_iff_exists.mp hl
    rw [← hpre]
    exact alookup_some_mem_keys ntd parent doc hdoc
  · rw [if_neg hl] at hpre
    exact findCand_mem ntd _ pk hpre

theorem depthGo_keys (ntd : List (LC × Doc)) :
    ∀ (fuel : Nat) (nm : LC) (visited : List LC) (m : List (LC × Nat)) (n : LC),
      alookup (depthGo ntd fuel nm visited m).2 n ≠ none →
      alookup m n ≠ none ∨ n = nm ∨ n ∈ ntd.map Prod.fst := by
  intro fuel
  induction fuel with
  | zero => intro nm visited m n h; exact Or.inl h
  | succ f ih =>
    intro nm visited m n h
    simp only [depthGo] at h
    cases hmemo : alookup m nm with
    | some d =>
      rw [hmemo] at h
      exact Or.inl h
    | none =>
      rw [hmemo] at h
      dsimp only at h
      by_cases hmem : nm ∈ visited
      · rw [if_pos hmem] at h
        by_cases hnk : n = nm
        · exact Or.inr (Or.inl hnk)
        · rw [alookup_aset_other m n nm 0 hnk] at h
          exact Or.inl h
      · rw [if_neg hmem] at h
        cases hdoc : alookup ntd nm with
        | none =>
          rw [hdoc] at h
          dsimp only at h
          by_cases hnk : n = nm
          · exact Or.inr (Or.inl hnk)
          · rw [alookup_aset_other m n nm 0 hnk] at h
            exact Or.inl h
        | some doc =>
          rw [hdoc] at h
          dsimp only at h
          cases hpar : truthyStrField doc Field.parent_account with
          | none =>
            rw [hpar] at h
            dsimp only at h
            by_cases hnk : n = nm
            · exact Or.inr (Or.inl hnk)
            · rw [alookup_aset_other m n nm 0 hnk] at h
              exact Or.inl h
          | some parent =>
            rw [hpar] at h
            dsimp only at h
            cases hres : resolveParentKey ntd parent with
            | none =>
              rw [hres] at h
              dsimp only at h
              by_cases hnk : n = nm
              · exact Or.inr (Or.inl hnk)
              · rw [alookup_aset_other m n nm 1 hnk] at h
                exact Or.inl h
            | some pk =>
              rw [hres] at h
              dsimp only at h
              by_cases hnk : n = nm
              · exact Or.inr (Or.inl hnk)
              · rw [alookup_aset_other _ n nm _ hnk] at h
                rcases ih pk (nm :: visited) m n h with h | h | h
                · exact Or.inl h
                · rw [h]
                  exact Or.inr (Or.inr (resolveParentKey_mem ntd parent pk hres))
                · exact Or.inr (Or.inr h)

theorem computeDepths_keys (ntd : List (LC × Doc)) (n : LC)
    (h : alookup (computeDepths ntd) n ≠ none) : n ∈ ntd.map Prod.fst := by
  unfold computeDepths at h
  have haux : ∀ (ks : List LC) (m : List (LC × Nat)),
      (∀ k ∈ ks, k ∈ ntd.map Prod.fst) →
      (∀ n2, alookup m n2 ≠ none → n2 ∈ ntd.map Prod.fst) →
      alookup (ks.foldl (fun depths n2 => (depthGo ntd (ntd.length + 1) n2 [] depths).2) m) n
        ≠ none →
      n ∈ ntd.map Prod.fst := by
    intro ks
    induction ks with
    | nil => intro m _ hm h0; exact hm n h0
    | cons k rest ih2 =>
      intro m hks hm h0
      rw [List.foldl_cons] at h0
      refine ih2 _ (fun k2 hk2 => hks k2 (List.mem_cons_of_mem k hk2)) ?_ h0
      intro n2 hn2
      rcases depthGo_keys ntd (ntd.length + 1) k [] m n2 hn2 with h | h | h
      · exact hm n2 h
      · rw [h]
        exact hks k (List.mem_cons_self k rest)
      · exact h
  exact haux (ntd.map Prod.fst) [] (fun k hk => hk) (fun n2 hn2 => absurd rfl hn2) h

theorem processOrder_keys (depths : List (LC × Nat)) (n : LC)
    (h : n ∈ processOrder depths) : n ∈ depths.map Prod.fst := by
  unfold processOrder at h
  rw [List.mem_flatMap] at h
  obtain ⟨d, _, hmem⟩ := h
  unfold bucketNames at hmem
  rw [List.mem_map] at hmem
  obtain ⟨p, hp, hfst⟩ := hmem
  rw [List.mem_filter] at hp
  rw [← hfst]
  exact List.mem_map_of_mem Prod.fst hp.1

theorem processOrder_in_ntd (ntd : List (LC × Doc)) (n : LC)
    (h : n ∈ processOrder (computeDepths ntd)) : alookup ntd n ≠ none := by
  have h1 := processOrder_keys (computeDepths ntd) n h
  have h2 := alookup_isSome_of_mem (computeDepths ntd) n h1
  have h3 := computeDepths_keys ntd n h2
  exact alookup_isSome_of_mem ntd n h3

/-! ## Each processed record produces exactly one decision -/

theorem afterParent_decision (cfg : Cfg) (st : St) (src_doc : Doc) (src_norm : LC)
    (tgt_full : Option Doc) :
    ∃ dec, (afterParent cfg st src_doc src_norm tgt_full).decisions
      = st.decisions ++ [dec] := by
  unfold afterParent
  cases tgt_full with
  | some tfull =>
    dsimp only
    split
    · exact ⟨_, rfl⟩
    · split
      · exact ⟨_, rfl⟩
      · exact ⟨_, rfl⟩
  | none =>
    dsimp only
    split
    · exact ⟨_, rfl⟩
    · split
      · exact ⟨_, rfl⟩
      · exact ⟨_, rfl⟩

theorem withParent_decision (cfg : Cfg) (ntd : List (LC × Doc)) (st : St) (src_doc : Doc)
    (src_norm src_name : LC) (tgt_full : Option Doc) :
    ∃ dec, (withParent cfg ntd st src_doc src_norm src_name tgt_full).decisions
      = st.decisions ++ [dec] := by
  unfold withParent
  cases htr : truthyStrField src_doc Field.parent_account with
  | none => exact afterParent_decision cfg st src_doc src_norm tgt_full
  | some parent =>
    dsimp only
    split
    · exact afterParent_decision cfg st src_doc src_norm tgt_full
    · obtain ⟨new, h1, h2, h3, h4, h5, h6⟩ := ensureLoop_spec cfg (parentPayloadFor ntd parent)
        (normalize_name parent) cfg.maxParentRetries st
    -- the match on the pair returned by `ensureLoop`
      cases hel : ensureLoop cfg (parentPayloadFor ntd parent) (normalize_name parent)
          cfg.maxParentRetries st with
      | mk ok st2 =>
        rw [hel] at h5
        cases ok with
        | true =>
          dsimp only
          obtain ⟨dec, hd⟩ := afterParent_decision cfg st2 src_doc src_norm tgt_full
          rw [hd, h5]
          exact ⟨dec, rfl⟩
        | false =>
          dsimp only
          rw [h5]
          exact ⟨_, rfl⟩

theorem processRecord_decision (cfg : Cfg) (ntd : List (LC × Doc)) (st : St) (src_name : LC)
    (h : alookup ntd src_name ≠ none) :
    ∃ dec, (processRecord cfg ntd st src_name).decisions = st.decisions ++ [dec] := by
  unfold processRecord
  cases hraw : alookup ntd src_name with
  | none => exact absurd hraw h
  | some raw =>
    dsimp only
    cases ht : alookup st.lookup
        (normalize_name (nameIsh (popProtected (prepare_source_doc_for_transfer raw))
          src_name)) with
    | some t =>
      dsimp only
      cases hn : dget t Field.name with
      | none => exact ⟨_, rfl⟩
      | some v =>
        cases v with
        | vStr n => exact withParent_decision cfg ntd st _ _ src_name _
        | vInt k => exact ⟨_, rfl⟩
        | vNone => exact ⟨_, rfl⟩
    | none => exact withParent_decision cfg ntd st _ _ src_name none

theorem foldl_decisions_length (cfg : Cfg) (ntd : List (LC × Doc)) :
    ∀ (order : List LC) (st0 : St), (∀ n ∈ order, alookup ntd n ≠ none) →
      (order.foldl (processRecord cfg ntd) st0).decisions.length
        = st0.decisions.length + order.length := by
  intro order
  induction order with
  | nil => intro st0 _; simp
  | cons k rest ih =>
    intro st0 hmem
    rw [List.foldl_cons]
    obtain ⟨dec, hdec⟩ :=
      processRecord_decision cfg ntd st0 k (hmem k (List.mem_cons_self k rest))
    rw [ih (processRecord cfg ntd st0 k)
      (fun n hn => hmem n (List.mem_cons_of_mem k hn)), hdec]
    simp only [List.length_append, List.length_cons, List.length_nil]
    omega

theorem syncAll_decisions_length (cfg : Cfg) (srcs tgts : List Doc) (st : St)
    (h : syncAll cfg srcs tgts = some st) :
    ∃ ntd, mkNameToDoc srcs = some ntd ∧
      st.decisions.length = (processOrder (computeDepths ntd)).length := by
  unfold syncAll at h
  cases hntd : mkNameToDoc srcs with
  | none => rw [hntd] at h; simp at h
  | some ntd =>
    rw [hntd] at h
    simp only [Option.some.injEq] at h
    refine ⟨ntd, rfl, ?_⟩
    rw [← h]
    rw [foldl_decisions_length cfg ntd _ _ (fun n hn => processOrder_in_ntd ntd n hn)]
    simp

/-- Claim C8: the parent-creation retry loop issues at most the configured
retry-limit number of create calls, every sleep between attempts carries
the configured fixed delay, on success (in live mode) the created record is
inserted into the match table under the parent's normalized key, on
exhaustion the current record is skipped with a `parentFail` decision and
processing continues — every run emits exactly one decision per processed
record, so a parent failure is never fatal to the run. -/
theorem claim_C8 :
    (∀ (cfg : Cfg) (payload : Doc) (pnorm : LC) (st : St), ∃ new,
      (ensureLoop cfg payload pnorm cfg.maxParentRetries st).2.muts = st.muts ++ new ∧
        (new.filter isCreateMut).length ≤ cfg.maxParentRetries ∧
        (∀ d, Mut.sleepCall d ∈ new → d = cfg.retryDelay)) ∧
      (∀ (cfg : Cfg) (payload : Doc) (pnorm : LC) (st : St),
        (ensureLoop cfg payload pnorm cfg.maxParentRetries st).1 = true →
        cfg.dryRun = false →
        alookup (ensureLoop cfg payload pnorm cfg.maxParentRetries st).2.lookup pnorm
          = some (mkCreated payload)) ∧
      (∀ (cfg : Cfg) (ntd : List (LC × Doc)) (st : St) (src_doc : Doc)
          (src_norm src_name : LC) (tgt_full : Option Doc) (parent : LC) (st2 : St),
        truthyStrField src_doc Field.parent_account = some parent →
        (alookup st.lookup (normalize_name parent)).isSome = false →
        ensureLoop cfg (parentPayloadFor ntd parent) (normalize_name parent)
            cfg.maxParentRetries st = (false, st2) →
        withParent cfg ntd st src_doc src_norm src_name tgt_full
          = { st2 with decisions := st2.decisions ++ [Decision.parentFail src_name] }) ∧
      (∀ (cfg : Cfg) (srcs tgts : List Doc) (st : St), syncAll cfg srcs tgts = some st →
        ∃ ntd, mkNameToDoc srcs = some ntd ∧
          st.decisions.length = (processOrder (computeDepths ntd)).length) := by
  refine ⟨?_, ?_, ?_, ?_⟩
  · intro cfg payload pnorm st
    obtain ⟨new, h1, h2, h3, _, _, _⟩ :=
      ensureLoop_spec cfg payload pnorm cfg.maxParentRetries st
    exact ⟨new, h1, h2, h3⟩
  · intro cfg payload pnorm st hok hlive
    obtain ⟨_, _, _, _, _, _, h6⟩ :=
      ensureLoop_spec cfg payload pnorm cfg.maxParentRetries st
    exact h6 hok hlive
  · intro cfg ntd st src_doc src_norm src_name tgt_full parent st2 hpar hmiss hel
    unfold withParent
    rw [hpar]
    dsimp only
    rw [if_neg (by rw [hmiss]; simp)]
    rw [hel]
  · intro cfg srcs tgts st h
    exact syncAll_decisions_length cfg srcs tgts st h

/-! ## Claim C4: protected fields never reach a payload -/

theorem mem_protected_cases (f : Field) (hf : f ∈ PROTECTED_FIELDS) :
    f = Field.account_currency ∨ f = Field.balance ∨ f = Field.total_debit ∨
      f = Field.total_credit := by
  simp only [PROTECTED_FIELDS, List.mem_cons, List.not_mem_nil, or_false] at hf
  exact hf

theorem prepare_fold_not_mem (src : Doc) (f : Field) :
    ∀ (ks : List Field) (acc : Doc), f ∉ ks →
      dget (ks.foldl
        (fun doc k => match dget src k with | some v => dset doc k v | none => doc) acc) f
        = dget acc f := by
  intro ks
  induction ks with
  | nil => intro acc _; rfl
  | cons k rest ih =>
    intro acc hmem
    rw [List.foldl_cons]
    have hfk : f ≠ k := fun hh => hmem (hh ▸ List.mem_cons_self k rest)
    have hrest : f ∉ rest := fun hh => hmem (List.mem_cons_of_mem k hh)
    cases hk : dget src k with
    | none => exact ih acc hrest
    | some v =>
      rw [ih (dset acc k v) hrest]
      exact dget_dset_other acc f k v hfk

theorem prepare_protected_free (src : Doc) (f : Field) (hf : f ∈ PROTECTED_FIELDS) :
    dget (prepare_source_doc_for_transfer src) f = none := by
  have hmem : f ∉ TRANSFER_FIELDS := by
    rcases mem_protected_cases f hf with rfl | rfl | rfl | rfl <;> decide
  unfold prepare_source_doc_for_transfer
  rw [prepare_fold_not_mem src f TRANSFER_FIELDS [] hmem]
  rfl

theorem popProtected_free (d : Doc) (f : Field) (hf : f ∈ PROTECTED_FIELDS) :
    dget (popProtected d) f = none := by
  unfold popProtected
  rcases mem_protected_cases f hf with rfl | rfl | rfl | rfl
  · rw [dget_dpop_other _ _ _ (by decide), dget_dpop_other _ _ _ (by decide),
      dget_dpop_other _ _ _ (by decide)]
    exact dget_dpop_same d _
  · rw [dget_dpop_other _ _ _ (by decide), dget_dpop_other _ _ _ (by decide)]
    exact dget_dpop_same _ _
  · rw [dget_dpop_other _ _ _ (by decide)]
    exact dget_dpop_same _ _
  · exact dget_dpop_same _ _

theorem parentPayloadFromSource_protected_free (p : Doc) (f : Field)
    (hf : f ∈ PROTECTED_FIELDS) : dget (mkParentPayloadFromSource p) f = none := by
  have hpf := prepare_protected_free p f hf
  have hfc : f ≠ Field.company := by
    rcases mem_protected_cases f hf with rfl | rfl | rfl | rfl <;> decide
  have hfi : f ≠ Field.is_group := by
    rcases mem_protected_cases f hf with rfl | rfl | rfl | rfl <;> decide
  unfold mkParentPayloadFromSource
  by_cases hcur : f = Field.account_currency
  · rw [hcur]
    exact dget_dpop_same _ _
  · rw [dget_dpop_other _ _ _ hcur]
    split
    · rw [dget_dset_other _ _ _ _ hfi]
      exact hpf
    · rw [dget_dset_other _ _ _ _ hfc, dget_dset_other _ _ _ _ hfi]
      exact hpf

theorem placeholder_protected_free (s : LC) (f : Field) (hf : f ∈ PROTECTED_FIELDS) :
    dget (mkPlaceholderParent s) f = none := by
  rcases mem_protected_cases f hf with rfl | rfl | rfl | rfl <;>
    simp [mkPlaceholderParent, dget]

theorem dget_filterMap_updateEntry_not_mem (src : Doc) (lk : List (LC × Doc))
    (ks : List Field) (f : Field) (h : f ∉ ks) :
    dget (ks.filterMap (updateEntry src lk)) f = none := by
  induction ks with
  | nil => rfl
  | cons k rest ih =>
    have hfk : f ≠ k := fun hh => h (hh ▸ List.mem_cons_self k rest)
    have hrest : f ∉ rest := fun hh => h (List.mem_cons_of_mem k hh)
    rw [List.filterMap_cons]
    cases he : updateEntry src lk k with
    | none => exact ih hrest
    | some e =>
      simp only [dget]
      rw [if_neg (by rw [updateEntry_key src lk k e he]; exact fun hh => hfk hh.symm)]
      exact ih hrest

theorem protected_not_compare (f : Field) (hf : f ∈ PROTECTED_FIELDS) :
    f ∉ COMPARE_FIELDS := by
  rcases mem_protected_cases f hf with rfl | rfl | rfl | rfl <;> decide

theorem buildUpdatePayload_protected_free (src tgt : Doc) (lk : List (LC × Doc)) (f : Field)
    (hf : f ∈ PROTECTED_FIELDS) :
    dget (buildUpdatePayload src ((account_differences src tgt).map Prod.fst) lk) f
      = none := by
  rw [buildUpdatePayload_eq _ _ _ (account_differences_keys_nodup src tgt)]
  apply dget_filterMap_updateEntry_not_mem
  intro hmem
  exact protected_not_compare f hf ((account_differences_keys_sublist src tgt).subset hmem)

theorem diffEntryV1_key (src tgt : Doc) (f : Field) :
    ((diffEntryV1 src tgt f).map Prod.fst).Sublist [f] := by
  unfold diffEntryV1
  split <;> split <;> simp

theorem compare_accounts_keys_sublist (src tgt : Doc) :
    ((compare_accounts src tgt).map Prod.fst).Sublist COMPARE_FIELDS := by
  unfold compare_accounts
  rw [foldl_append_eq]
  simpa using flatMap_map_fst_sublist _ _ (diffEntryV1_key src tgt)

theorem update_data_v1_fold_not_mem (src : Doc) (f : Field) :
    ∀ (ks : List Field) (acc : Doc), f ∉ ks →
      dget (ks.foldl (fun pl k => dset pl k ((dget src k).getD PyVal.vNone)) acc) f
        = dget acc f := by
  intro ks
  induction ks with
  | nil => intro acc _; rfl
  | cons k rest ih =>
    intro acc hmem
    have hfk : f ≠ k := fun hh => hmem (hh ▸ List.mem_cons_self k rest)
    have hrest : f ∉ rest := fun hh => hmem (List.mem_cons_of_mem k hh)
    rw [List.foldl_cons, ih _ hrest]
    exact dget_dset_other acc f k _ hfk

theorem update_data_v1_protected_free (src tgt : Doc) (f : Field)
    (hf : f ∈ PROTECTED_FIELDS) :
    dget (update_data_v1 src ((compare_accounts src tgt).map Prod.fst)) f = none := by
  unfold update_data_v1
  rw [update_data_v1_fold_not_mem src f _ []
    (fun hmem => protected_not_compare f hf ((compare_accounts_keys_sublist src tgt).subset hmem))]
  rfl

theorem rewriteCreateParent_protected_free (lk : List (LC × Doc)) (src_doc : Doc)
    (hsrc : ∀ f ∈ PROTECTED_FIELDS, dget src_doc f = none) :
    ∀ f ∈ PROTECTED_FIELDS, dget (rewriteCreateParent lk src_doc) f = none := by
  intro f hf
  have hfp : f ≠ Field.parent_account := by
    rcases mem_protected_cases f hf with rfl | rfl | rfl | rfl <;> decide
  unfold rewriteCreateParent
  cases truthyStrField src_doc Field.parent_account with
  | none => exact hsrc f hf
  | some dp =>
    dsimp only
    cases alookup lk (normalize_name dp) with
    | none => exact hsrc f hf
    | some pit =>
      dsimp only
      cases truthyStrField pit Field.name with
      | none => exact hsrc f hf
      | some n2 =>
        dsimp only
        rw [dget_dset_other _ _ _ _ hfp]
        exact hsrc f hf

theorem afterParent_muts_free (cfg : Cfg) (st : St) (src_doc : Doc) (src_norm : LC)
    (tgt_full : Option Doc)
    (hsrc : ∀ f ∈ PROTECTED_FIELDS, dget src_doc f = none)
    (hst : ∀ m ∈ st.muts, mutProtectedFree m) :
    ∀ m ∈ (afterParent cfg st src_doc src_norm tgt_full).muts, mutProtectedFree m := by
  unfold afterParent
  cases tgt_full with
  | some tfull =>
    dsimp only
    split
    · exact hst
    · split
      · exact hst
      · intro m hm
        rcases List.mem_append.mp hm with h | h
        · exact hst m h
        · simp only [List.mem_singleton] at h
          rw [h]
          intro f hf
          exact buildUpdatePayload_protected_free src_doc tfull st.lookup f hf
  | none =>
    dsimp only
    have hsrc2 := rewriteCreateParent_protected_free st.lookup src_doc hsrc
    split
    · exact hst
    · split
      · intro m hm
        rcases List.mem_append.mp hm with h | h
        · exact hst m h
        · simp only [List.mem_singleton] at h
          rw [h]
          exact hsrc2
      · intro m hm
        rcases List.mem_append.mp hm with h | h
        · exact hst m h
        · simp only [List.mem_singleton] at h
          rw [h]
          exact hsrc2

theorem withParent_muts_free (cfg : Cfg) (ntd : List (LC × Doc)) (st : St) (src_doc : Doc)
    (src_norm src_name : LC) (tgt_full : Option Doc)
    (hsrc : ∀ f ∈ PROTECTED_FIELDS, dget src_doc f = none)
    (hst : ∀ m ∈ st.muts, mutProtectedFree m) :
    ∀ m ∈ (withParent cfg ntd st src_doc src_norm src_name tgt_full).muts,
      mutProtectedFree m := by
  unfold withParent
  cases htr : truthyStrField src_doc Field.parent_account with
  | none => exact afterParent_muts_free cfg st src_doc src_norm tgt_full hsrc hst
  | some parent =>
    dsimp only
    split
    · exact afterParent_muts_free cfg st src_doc src_norm tgt_full hsrc hst
    · have hpayload : ∀ f ∈ PROTECTED_FIELDS, dget (parentPayloadFor ntd parent) f = none := by
        intro f hf
        unfold parentPayloadFor
        cases resolveParentKey ntd parent with
        | none => exact placeholder_protected_free parent f hf
        | some k => exact parentPayloadFromSource_protected_free _ f hf
      obtain ⟨new, h1, _, _, h4, _, _⟩ := ensureLoop_spec cfg (parentPayloadFor ntd parent)
        (normalize_name parent) cfg.maxParentRetries st
      have hst2 : ∀ m ∈ (ensureLoop cfg (parentPayloadFor ntd parent)
          (normalize_name parent) cfg.maxParentRetries st).2.muts, mutProtectedFree m := by
        rw [h1]
        intro m hm
        rcases List.mem_append.mp hm with h | h
        · exact hst m h
        · rcases h4 m h with h | h
          · rw [h]
            exact hpayload
          · rw [h]
            trivial
      cases hel : ensureLoop cfg (parentPayloadFor ntd parent) (normalize_name parent)
          cfg.maxParentRetries st with
      | mk ok st2 =>
        rw [hel] at hst2
        cases ok with
        | true =>
          dsimp only
          exact afterParent_muts_free cfg st2 src_doc src_norm tgt_full hsrc hst2
        | false =>
          dsimp only
          exact hst2

theorem processRecord_muts_free (cfg : Cfg) (ntd : List (LC × Doc)) (st : St)
    (src_name : LC) (hst : ∀ m ∈ st.muts, mutProtectedFree m) :
    ∀ m ∈ (processRecord cfg ntd st src_name).muts, mutProtectedFree m := by
  unfold processRecord
  cases hraw : alookup ntd src_name with
  | none => exact hst
  | some raw =>
    dsimp only
    have hsrc : ∀ f ∈ PROTECTED_FIELDS,
        dget (popProtected (prepare_source_doc_for_transfer raw)) f = none :=
      fun f hf => popProtected_free _ f hf
    cases ht : alookup st.lookup
        (normalize_name (nameIsh (popProtected (prepare_source_doc_for_transfer raw))
          src_name)) with
    | some t =>
      dsimp only
      cases hn : dget t Field.name with
      | none => exact hst
      | some v =>
        cases v with
        | vStr n => exact withParent_muts_free cfg ntd st _ _ src_name _ hsrc hst
        | vInt k => exact hst
        | vNone => exact hst
    | none => exact withParent_muts_free cfg ntd st _ _ src_name none hsrc hst

theorem syncAll_muts_free (cfg : Cfg) (srcs tgts : List Doc) (st : St)
    (h : syncAll cfg srcs tgts = some st) : ∀ m ∈ st.muts, mutProtectedFree m := by
  unfold syncAll at h
  cases hntd : mkNameToDoc srcs with
  | none => rw [hntd] at h; simp at h
  | some ntd =>
    rw [hntd] at h
    simp only [Option.some.injEq] at h
    have haux : ∀ (order : List LC) (st0 : St), (∀ m ∈ st0.muts, mutProtectedFree m) →
        ∀ m ∈ (order.foldl (processRecord cfg ntd) st0).muts, mutProtectedFree m := by
      intro order
      induction order with
      | nil => intro st0 h0; exact h0
      | cons k rest ih =>
        intro st0 h0
        rw [List.foldl_cons]
        exact ih _ (processRecord_muts_free cfg ntd st0 k h0)
    rw [← h]
    exact haux _ _ (by intro m hm; simp at hm)

/-- Claim C4: protected fields (balance, currency, total debit/credit)
never appear in any prepared or sent payload: `prepare_source_doc_for_transfer`
never copies them, the defensive pop removes them, both parent payload
builders exclude them, the update payloads of both scripts carry only
compared fields (which exclude them), and consequently in every modelled
run every issued create/update call is free of them — for all inputs, even
when the protected fields are present and differ in the source record. -/
theorem claim_C4 :
    (∀ (src : Doc) (f : Field), f ∈ PROTECTED_FIELDS →
      dget (prepare_source_doc_for_transfer src) f = none) ∧
      (∀ (d : Doc) (f : Field), f ∈ PROTECTED_FIELDS → dget (popProtected d) f = none) ∧
      (∀ (p : Doc) (f : Field), f ∈ PROTECTED_FIELDS →
        dget (mkParentPayloadFromSource p) f = none) ∧
      (∀ (s : LC) (f : Field), f ∈ PROTECTED_FIELDS →
        dget (mkPlaceholderParent s) f = none) ∧
      (∀ (src tgt : Doc) (lk : List (LC × Doc)) (f : Field), f ∈ PROTECTED_FIELDS →
        dget (buildUpdatePayload src ((account_differences src tgt).map Prod.fst) lk) f
          = none) ∧
      (∀ (src tgt : Doc) (f : Field), f ∈ PROTECTED_FIELDS →
        dget (update_data_v1 src ((compare_accounts src tgt).map Prod.fst)) f = none) ∧
      (∀ (cfg : Cfg) (srcs tgts : List Doc) (st : St), syncAll cfg srcs tgts = some st →
        ∀ m ∈ st.muts, mutProtectedFree m) :=
  ⟨prepare_protected_free, popProtected_free, parentPayloadFromSource_protected_free,
    placeholder_protected_free, buildUpdatePayload_protected_free,
    update_data_v1_protected_free, syncAll_muts_free⟩

/-- Witness for claim C4: the concrete duplicate-key live run (which issues
two create calls), checked mutation-free of protected fields, and the
prepare function at a record carrying a balance. -/
theorem claim_C4_witness :
    (dget (prepare_source_doc_for_transfer
        [(Field.account_name, PyVal.vStr "Cash".data), (Field.balance, PyVal.vInt 10)])
      Field.balance = none) ∧
      (∀ st, syncAll cfgLive dupSrcs [] = some st → ∀ m ∈ st.muts, mutProtectedFree m) :=
  ⟨claim_C4.1 _ Field.balance (by decide),
    fun st h => claim_C4.2.2.2.2.2.2 cfgLive dupSrcs [] st h⟩

/-- Witness for claim C8: the run-level part of the claim applied to the
concrete duplicate-key run against an empty target. -/
theorem claim_C8_witness :
    ∃ st, syncAll cfgLive dupSrcs [] = some st ∧
      ∃ ntd, mkNameToDoc dupSrcs = some ntd ∧
        st.decisions.length = (processOrder (computeDepths ntd)).length := by
  cases h : syncAll cfgLive dupSrcs [] with
  | none => exact absurd h (by decide)
  | some st => exact ⟨st, rfl, claim_C8.2.2.2 cfgLive dupSrcs [] st h⟩

/-! ## Assoc-list utilities for the dry-run coupling -/

theorem alookup_mem_pair {α : Type} (m : List (LC × α)) (k : LC) (v : α)
    (h : alookup m k = some v) : (k, v) ∈ m := by
  induction m with
  | nil => simp [alookup] at h
  | cons kv rest ih =>
    obtain ⟨k2, w⟩ := kv
    simp only [alookup] at h
    by_cases hk : k2 = k
    · rw [if_pos hk] at h
      simp only [Option.some.injEq] at h
      rw [← hk, ← h]
      exact List.mem_cons_self _ _
    · rw [if_neg hk] at h
      exact List.mem_cons_of_mem _ (ih h)

theorem mem_alookup_of_nodup {α : Type} (m : List (LC × α)) (hnd : (m.map Prod.fst).Nodup)
    (k : LC) (v : α) (h : (k, v) ∈ m) : alookup m k = some v := by
  induction m with
  | nil => simp at h
  | cons kv rest ih =>
    obtain ⟨k2, w⟩ := kv
    simp only [List.map_cons, List.nodup_cons] at hnd
    simp only [alookup]
    rcases List.mem_cons.mp h with h1 | h1
    · rw [Prod.mk.injEq] at h1
      obtain ⟨hk, hv⟩ := h1
      rw [if_pos hk.symm, hv]
    · by_cases hk : k2 = k
      · exfalso
        apply hnd.1
        rw [hk]
        exact List.mem_map_of_mem Prod.fst h1
      · rw [if_neg hk]
        exact ih hnd.2 h1

theorem aset_keys {α : Type} (m : List (LC × α)) (k : LC) (v : α) :
    (aset m k v).map Prod.fst =
      if k ∈ m.map Prod.fst then m.map Prod.fst else m.map Prod.fst ++ [k] := by
  induction m with
  | nil => simp [aset]
  | cons kv rest ih =>
    obtain ⟨k2, w⟩ := kv
    simp only [aset]
    by_cases hk : k2 = k
    · rw [if_pos hk]
      simp only [List.map_cons]
      rw [if_pos (by rw [hk]; exact List.mem_cons_self _ _)]
    · rw [if_neg hk]
      simp only [List.map_cons, ih, List.mem_cons]
      by_cases hmem : k ∈ rest.map Prod.fst
      · rw [if_pos hmem, if_pos (Or.inr hmem)]
      · rw [if_neg hmem, if_neg (by rintro (h | h); exact hk h.symm; exact hmem h)]
        simp

theorem aset_keys_nodup {α : Type} (m : List (LC × α)) (k : LC) (v : α)
    (h : (m.map Prod.fst).Nodup) : ((aset m k v).map Prod.fst).Nodup := by
  rw [aset_keys]
  by_cases hmem : k ∈ m.map Prod.fst
  · rw [if_pos hmem]; exact h
  · rw [if_neg hmem]
    rw [List.nodup_append]
    exact ⟨h, List.nodup_singleton k, fun a ha hb => hmem ((List.mem_singleton.mp hb) ▸ ha)⟩

theorem aset_mem_keys_self {α : Type} (m : List (LC × α)) (k : LC) (v : α) :
    k ∈ (aset m k v).map Prod.fst :=
  alookup_some_mem_keys _ k v (alookup_aset_same m k v)

theorem aset_keys_mono {α : Type} (m : List (LC × α)) (k : LC) (v : α) (k2 : LC)
    (h : k2 ∈ m.map Prod.fst) : k2 ∈ (aset m k v).map Prod.fst := by
  rw [aset_keys]
  by_cases hmem : k ∈ m.map Prod.fst
  · rw [if_pos hmem]; exact h
  · rw [if_neg hmem]; exact List.mem_append_left _ h

theorem alookup_isSome_eq_of_keys_eq {α β : Type} (m1 : List (LC × α)) (m2 : List (LC × β))
    (h : m1.map Prod.fst = m2.map Prod.fst) (k : LC) :
    (alookup m1 k).isSome = (alookup m2 k).isSome := by
  cases h1 : alookup m1 k with
  | some v =>
    have hm : k ∈ m2.map Prod.fst := h ▸ alookup_some_mem_keys m1 k v h1
    cases h2 : alookup m2 k with
    | some w => rfl
    | none => exact absurd h2 (alookup_isSome_of_mem m2 k hm)
  | none =>
    cases h2 : alookup m2 k with
    | some w =>
      have hm : k ∈ m1.map Prod.fst := h ▸ alookup_some_mem_keys m2 k w h2
      exact absurd h1 (alookup_isSome_of_mem m1 k hm)
    | none => rfl

theorem alookup_aset_cases {α : Type} (m : List (LC × α)) (k : LC) (v : α) (n : LC) (w : α)
    (h : alookup (aset m k v) n = some w) : (n = k ∧ w = v) ∨ alookup m n = some w := by
  by_cases hnk : n = k
  · rw [hnk, alookup_aset_same] at h
    simp only [Option.some.injEq] at h
    exact Or.inl ⟨hnk, h.symm⟩
  · rw [alookup_aset_other m n k v hnk] at h
    exact Or.inr h

/-! ## The `name_to_doc` and `target_norm_lookup` dictionaries -/

theorem mkNameToDoc_fold_none (l : List Doc) :
    l.foldl (fun acc a => match acc, dget a Field.name with
      | some m2, some (PyVal.vStr s) => some (aset m2 s a)
      | _, _ => none) none = none := by
  induction l with
  | nil => rfl
  | cons a rest ih => rw [List.foldl_cons]; exact ih

theorem mkNameToDoc_fold (l : List Doc) :
    ∀ (m0 m : List (LC × Doc)),
      l.foldl (fun acc a => match acc, dget a Field.name with
        | some m2, some (PyVal.vStr s) => some (aset m2 s a)
        | _, _ => none) (some m0) = some m →
      ((m0.map Prod.fst).Nodup → (m.map Prod.fst).Nodup) ∧
        (∀ n doc, alookup m n = some doc →
          (dget doc Field.name = some (PyVal.vStr n) ∧ doc ∈ l) ∨ alookup m0 n = some doc) := by
  induction l with
  | nil =>
    intro m0 m h
    simp only [List.foldl_nil, Option.some.injEq] at h
    exact ⟨fun hh => h ▸ hh, fun n doc hd => Or.inr (h ▸ hd)⟩
  | cons a rest ih =>
    intro m0 m h
    rw [List.foldl_cons] at h
    cases hget : dget a Field.name with
    | none =>
      rw [hget] at h
      dsimp only at h
      rw [mkNameToDoc_fold_none] at h
      exact absurd h (by simp)
    | some v =>
      cases v with
      | vStr s =>
        rw [hget] at h
        dsimp only at h
        obtain ⟨hnd, hent⟩ := ih (aset m0 s a) m h
        refine ⟨fun h0 => hnd (aset_keys_nodup m0 s a h0), ?_⟩
        intro n doc hd
        rcases hent n doc hd with h1 | h1
        · exact Or.inl ⟨h1.1, List.mem_cons_of_mem a h1.2⟩
        · rcases alookup_aset_cases m0 s a n doc h1 with h2 | h2
          · exact Or.inl ⟨by rw [h2.2, hget, h2.1],
              by rw [h2.2]; exact List.mem_cons_self a rest⟩
          · exact Or.inr h2
      | vInt k =>
        rw [hget] at h
        dsimp only at h
        rw [mkNameToDoc_fold_none] at h
        exact absurd h (by simp)
      | vNone =>
        rw [hget] at h
        dsimp only at h
        rw [mkNameToDoc_fold_none] at h
        exact absurd h (by simp)

theorem mkNameToDoc_spec (srcs : List Doc) (ntd : List (LC × Doc))
    (h : mkNameToDoc srcs = some ntd) :
    (ntd.map Prod.fst).Nodup ∧
      ∀ n doc, alookup ntd n = some doc →
        dget doc Field.name = some (PyVal.vStr n) ∧ doc ∈ srcs := by
  unfold mkNameToDoc at h
  obtain ⟨hnd, hent⟩ := mkNameToDoc_fold srcs [] ntd h
  refine ⟨hnd (by simp), ?_⟩
  intro n doc hd
  rcases hent n doc hd with h1 | h1
  · exact h1
  · simp [alookup] at h1

theorem mkTargetLookup_fold (l : List Doc) :
    ∀ (m0 m : List (LC × Doc)),
      l.foldl (fun lk a => match nOf a with
        | some n => aset lk (normalize_name n) a
        | none => lk) m0 = m →
      ∀ n t, alookup m n = some t →
        (t ∈ l ∧ ∃ s, nOf t = some s ∧ normalize_name s = n) ∨ alookup m0 n = some t := by
  induction l with
  | nil =>
    intro m0 m h n t hd
    rw [List.foldl_nil] at h
    exact Or.inr (by rw [h]; exact hd)
  | cons a rest ih =>
    intro m0 m h n t hd
    rw [List.foldl_cons] at h
    cases hn : nOf a with
    | none =>
      rw [hn] at h
      dsimp only at h
      rcases ih m0 m h n t hd with h1 | h1
      · exact Or.inl ⟨List.mem_cons_of_mem a h1.1, h1.2⟩
      · exact Or.inr h1
    | some s =>
      rw [hn] at h
      dsimp only at h
      rcases ih (aset m0 (normalize_name s) a) m h n t hd with h1 | h1
      · exact Or.inl ⟨List.mem_cons_of_mem a h1.1, h1.2⟩
      · rcases alookup_aset_cases m0 (normalize_name s) a n t h1 with h2 | h2
        · exact Or.inl ⟨by rw [h2.2]; exact List.mem_cons_self a rest, s,
            by rw [h2.2]; exact hn, h2.1.symm⟩
        · exact Or.inr h2

theorem mkTargetLookup_spec (tgts : List Doc) (k : LC) (t : Doc)
    (htgt : ∀ t2 ∈ tgts, ∃ s, s ≠ [] ∧ dget t2 Field.name = some (PyVal.vStr s))
    (h : alookup (mkTargetLookup tgts) k = some t) :
    t ∈ tgts ∧ ∃ s, s ≠ [] ∧ dget t Field.name = some (PyVal.vStr s) ∧ normalize_name s = k := by
  rcases mkTargetLookup_fold tgts [] (mkTargetLookup tgts) rfl k t h with h1 | h1
  · obtain ⟨hmem, s, hs, hnorm⟩ := h1
    obtain ⟨s2, hs2ne, hs2⟩ := htgt t hmem
    have hns : nOf t = some s2 := by
      unfold nOf truthyStrField
      rw [hs2]
      simp [isEmpty_false_of_ne_nil s2 hs2ne]
    rw [hns] at hs
    simp only [Option.some.injEq] at hs
    exact ⟨hmem, s2, hs2ne, hs2, hs ▸ hnorm⟩
  · simp [alookup] at h1

/-! ## Field agreement between the raw and the prepared-and-stripped doc -/

theorem dget_prepare_fold_mem (src : Doc) :
    ∀ (ks : List Field) (acc : Doc) (k : Field), k ∈ ks → ks.Nodup →
      (∀ k2 ∈ ks, dget acc k2 = none) →
      dget (ks.foldl
        (fun doc k2 => match dget src k2 with | some v => dset doc k2 v | none => doc) acc) k
        = dget src k := by
  intro ks
  induction ks with
  | nil => intro acc k hk; simp at hk
  | cons k0 rest ih =>
    intro acc k hk hnd hfresh
    rw [List.foldl_cons]
    rw [List.nodup_cons] at hnd
    rcases List.mem_cons.mp hk with h1 | h1
    · subst h1
      cases hk0 : dget src k with
      | none =>
        rw [prepare_fold_not_mem src k rest _ hnd.1]
        dsimp only
        exact hfresh k (List.mem_cons_self k rest)
      | some v =>
        rw [prepare_fold_not_mem src k rest _ hnd.1]
        dsimp only
        exact dget_dset_same acc k v
    · have hfresh2 : ∀ k2 ∈ rest, dget (match dget src k0 with
          | some v => dset acc k0 v | none => acc) k2 = none := by
        intro k2 hk2
        cases hk0 : dget src k0 with
        | none => exact hfresh k2 (List.mem_cons_of_mem k0 hk2)
        | some v =>
          dsimp only
          rw [dget_dset_other acc k2 k0 v (fun hh => hnd.1 (hh ▸ hk2))]
          exact hfresh k2 (List.mem_cons_of_mem k0 hk2)
      exact ih _ k h1 hnd.2 hfresh2

theorem dget_prepare_of_transfer (src : Doc) (k : Field) (hk : k ∈ TRANSFER_FIELDS) :
    dget (prepare_source_doc_for_transfer src) k = dget src k := by
  unfold prepare_source_doc_for_transfer
  exact dget_prepare_fold_mem src TRANSFER_FIELDS [] k hk (by decide) (fun k2 _ => rfl)

theorem dget_popProtected_other (d : Doc) (k : Field)
    (h1 : k ≠ Field.account_currency) (h2 : k ≠ Field.balance)
    (h3 : k ≠ Field.total_debit) (h4 : k ≠ Field.total_credit) :
    dget (popProtected d) k = dget d k := by
  unfold popProtected
  rw [dget_dpop_other _ k Field.total_credit h4, dget_dpop_other _ k Field.total_debit h3,
    dget_dpop_other _ k Field.balance h2, dget_dpop_other _ k Field.account_currency h1]

theorem truthyStrField_congr (d1 d2 : Doc) (f : Field) (h : dget d1 f = dget d2 f) :
    truthyStrField d1 f = truthyStrField d2 f := by
  unfold truthyStrField
  rw [h]

theorem dget_srcdoc (raw : Doc) (k : Field) (hk : k ∈ TRANSFER_FIELDS)
    (h1 : k ≠ Field.account_currency) (h2 : k ≠ Field.balance)
    (h3 : k ≠ Field.total_debit) (h4 : k ≠ Field.total_credit) :
    dget (popProtected (prepare_source_doc_for_transfer raw)) k = dget raw k := by
  rw [dget_popProtected_other _ k h1 h2 h3 h4, dget_prepare_of_transfer raw k hk]

theorem nameIsh_srcdoc (raw : Doc) (n : LC) :
    nameIsh (popProtected (prepare_source_doc_for_transfer raw)) n = nameIsh raw n := by
  unfold nameIsh
  rw [truthyStrField_congr _ raw Field.name
      (dget_srcdoc raw Field.name (by decide) (by decide) (by decide) (by decide) (by decide)),
    truthyStrField_congr _ raw Field.account_name
      (dget_srcdoc raw Field.account_name
        (by decide) (by decide) (by decide) (by decide) (by decide))]

theorem parent_srcdoc (raw : Doc) :
    truthyStrField (popProtected (prepare_source_doc_for_transfer raw)) Field.parent_account
      = truthyStrField raw Field.parent_account :=
  truthyStrField_congr _ raw Field.parent_account
    (dget_srcdoc raw Field.parent_account
      (by decide) (by decide) (by decide) (by decide) (by decide))

theorem srcNormOfKey_eq (ntd : List (LC × Doc)) (n : LC) (raw : Doc)
    (h : alookup ntd n = some raw) :
    srcNormOfKey ntd n = normalize_name (nameIsh raw n) := by
  unfold srcNormOfKey
  rw [h]
  dsimp only
  rw [nameIsh_srcdoc raw n]

/-! ## Normalized keys of resolved and unresolvable parents -/

theorem findCand_none_forall (ntd : List (LC × Doc)) (pnorm : LC)
    (h : findCand ntd pnorm = none) :
    ∀ cand cd, (cand, cd) ∈ ntd → normalize_name (nameIsh cd cand) ≠ pnorm := by
  induction ntd with
  | nil => intro cand cd hm; simp at hm
  | cons kv rest ih =>
    obtain ⟨cand0, cd0⟩ := kv
    simp only [findCand] at h
    by_cases hc : normalize_name (nameIsh cd0 cand0) = pnorm
    · rw [if_pos hc] at h; simp at h
    · rw [if_neg hc] at h
      intro cand cd hm
      rcases List.mem_cons.mp hm with h1 | h1
      · obtain ⟨hc1, hc2⟩ := Prod.mk.injEq .. ▸ h1
        rw [hc1, hc2]
        exact hc
      · exact ih h cand cd h1

theorem findCand_some_witness (ntd : List (LC × Doc)) (pnorm : LC) (pk : LC)
    (h : findCand ntd pnorm = some pk) :
    ∃ cd, (pk, cd) ∈ ntd ∧ normalize_name (nameIsh cd pk) = pnorm := by
  induction ntd with
  | nil => simp [findCand] at h
  | cons kv rest ih =>
    obtain ⟨cand0, cd0⟩ := kv
    simp only [findCand] at h
    by_cases hc : normalize_name (nameIsh cd0 cand0) = pnorm
    · rw [if_pos hc] at h
      simp only [Option.some.injEq] at h
      exact ⟨cd0, h ▸ List.mem_cons_self _ _, h ▸ hc⟩
    · rw [if_neg hc] at h
      obtain ⟨cd, hm, hn⟩ := ih h
      exact ⟨cd, List.mem_cons_of_mem _ hm, hn⟩

theorem srcNormOfKey_of_resolved (srcs : List Doc) (ntd : List (LC × Doc))
    (hntd : mkNameToDoc srcs = some ntd)
    (hsrc : ∀ a ∈ srcs, ∃ s, s ≠ [] ∧ dget a Field.name = some (PyVal.vStr s))
    (parent pk : LC) (h : resolveParentKey ntd parent = some pk) :
    srcNormOfKey ntd pk = normalize_name parent := by
  obtain ⟨hnd, hent⟩ := mkNameToDoc_spec srcs ntd hntd
  obtain ⟨h, _⟩ := resolveParentKey_some_inv ntd parent pk h
  by_cases hl : (alookup ntd parent).isSome
  · rw [if_pos hl] at h
    have hpk : pk = parent := (Option.some.injEq .. ▸ h).symm
    subst hpk
    obtain ⟨doc, hdoc⟩ := Option.isSome_iff_exists.mp hl
    obtain ⟨hname, hmem⟩ := hent pk doc hdoc
    obtain ⟨s, hsne, hs⟩ := hsrc doc hmem
    rw [hname] at hs
    have hsp : s = pk := by
      simp only [Option.some.injEq, PyVal.vStr.injEq] at hs
      exact hs.symm
    rw [srcNormOfKey_eq ntd pk doc hdoc]
    have hni : nameIsh doc pk = pk := by
      unfold nameIsh truthyStrField
      rw [hname]
      simp [isEmpty_false_of_ne_nil pk (hsp ▸ hsne)]
    rw [hni]
  · rw [if_neg hl] at h
    obtain ⟨cd, hm, hn⟩ := findCand_some_witness ntd (normalize_name parent) pk h
    have hdoc : alookup ntd pk = some cd := mem_alookup_of_nodup ntd hnd pk cd hm
    rw [srcNormOfKey_eq ntd pk cd hdoc]
    exact hn

theorem resolveParentKey_none_inv (ntd : List (LC × Doc)) (parent : LC)
    (hkne : ∀ cand cd, (cand, cd) ∈ ntd → cand ≠ [])
    (h : resolveParentKey ntd parent = none) :
    (alookup ntd parent).isSome = false ∧ findCand ntd (normalize_name parent) = none := by
  unfold resolveParentKey at h
  have hpre : (if (alookup ntd parent).isSome then some parent
      else findCand ntd (normalize_name parent)) = none := by
    cases hx : (if (alookup ntd parent).isSome then some parent
        else findCand ntd (normalize_name parent)) with
    | none => rfl
    | some k =>
      exfalso
      rw [hx] at h
      dsimp only at h
      have hkmem : ∃ cd, (k, cd) ∈ ntd := by
        by_cases hl : (alookup ntd parent).isSome
        · rw [if_pos hl] at hx
          simp only [Option.some.injEq] at hx
          obtain ⟨d2, hd2⟩ := Option.isSome_iff_exists.mp hl
          exact ⟨d2, by rw [← hx]; exact alookup_mem_pair ntd parent d2 hd2⟩
        · rw [if_neg hl] at hx
          obtain ⟨cd, hm, _⟩ := findCand_some_witness ntd _ k hx
          exact ⟨cd, hm⟩
      obtain ⟨cd, hm⟩ := hkmem
      have hkf : k.isEmpty = false := isEmpty_false_of_ne_nil k (hkne k cd hm)
      rw [if_neg (by rw [hkf]; exact Bool.false_ne_true)] at h
      simp at h
  by_cases hl : (alookup ntd parent).isSome
  · rw [if_pos hl] at hpre; simp at hpre
  · rw [if_neg hl] at hpre
    refine ⟨?_, hpre⟩
    cases h2 : (alookup ntd parent).isSome with
    | false => rfl
    | true => exact absurd h2 hl

theorem srcNormOfKey_ne_of_unresolved (ntd : List (LC × Doc)) (parent : LC)
    (hkne : ∀ cand cd, (cand, cd) ∈ ntd → cand ≠ [])
    (h : resolveParentKey ntd parent = none) (n : LC) (doc : Doc)
    (hn : alookup ntd n = some doc) : srcNormOfKey ntd n ≠ normalize_name parent := by
  obtain ⟨_, hfc⟩ := resolveParentKey_none_inv ntd parent hkne h
  rw [srcNormOfKey_eq ntd n doc hn]
  exact findCand_none_forall ntd (normalize_name parent) hfc n doc (alookup_mem_pair ntd n doc hn)

/-! ## Remote-store lemmas -/

theorem storeGet_docName (store : List Doc) (n : LC) (d : Doc)
    (h : storeGet store n = some d) : docName d = some n := by
  induction store with
  | nil => simp [storeGet] at h
  | cons d0 rest ih =>
    simp only [storeGet] at h
    by_cases hd : docName d0 = some n
    · rw [if_pos hd] at h
      exact (Option.some.injEq .. ▸ h) ▸ hd
    · rw [if_neg hd] at h
      exact ih h

theorem docName_inv (d : Doc) (n : LC) (h : docName d = some n) :
    dget d Field.name = some (PyVal.vStr n) := by
  unfold docName at h
  cases hd : dget d Field.name with
  | none => rw [hd] at h; simp at h
  | some v =>
    cases v with
    | vStr s =>
      rw [hd] at h
      dsimp only at h
      simp only [Option.some.injEq] at h
      rw [h]
    | vInt k => rw [hd] at h; simp at h
    | vNone => rw [hd] at h; simp at h

theorem storeGet_of_mem_name (store : List Doc) (d : Doc) (s : LC)
    (hd : d ∈ store) (hn : docName d = some s) : storeGet store s ≠ none := by
  induction store with
  | nil => simp at hd
  | cons d0 rest ih =>
    simp only [storeGet]
    by_cases h0 : docName d0 = some s
    · rw [if_pos h0]; simp
    · rw [if_neg h0]
      rcases List.mem_cons.mp hd with h1 | h1
      · exact absurd (h1 ▸ hn) h0
      · exact ih h1

theorem storeGet_append_of_found (store l : List Doc) (s : LC)
    (h : storeGet store s ≠ none) : storeGet (store ++ l) s = storeGet store s := by
  induction store with
  | nil => simp [storeGet] at h
  | cons d0 rest ih =>
    simp only [storeGet, List.cons_append]
    by_cases h0 : docName d0 = some s
    · rw [if_pos h0, if_pos h0]
    · rw [if_neg h0, if_neg h0]
      simp only [storeGet] at h
      rw [if_neg h0] at h
      exact ih h

theorem dmerge_dget_of_not_key (p : Doc) :
    ∀ (d : Doc) (f : Field), (∀ kv ∈ p, kv.1 ≠ f) → dget (dmerge d p) f = dget d f := by
  unfold dmerge
  induction p with
  | nil => intro d f _; rfl
  | cons kv rest ih =>
    intro d f h
    rw [List.foldl_cons]
    rw [ih (dset d kv.1 kv.2) f (fun kv2 hk => h kv2 (List.mem_cons_of_mem kv hk))]
    exact dget_dset_other d f kv.1 kv.2 (fun hh => h kv (List.mem_cons_self kv rest) hh.symm)

theorem docName_dmerge (d p : Doc) (h : ∀ kv ∈ p, kv.1 ≠ Field.name) :
    docName (dmerge d p) = docName d := by
  unfold docName
  rw [dmerge_dget_of_not_key p d Field.name h]

theorem storeGet_storeUpdate_of_ne (store : List Doc) (tname : LC) (p : Doc) (s : LC)
    (hne : s ≠ tname) (hp : ∀ kv ∈ p, kv.1 ≠ Field.name) :
    storeGet (storeUpdate store tname p) s = storeGet store s := by
  induction store with
  | nil => rfl
  | cons d0 rest ih =>
    simp only [storeUpdate, List.map_cons, storeGet]
    by_cases h0 : docName d0 = some tname
    · rw [if_pos h0]
      have hdn : docName (dmerge d0 p) = docName d0 := docName_dmerge d0 p hp
      have hns : ¬(docName (dmerge d0 p) = some s) := by
        rw [hdn, h0]
        intro hh
        exact hne (Option.some.injEq .. ▸ hh).symm
      have hns0 : ¬(docName d0 = some s) := by
        rw [h0]
        intro hh
        exact hne (Option.some.injEq .. ▸ hh).symm
      rw [if_neg hns, if_neg hns0]
      exact ih
    · rw [if_neg h0]
      by_cases h1 : docName d0 = some s
      · rw [if_pos h1, if_pos h1]
      · rw [if_neg h1, if_neg h1]
        exact ih

theorem buildUpdatePayload_keys_not_name (src : Doc) (lk : List (LC × Doc)) (ks : List Field)
    (hnd : ks.Nodup) (hks : ∀ k ∈ ks, k ∈ COMPARE_FIELDS) :
    ∀ kv ∈ buildUpdatePayload src ks lk, kv.1 ≠ Field.name := by
  intro kv hkv
  rw [buildUpdatePayload_eq src lk ks hnd] at hkv
  obtain ⟨k, hk, he⟩ := List.mem_filterMap.mp hkv
  have hk1 : kv.1 = k := updateEntry_key src lk k kv he
  rw [hk1]
  intro hh
  have : Field.name ∈ COMPARE_FIELDS := hh ▸ hks k hk
  exact absurd this (by decide)

/-! ## Keys, order and permutation structure of the depth buckets -/

theorem depthGo_nodup (ntd : List (LC × Doc)) :
    ∀ (fuel : Nat) (nm : LC) (visited : List LC) (m : List (LC × Nat)),
      (m.map Prod.fst).Nodup → (((depthGo ntd fuel nm visited m).2).map Prod.fst).Nodup := by
  intro fuel
  induction fuel with
  | zero => intro nm visited m h; exact h
  | succ f ih =>
    intro nm visited m h
    simp only [depthGo]
    cases hmemo : alookup m nm with
    | some d => exact h
    | none =>
      dsimp only
      by_cases hmem : nm ∈ visited
      · rw [if_pos hmem]
        exact aset_keys_nodup m nm 0 h
      · rw [if_neg hmem]
        cases hdoc : alookup ntd nm with
        | none => exact aset_keys_nodup m nm 0 h
        | some doc =>
          dsimp only
          cases hpar : truthyStrField doc Field.parent_account with
          | none => exact aset_keys_nodup m nm 0 h
          | some parent =>
            dsimp only
            cases hres : resolveParentKey ntd parent with
            | none => exact aset_keys_nodup m nm 1 h
            | some pk =>
              dsimp only
              exact aset_keys_nodup _ nm _ (ih pk (nm :: visited) m h)

theorem computeDepths_nodup (ntd : List (LC × Doc)) :
    ((computeDepths ntd).map Prod.fst).Nodup := by
  unfold computeDepths
  have haux : ∀ (ks : List LC) (m : List (LC × Nat)), (m.map Prod.fst).Nodup →
      ((ks.foldl (fun depths n => (depthGo ntd (ntd.length + 1) n [] depths).2) m).map
        Prod.fst).Nodup := by
    intro ks
    induction ks with
    | nil => intro m h; exact h
    | cons k rest ih =>
      intro m h
      rw [List.foldl_cons]
      exact ih _ (depthGo_nodup ntd _ k [] m h)
  exact haux (ntd.map Prod.fst) [] (by simp)

theorem computeDepths_total (ntd : List (LC × Doc)) (n : LC) (h : n ∈ ntd.map Prod.fst) :
    alookup (computeDepths ntd) n ≠ none := by
  have h0 : orphanInv ntd [] := fun n2 _ => Or.inl rfl
  obtain ⟨_, _, h3⟩ := orphanFold ntd (ntd.map Prod.fst) [] h0
  exact h3 n h

theorem mem_bucketNames (depths : List (LC × Nat)) (d : Nat) (n : LC) :
    n ∈ bucketNames depths d ↔ (n, d) ∈ depths := by
  unfold bucketNames
  rw [List.mem_map]
  constructor
  · rintro ⟨⟨p1, p2⟩, hp, hfst⟩
    rw [List.mem_filter] at hp
    dsimp only at hfst
    have hp2 : p2 = d := by simpa using hp.2
    rw [← hfst, ← hp2]
    exact hp.1
  · intro hmem
    exact ⟨(n, d), List.mem_filter.mpr ⟨hmem, by simp⟩, rfl⟩

theorem bucket_depth (ntd : List (LC × Doc)) (n : LC) (d : Nat)
    (h : n ∈ bucketNames (computeDepths ntd) d) :
    alookup (computeDepths ntd) n = some d :=
  mem_alookup_of_nodup _ (computeDepths_nodup ntd) n d ((mem_bucketNames _ d n).mp h)

theorem flatMap_congr_mem {α β : Type} (l : List α) (f g : α → List β)
    (h : ∀ x ∈ l, f x = g x) : l.flatMap f = l.flatMap g := by
  induction l with
  | nil => rfl
  | cons a rest ih =>
    rw [List.flatMap_cons, List.flatMap_cons, h a (List.mem_cons_self a rest),
      ih (fun x hx => h x (List.mem_cons_of_mem a hx))]

theorem buckets_perm :
    ∀ (ds : List Nat) (dep : List (LC × Nat)), ds.Nodup →
      (∀ p ∈ dep, p.2 ∈ ds) →
      List.Perm (ds.flatMap (fun d => dep.filter (fun p => p.2 == d))) dep := by
  intro ds
  induction ds with
  | nil =>
    intro dep _ hcov
    cases dep with
    | nil => exact List.Perm.refl []
    | cons p rest => exact absurd (hcov p (List.mem_cons_self p rest)) (by simp)
  | cons d rest ih =>
    intro dep hnd hcov
    rw [List.flatMap_cons]
    rw [List.nodup_cons] at hnd
    have hsplit : List.Perm (dep.filter (fun p => p.2 == d)
        ++ dep.filter (fun p => !(p.2 == d))) dep := List.filter_append_perm _ dep
    have hcov2 : ∀ p ∈ dep.filter (fun p => !(p.2 == d)), p.2 ∈ rest := by
      intro p hp
      rw [List.mem_filter] at hp
      rcases List.mem_cons.mp (hcov p hp.1) with h2 | h2
      · exfalso
        have := hp.2
        rw [h2] at this
        simp at this
      · exact h2
    have hrest : rest.flatMap (fun d2 => dep.filter (fun p => p.2 == d2))
        = rest.flatMap (fun d2 => (dep.filter (fun p => !(p.2 == d))).filter
            (fun p => p.2 == d2)) := by
      apply flatMap_congr_mem
      intro d2 hd2
      rw [List.filter_filter]
      apply List.filter_congr
      intro p _
      have hdd : d2 ≠ d := fun hh => hnd.1 (hh ▸ hd2)
      by_cases hp2 : p.2 = d2
      · simp [hp2, hdd]
      · simp [hp2]
    rw [hrest]
    exact (List.Perm.append_left _ (ih (dep.filter (fun p => !(p.2 == d))) hnd.2 hcov2)).trans
      hsplit

theorem processOrder_perm (depths : List (LC × Nat)) :
    List.Perm (processOrder depths) (depths.map Prod.fst) := by
  unfold processOrder bucketNames sortNat
  rw [← List.map_flatMap]
  apply List.Perm.map
  apply buckets_perm
  · exact (List.perm_insertionSort (fun a b => a ≤ b)
      (depths.map Prod.snd).dedup).symm.nodup (List.nodup_dedup _)
  · intro p hp
    exact (List.perm_insertionSort (fun a b => a ≤ b) (depths.map Prod.snd).dedup).symm.mem_iff.mp
      (List.mem_dedup.mpr (List.mem_map_of_mem Prod.snd hp))

theorem processOrder_perm_ntd (ntd : List (LC × Doc)) (hnd : (ntd.map Prod.fst).Nodup) :
    List.Perm (processOrder (computeDepths ntd)) (ntd.map Prod.fst) := by
  refine (processOrder_perm (computeDepths ntd)).trans ?_
  refine List.Subperm.antisymm ?_ ?_
  · refine List.subperm_of_subset (computeDepths_nodup ntd) ?_
    intro n hn
    exact computeDepths_keys ntd n (alookup_isSome_of_mem _ n hn)
  · refine List.subperm_of_subset hnd ?_
    intro n hn
    have h1 := computeDepths_total ntd n hn
    cases h2 : alookup (computeDepths ntd) n with
    | none => exact absurd h2 h1
    | some d => exact alookup_some_mem_keys _ n d h2

theorem sortNat_sorted (l : List Nat) : List.Sorted (fun a b => a ≤ b) (sortNat l) :=
  List.sorted_insertionSort _ l

theorem sorted_split_mem (dsDone : List Nat) (d : Nat) (ds2 : List Nat) (dp : Nat)
    (hs : List.Sorted (fun a b => a ≤ b) (dsDone ++ d :: ds2))
    (hmem : dp ∈ dsDone ++ d :: ds2) (hlt : dp < d) : dp ∈ dsDone := by
  rcases List.mem_append.mp hmem with h | h
  · exact h
  · exfalso
    rcases List.mem_cons.mp h with h1 | h1
    · omega
    · have h2 : List.Sorted (fun a b => a ≤ b) (d :: ds2) :=
        (List.pairwise_append.mp hs).2.1
      have h3 : d ≤ dp := (List.pairwise_cons.mp h2).1 dp h1
      omega

theorem depth_parent_eq (ntd : List (LC × Doc)) (ρ : LC → Nat)
    (hbound : ∀ x, ρ x ≤ ntd.length)
    (hρ : ∀ x y, resolveStep ntd x = some y → ρ y < ρ x)
    (r pk : LC) (hr : resolveStep ntd r = some pk) :
    ∃ dp, alookup (computeDepths ntd) pk = some dp ∧
      alookup (computeDepths ntd) r = some (dp + 1) := by
  obtain ⟨hinv, htot⟩ := computeDepths_correct ntd ρ hbound hρ
  have hr2 := hr
  unfold resolveStep at hr2
  cases hraw : alookup ntd r with
  | none => rw [hraw] at hr2; simp at hr2
  | some doc =>
    rw [hraw] at hr2
    dsimp only at hr2
    cases hpar : truthyStrField doc Field.parent_account with
    | none => rw [hpar] at hr2; simp at hr2
    | some parent =>
      rw [hpar] at hr2
      dsimp only at hr2
      have hrk : r ∈ ntd.map Prod.fst := alookup_some_mem_keys ntd r doc hraw
      have h1 := htot r hrk
      cases hdr : alookup (computeDepths ntd) r with
      | none => exact absurd hdr h1
      | some dr =>
        have hspec := hinv r dr hdr
        unfold depthSpec at hspec
        rw [hraw] at hspec
        dsimp only at hspec
        rw [hpar] at hspec
        dsimp only at hspec
        rw [hr2] at hspec
        dsimp only at hspec
        obtain ⟨dp, hdp, hdd⟩ := hspec
        exact ⟨dp, hdp, by rw [hdd]⟩

theorem docName_of_dget (d : Doc) (s : LC) (h : dget d Field.name = some (PyVal.vStr s)) :
    docName d = some s := by
  unfold docName
  rw [h]

/-- The create-or-update half of the loop preserves the dry/live coupling:
both modes log the same decision, the dry run stays mutation-free, the
match-table keys evolve identically, and entries and store answers for the
still-unprocessed records are untouched. -/
theorem afterParent_coupled (cfg : Cfg) (tgts : List Doc) (lk0 ntd : List (LC × Doc))
    (rem : List LC) (r : LC) (stD stL : St) (src_doc : Doc) (tf : Option Doc)
    (hlive : cfg.dryRun = false)
    (hcreate : ∀ i, cfg.createOk i = true)
    (hdec : stD.decisions = stL.decisions)
    (hstore : stD.store = tgts) (hmuts : stD.muts = [])
    (hkeys : stD.lookup.map Prod.fst = stL.lookup.map Prod.fst)
    (hD4 : ∀ n ∈ rem, alookup stD.lookup (srcNormOfKey ntd n) = alookup lk0 (srcNormOfKey ntd n))
    (hL4 : ∀ n ∈ rem, alookup stL.lookup (srcNormOfKey ntd n) = alookup lk0 (srcNormOfKey ntd n))
    (h5 : ∀ n ∈ rem, ∀ t s, alookup lk0 (srcNormOfKey ntd n) = some t →
        dget t Field.name = some (PyVal.vStr s) → storeGet stL.store s = storeGet tgts s)
    (hfresh : ∀ n ∈ rem, srcNormOfKey ntd n ≠ srcNormOfKey ntd r)
    (hlk0names : ∀ k t, alookup lk0 k = some t →
        ∃ s, s ≠ [] ∧ dget t Field.name = some (PyVal.vStr s) ∧ normalize_name s = k ∧ t ∈ tgts)
    (htf : ∀ tfull, tf = some tfull → ∃ n2, dget tfull Field.name = some (PyVal.vStr n2) ∧
        normalize_name n2 = srcNormOfKey ntd r) :
    coupled tgts lk0 ntd rem
        (afterParent { cfg with dryRun := true } stD src_doc (srcNormOfKey ntd r) tf)
        (afterParent cfg stL src_doc (srcNormOfKey ntd r) tf)
      ∧ (∀ k2, k2 ∈ stL.lookup.map Prod.fst →
          k2 ∈ (afterParent cfg stL src_doc (srcNormOfKey ntd r) tf).lookup.map Prod.fst)
      ∧ (tf = none →
          srcNormOfKey ntd r
            ∈ (afterParent cfg stL src_doc (srcNormOfKey ntd r) tf).lookup.map Prod.fst) := by
  have hstore5 : ∀ n ∈ rem, ∀ t s, alookup lk0 (srcNormOfKey ntd n) = some t →
      dget t Field.name = some (PyVal.vStr s) → storeGet tgts s ≠ none := by
    intro n hn t s ht hs
    obtain ⟨s2, hs2ne, hs2, hnorm2, hmem2⟩ := hlk0names _ t ht
    rw [hs2] at hs
    simp only [Option.some.injEq, PyVal.vStr.injEq] at hs
    exact storeGet_of_mem_name tgts t s hmem2 (docName_of_dget t s (hs ▸ hs2))
  unfold afterParent
  cases tf with
  | some tfull =>
    dsimp only
    obtain ⟨n2, hn2, hnorm2⟩ := htf tfull rfl
    by_cases hdiff : (account_differences src_doc tfull).isEmpty = true
    · rw [if_pos hdiff, if_pos hdiff]
      exact ⟨⟨by dsimp only; rw [hdec], hstore, hmuts, hkeys, hD4, hL4, h5⟩,
        fun k2 hk2 => hk2, fun hh => by simp at hh⟩
    · rw [if_neg hdiff, if_neg hdiff]
      rw [hlive]
      rw [if_neg Bool.false_ne_true]
      rw [if_pos rfl]
      rw [hn2]
      dsimp only
      have hpayload : ∀ kv ∈ buildUpdatePayload src_doc
          ((account_differences src_doc tfull).map Prod.fst) stL.lookup, kv.1 ≠ Field.name :=
        buildUpdatePayload_keys_not_name src_doc stL.lookup _
          (account_differences_keys_nodup src_doc tfull)
          (fun k hk => (account_differences_keys_sublist src_doc tfull).subset hk)
      refine ⟨⟨by dsimp only; rw [hdec], hstore, hmuts, hkeys, hD4, hL4, ?_⟩,
        fun k2 hk2 => hk2, fun hh => by simp at hh⟩
      intro n hn t s ht hs
      dsimp only
      have hsn2 : s ≠ n2 := by
        intro hh
        obtain ⟨s2, hs2ne, hs2, hnorm2b, hmem2⟩ := hlk0names _ t ht
        rw [hs2] at hs
        simp only [Option.some.injEq, PyVal.vStr.injEq] at hs
        apply hfresh n hn
        rw [← hnorm2b, hs, hh, hnorm2]
      rw [storeGet_storeUpdate_of_ne stL.store n2 _ s hsn2 hpayload]
      exact h5 n hn t s ht hs
  | none =>
    dsimp only
    rw [hlive]
    rw [if_neg Bool.false_ne_true]
    rw [if_pos rfl]
    rw [hcreate stL.cidx]
    rw [if_pos rfl]
    refine ⟨⟨by dsimp only; rw [hdec], hstore, hmuts, ?_, ?_, ?_, ?_⟩, ?_, ?_⟩
    · dsimp only
      rw [aset_keys, aset_keys, hkeys]
    · intro n hn
      dsimp only
      rw [alookup_aset_other stD.lookup _ _ _ (hfresh n hn)]
      exact hD4 n hn
    · intro n hn
      dsimp only
      rw [alookup_aset_other stL.lookup _ _ _ (hfresh n hn)]
      exact hL4 n hn
    · intro n hn t s ht hs
      dsimp only
      have hfound : storeGet stL.store s ≠ none := by
        rw [h5 n hn t s ht hs]
        exact hstore5 n hn t s ht hs
      rw [storeGet_append_of_found stL.store _ s hfound]
      exact h5 n hn t s ht hs
    · intro k2 hk2
      dsimp only
      exact aset_keys_mono stL.lookup _ _ k2 hk2
    · intro _
      dsimp only
      exact aset_mem_keys_self stL.lookup _ _

/-- The parent-ensuring wrapper preserves the dry/live coupling: the
presence test sees the same key set in both modes, a resolvable parent is
already in the match table (by the depth ordering, supplied as `hside`), so
the creation path only ever fires for parents that are unresolvable in the
source set, whose normalized key collides with no record's key. -/
theorem withParent_coupled (cfg : Cfg) (tgts srcs : List Doc) (ntd lk0 : List (LC × Doc))
    (hntd : mkNameToDoc srcs = some ntd)
    (hlive : cfg.dryRun = false)
    (hretry : 0 < cfg.maxParentRetries)
    (hcreate : ∀ i, cfg.createOk i = true)
    (hsrc : ∀ a ∈ srcs, ∃ s, s ≠ [] ∧ dget a Field.name = some (PyVal.vStr s))
    (hlk0names : ∀ k t, alookup lk0 k = some t →
        ∃ s, s ≠ [] ∧ dget t Field.name = some (PyVal.vStr s) ∧ normalize_name s = k ∧ t ∈ tgts)
    (r : LC) (rem : List LC) (stD stL : St) (raw : Doc) (tf : Option Doc)
    (hraw : alookup ntd r = some raw)
    (hremkeys : ∀ n ∈ rem, alookup ntd n ≠ none)
    (hside : ∀ pk, resolveStep ntd r = some pk → srcNormOfKey ntd pk ∈ stL.lookup.map Prod.fst)
    (hdec : stD.decisions = stL.decisions)
    (hstore : stD.store = tgts) (hmuts : stD.muts = [])
    (hkeys : stD.lookup.map Prod.fst = stL.lookup.map Prod.fst)
    (hD4 : ∀ n ∈ rem, alookup stD.lookup (srcNormOfKey ntd n) = alookup lk0 (srcNormOfKey ntd n))
    (hL4 : ∀ n ∈ rem, alookup stL.lookup (srcNormOfKey ntd n) = alookup lk0 (srcNormOfKey ntd n))
    (h5 : ∀ n ∈ rem, ∀ t s, alookup lk0 (srcNormOfKey ntd n) = some t →
        dget t Field.name = some (PyVal.vStr s) → storeGet stL.store s = storeGet tgts s)
    (hfresh : ∀ n ∈ rem, srcNormOfKey ntd n ≠ srcNormOfKey ntd r)
    (htf : ∀ tfull, tf = some tfull → ∃ n2, dget tfull Field.name = some (PyVal.vStr n2) ∧
        normalize_name n2 = srcNormOfKey ntd r) :
    coupled tgts lk0 ntd rem
        (withParent { cfg with dryRun := true } ntd stD
          (popProtected (prepare_source_doc_for_transfer raw)) (srcNormOfKey ntd r) r tf)
        (withParent cfg ntd stL
          (popProtected (prepare_source_doc_for_transfer raw)) (srcNormOfKey ntd r) r tf)
      ∧ (∀ k2, k2 ∈ stL.lookup.map Prod.fst →
          k2 ∈ (withParent cfg ntd stL
            (popProtected (prepare_source_doc_for_transfer raw)) (srcNormOfKey ntd r) r
            tf).lookup.map Prod.fst)
      ∧ (tf = none →
          srcNormOfKey ntd r ∈ (withParent cfg ntd stL
            (popProtected (prepare_source_doc_for_transfer raw)) (srcNormOfKey ntd r) r
            tf).lookup.map Prod.fst) := by
  unfold withParent
  cases hpar : truthyStrField (popProtected (prepare_source_doc_for_transfer raw))
      Field.parent_account with
  | none =>
    exact afterParent_coupled cfg tgts lk0 ntd rem r stD stL _ tf hlive hcreate hdec hstore
      hmuts hkeys hD4 hL4 h5 hfresh hlk0names htf
  | some parent =>
    dsimp only
    have hpraw : truthyStrField raw Field.parent_account = some parent := by
      rw [← parent_srcdoc raw]
      exact hpar
    have hres_link : resolveStep ntd r = resolveParentKey ntd parent := by
      unfold resolveStep
      rw [hraw]
      dsimp only
      rw [hpraw]
    have hmemEq : (alookup stD.lookup (normalize_name parent)).isSome
        = (alookup stL.lookup (normalize_name parent)).isSome :=
      alookup_isSome_eq_of_keys_eq _ _ hkeys _
    rw [hmemEq]
    cases hps : (alookup stL.lookup (normalize_name parent)).isSome with
    | true =>
      rw [if_pos rfl, if_pos rfl]
      exact afterParent_coupled cfg tgts lk0 ntd rem r stD stL _ tf hlive hcreate hdec hstore
        hmuts hkeys hD4 hL4 h5 hfresh hlk0names htf
    | false =>
      rw [if_neg Bool.false_ne_true, if_neg Bool.false_ne_true]
      have hrpk : resolveParentKey ntd parent = none := by
        cases hrp : resolveParentKey ntd parent with
        | none => rfl
        | some pk =>
          exfalso
          have h1 := hside pk (by rw [hres_link, hrp])
          have h2 : srcNormOfKey ntd pk = normalize_name parent :=
            srcNormOfKey_of_resolved srcs ntd hntd hsrc parent pk hrp
          rw [h2] at h1
          have h3 := alookup_isSome_of_mem stL.lookup _ h1
          cases hA : alookup stL.lookup (normalize_name parent) with
          | some v => rw [hA] at hps; simp at hps
          | none => exact h3 hA
      have hkne : ∀ cand cd, (cand, cd) ∈ ntd → cand ≠ [] := by
        intro cand cd hm
        have hlook : alookup ntd cand = some cd :=
          mem_alookup_of_nodup ntd (mkNameToDoc_spec srcs ntd hntd).1 cand cd hm
        obtain ⟨hname, hmem⟩ := (mkNameToDoc_spec srcs ntd hntd).2 cand cd hlook
        obtain ⟨s, hsne, hs⟩ := hsrc cd hmem
        rw [hname] at hs
        simp only [Option.some.injEq, PyVal.vStr.injEq] at hs
        rw [hs]
        exact hsne
      have hpn_ne : ∀ n ∈ rem, srcNormOfKey ntd n ≠ normalize_name parent := by
        intro n hn
        cases hdocn : alookup ntd n with
        | none => exact absurd hdocn (hremkeys n hn)
        | some docn => exact srcNormOfKey_ne_of_unresolved ntd parent hkne hrpk n docn hdocn
      obtain ⟨k, hk⟩ : ∃ k, cfg.maxParentRetries = k + 1 :=
        ⟨cfg.maxParentRetries - 1, by omega⟩
      have hdryStep : ensureLoop { cfg with dryRun := true } (parentPayloadFor ntd parent) (normalize_name parent) cfg.maxParentRetries stD = (true, { stD with lookup := aset stD.lookup (normalize_name parent) [(Field.name, (dget (parentPayloadFor ntd parent) Field.account_name).getD PyVal.vNone)] }) := by
        rw [hk]
        simp only [ensureLoop]
        rw [if_pos True.intro]
      have hliveStep : ensureLoop cfg (parentPayloadFor ntd parent) (normalize_name parent) cfg.maxParentRetries stL = (true, { stL with store := stL.store ++ [mkCreated (parentPayloadFor ntd parent)], lookup := aset stL.lookup (normalize_name parent) (mkCreated (parentPayloadFor ntd parent)), cidx := stL.cidx + 1, muts := stL.muts ++ [Mut.createCall (parentPayloadFor ntd parent)] }) := by
        rw [hk]
        simp only [ensureLoop]
        rw [hlive]
        rw [if_neg Bool.false_ne_true]
        rw [hcreate stL.cidx]
        rw [if_pos rfl]
      rw [hdryStep, hliveStep]
      dsimp only
      have hstore5b : ∀ n ∈ rem, ∀ t s, alookup lk0 (srcNormOfKey ntd n) = some t →
          dget t Field.name = some (PyVal.vStr s) → storeGet tgts s ≠ none := by
        intro n hn t s ht hs
        obtain ⟨s2, hs2ne, hs2, hnorm2, hmem2⟩ := hlk0names _ t ht
        rw [hs2] at hs
        simp only [Option.some.injEq, PyVal.vStr.injEq] at hs
        exact storeGet_of_mem_name tgts t s hmem2 (docName_of_dget t s (hs ▸ hs2))
      obtain ⟨hcoup, hmono, hkeymem⟩ :=
        afterParent_coupled cfg tgts lk0 ntd rem r
          { stD with lookup := aset stD.lookup (normalize_name parent) [(Field.name, (dget (parentPayloadFor ntd parent) Field.account_name).getD PyVal.vNone)] }
          { stL with store := stL.store ++ [mkCreated (parentPayloadFor ntd parent)], lookup := aset stL.lookup (normalize_name parent) (mkCreated (parentPayloadFor ntd parent)), cidx := stL.cidx + 1, muts := stL.muts ++ [Mut.createCall (parentPayloadFor ntd parent)] }
          _ tf hlive hcreate hdec hstore hmuts
          (by dsimp only; rw [aset_keys, aset_keys, hkeys])
          (by intro n hn
              dsimp only
              rw [alookup_aset_other stD.lookup _ _ _ (hpn_ne n hn)]
              exact hD4 n hn)
          (by intro n hn
              dsimp only
              rw [alookup_aset_other stL.lookup _ _ _ (hpn_ne n hn)]
              exact hL4 n hn)
          (by intro n hn t s ht hs
              dsimp only
              have hfound : storeGet stL.store s ≠ none := by
                rw [h5 n hn t s ht hs]
                exact hstore5b n hn t s ht hs
              rw [storeGet_append_of_found stL.store _ s hfound]
              exact h5 n hn t s ht hs)
          hfresh hlk0names htf
      refine ⟨hcoup, ?_, hkeymem⟩
      intro k2 hk2
      exact hmono k2 (aset_keys_mono stL.lookup _ _ k2 hk2)

/-- One per-record step preserves the dry/live coupling and records the
processed record's normalized key in the match table. -/
theorem step_coupled (cfg : Cfg) (tgts srcs : List Doc) (ntd lk0 : List (LC × Doc))
    (hntd : mkNameToDoc srcs = some ntd)
    (hlive : cfg.dryRun = false)
    (hretry : 0 < cfg.maxParentRetries)
    (hcreate : ∀ i, cfg.createOk i = true)
    (hsrc : ∀ a ∈ srcs, ∃ s, s ≠ [] ∧ dget a Field.name = some (PyVal.vStr s))
    (hlk0names : ∀ k t, alookup lk0 k = some t →
        ∃ s, s ≠ [] ∧ dget t Field.name = some (PyVal.vStr s) ∧ normalize_name s = k ∧ t ∈ tgts)
    (r : LC) (rem : List LC) (stD stL : St)
    (hremkeys : ∀ n ∈ rem, alookup ntd n ≠ none)
    (hnd : ((r :: rem).map (srcNormOfKey ntd)).Nodup)
    (hside : ∀ pk, resolveStep ntd r = some pk → srcNormOfKey ntd pk ∈ stL.lookup.map Prod.fst)
    (hc : coupled tgts lk0 ntd (r :: rem) stD stL) :
    coupled tgts lk0 ntd rem (processRecord { cfg with dryRun := true } ntd stD r)
        (processRecord cfg ntd stL r)
      ∧ (∀ k2, k2 ∈ stL.lookup.map Prod.fst →
          k2 ∈ (processRecord cfg ntd stL r).lookup.map Prod.fst)
      ∧ (alookup ntd r ≠ none →
          srcNormOfKey ntd r ∈ (processRecord cfg ntd stL r).lookup.map Prod.fst) := by
  obtain ⟨hdec, hstore, hmuts, hkeys, hD4, hL4, h5⟩ := hc
  have hfresh : ∀ n ∈ rem, srcNormOfKey ntd n ≠ srcNormOfKey ntd r := by
    rw [List.map_cons, List.nodup_cons] at hnd
    intro n hn hh
    exact hnd.1 (hh ▸ List.mem_map_of_mem _ hn)
  have hD4' := fun n hn => hD4 n (List.mem_cons_of_mem r hn)
  have hL4' := fun n hn => hL4 n (List.mem_cons_of_mem r hn)
  have h5' := fun n hn => h5 n (List.mem_cons_of_mem r hn)
  have hD4r := hD4 r (List.mem_cons_self r rem)
  have hL4r := hL4 r (List.mem_cons_self r rem)
  unfold processRecord
  cases hraw : alookup ntd r with
  | none =>
    exact ⟨⟨hdec, hstore, hmuts, hkeys, hD4', hL4', h5'⟩, fun k2 hk2 => hk2,
      fun hh => absurd rfl hh⟩
  | some raw =>
    dsimp only
    have hkey : normalize_name (nameIsh (popProtected (prepare_source_doc_for_transfer raw)) r)
        = srcNormOfKey ntd r := by
      unfold srcNormOfKey
      rw [hraw]
    rw [hkey, hD4r, hL4r]
    cases hT : alookup lk0 (srcNormOfKey ntd r) with
    | none =>
      dsimp only
      obtain ⟨hcoup, hmono, hkeymem⟩ :=
        withParent_coupled cfg tgts srcs ntd lk0 hntd hlive hretry hcreate hsrc hlk0names
          r rem stD stL raw none hraw hremkeys hside hdec hstore hmuts hkeys hD4' hL4' h5'
          hfresh (fun tfull hh => by simp at hh)
      exact ⟨hcoup, hmono, fun _ => hkeymem rfl⟩
    | some t =>
      dsimp only
      obtain ⟨s, hsne, hs, hnorm, hmem⟩ := hlk0names _ t hT
      cases hname : dget t Field.name with
      | none => rw [hs] at hname; simp at hname
      | some v =>
        cases v with
        | vStr n =>
          dsimp only
          have hsn : s = n := by
            rw [hs] at hname
            simp only [Option.some.injEq, PyVal.vStr.injEq] at hname
            exact hname
          have h5r : storeGet stL.store n = storeGet tgts n :=
            h5 r (List.mem_cons_self r rem) t n hT (hsn ▸ hs)
          rw [hstore, h5r]
          have htf : ∀ tfull, storeGet tgts n = some tfull →
              ∃ n2, dget tfull Field.name = some (PyVal.vStr n2) ∧
                normalize_name n2 = srcNormOfKey ntd r := by
            intro tfull htfull
            refine ⟨n, docName_inv tfull n (storeGet_docName tgts n tfull htfull), ?_⟩
            rw [← hsn, hnorm]
          obtain ⟨hcoup, hmono, _⟩ :=
            withParent_coupled cfg tgts srcs ntd lk0 hntd hlive hretry hcreate hsrc hlk0names
              r rem stD stL raw (storeGet tgts n) hraw hremkeys hside hdec hstore hmuts hkeys
              hD4' hL4' h5' hfresh htf
          refine ⟨hcoup, hmono, fun _ => ?_⟩
          exact hmono _ (alookup_some_mem_keys stL.lookup _ t (hL4r.trans hT))
        | vInt i =>
          rw [hs] at hname
          simp at hname
        | vNone =>
          rw [hs] at hname
          simp at hname

theorem mem_sortNat (l : List Nat) (a : Nat) (h : a ∈ l) : a ∈ sortNat l :=
  (List.perm_insertionSort (fun a b => a ≤ b) l).mem_iff.mpr h

/-- Folding one depth bucket preserves the dry/live coupling, grows the
match-table key set monotonically, and records every processed record's
normalized key. -/
theorem fold_coupled (cfg : Cfg) (tgts srcs : List Doc) (ntd lk0 : List (LC × Doc))
    (hntd : mkNameToDoc srcs = some ntd)
    (hlive : cfg.dryRun = false)
    (hretry : 0 < cfg.maxParentRetries)
    (hcreate : ∀ i, cfg.createOk i = true)
    (hsrc : ∀ a ∈ srcs, ∃ s, s ≠ [] ∧ dget a Field.name = some (PyVal.vStr s))
    (hlk0names : ∀ k t, alookup lk0 k = some t →
        ∃ s, s ≠ [] ∧ dget t Field.name = some (PyVal.vStr s) ∧ normalize_name s = k ∧ t ∈ tgts) :
    ∀ (bs rem : List LC) (stD stL : St),
      (∀ n ∈ bs, alookup ntd n ≠ none) →
      (∀ n ∈ rem, alookup ntd n ≠ none) →
      ((bs ++ rem).map (srcNormOfKey ntd)).Nodup →
      (∀ n ∈ bs, ∀ pk, resolveStep ntd n = some pk →
        srcNormOfKey ntd pk ∈ stL.lookup.map Prod.fst) →
      coupled tgts lk0 ntd (bs ++ rem) stD stL →
      coupled tgts lk0 ntd rem
          (bs.foldl (processRecord { cfg with dryRun := true } ntd) stD)
          (bs.foldl (processRecord cfg ntd) stL)
        ∧ (∀ k2, k2 ∈ stL.lookup.map Prod.fst →
            k2 ∈ (bs.foldl (processRecord cfg ntd) stL).lookup.map Prod.fst)
        ∧ (∀ n ∈ bs, srcNormOfKey ntd n
            ∈ (bs.foldl (processRecord cfg ntd) stL).lookup.map Prod.fst) := by
  intro bs
  induction bs with
  | nil =>
    intro rem stD stL _ _ _ _ hc
    exact ⟨hc, fun k2 h => h, fun n hn => absurd hn (by simp)⟩
  | cons b rest ih =>
    intro rem stD stL hbs hrem hnd hside hc
    rw [List.foldl_cons, List.foldl_cons]
    obtain ⟨hc', hmono, hbmem⟩ :=
      step_coupled cfg tgts srcs ntd lk0 hntd hlive hretry hcreate hsrc hlk0names
        b (rest ++ rem) stD stL
        (fun n hn => by
          rcases List.mem_append.mp hn with h1 | h1
          · exact hbs n (List.mem_cons_of_mem b h1)
          · exact hrem n h1)
        hnd
        (fun pk hpk => hside b (List.mem_cons_self b rest) pk hpk)
        hc
    have hside' : ∀ n ∈ rest, ∀ pk, resolveStep ntd n = some pk →
        srcNormOfKey ntd pk ∈ (processRecord cfg ntd stL b).lookup.map Prod.fst :=
      fun n hn pk hpk => hmono _ (hside n (List.mem_cons_of_mem b hn) pk hpk)
    obtain ⟨hcF, hmonoF, hmemF⟩ :=
      ih rem (processRecord { cfg with dryRun := true } ntd stD b) (processRecord cfg ntd stL b)
        (fun n hn => hbs n (List.mem_cons_of_mem b hn)) hrem
        (by rw [List.cons_append, List.map_cons] at hnd; exact hnd.of_cons)
        hside' hc'
    refine ⟨hcF, fun k2 hk2 => hmonoF k2 (hmono k2 hk2), ?_⟩
    intro n hn
    rcases List.mem_cons.mp hn with h1 | h1
    · rw [h1]
      exact hmonoF _ (hbmem (hbs b (List.mem_cons_self b rest)))
    · exact hmemF n h1

/-- Folding the remaining depth levels in ascending order preserves the
coupling: when a level is processed, every record of every strictly lower
level has already deposited its normalized key in the match table, so
resolvable parents are always found. -/
theorem levels_coupled (cfg : Cfg) (tgts srcs : List Doc) (ntd lk0 : List (LC × Doc))
    (ρ : LC → Nat)
    (hntd : mkNameToDoc srcs = some ntd)
    (hlive : cfg.dryRun = false)
    (hretry : 0 < cfg.maxParentRetries)
    (hcreate : ∀ i, cfg.createOk i = true)
    (hsrc : ∀ a ∈ srcs, ∃ s, s ≠ [] ∧ dget a Field.name = some (PyVal.vStr s))
    (hlk0names : ∀ k t, alookup lk0 k = some t →
        ∃ s, s ≠ [] ∧ dget t Field.name = some (PyVal.vStr s) ∧ normalize_name s = k ∧ t ∈ tgts)
    (hbound : ∀ x, ρ x ≤ ntd.length)
    (hρ : ∀ x y, resolveStep ntd x = some y → ρ y < ρ x) :
    ∀ (ds2 dsDone : List Nat) (stD stL : St),
      List.Sorted (fun a b => a ≤ b) (dsDone ++ ds2) →
      (∀ p ∈ computeDepths ntd, p.2 ∈ dsDone ++ ds2) →
      ((ds2.flatMap (bucketNames (computeDepths ntd))).map (srcNormOfKey ntd)).Nodup →
      (∀ n dn, alookup (computeDepths ntd) n = some dn → dn ∈ dsDone →
        srcNormOfKey ntd n ∈ stL.lookup.map Prod.fst) →
      coupled tgts lk0 ntd (ds2.flatMap (bucketNames (computeDepths ntd))) stD stL →
      coupled tgts lk0 ntd []
          ((ds2.flatMap (bucketNames (computeDepths ntd))).foldl
            (processRecord { cfg with dryRun := true } ntd) stD)
          ((ds2.flatMap (bucketNames (computeDepths ntd))).foldl
            (processRecord cfg ntd) stL) := by
  intro ds2
  induction ds2 with
  | nil =>
    intro dsDone stD stL _ _ _ _ hc
    exact hc
  | cons d rest2 ih =>
    intro dsDone stD stL hsorted hcov hnd hLInv hc
    rw [List.flatMap_cons] at hnd hc ⊢
    rw [List.foldl_append, List.foldl_append]
    have hbkeys : ∀ n ∈ bucketNames (computeDepths ntd) d, alookup ntd n ≠ none := by
      intro n hn
      have h1 : alookup (computeDepths ntd) n = some d := bucket_depth ntd n d hn
      have h2 : n ∈ (computeDepths ntd).map Prod.fst := alookup_some_mem_keys _ n d h1
      exact alookup_isSome_of_mem ntd n
        (computeDepths_keys ntd n (alookup_isSome_of_mem _ n h2))
    have hrkeys : ∀ n ∈ rest2.flatMap (bucketNames (computeDepths ntd)),
        alookup ntd n ≠ none := by
      intro n hn
      obtain ⟨d2, _, hn2⟩ := List.mem_flatMap.mp hn
      have h1 : alookup (computeDepths ntd) n = some d2 := bucket_depth ntd n d2 hn2
      have h2 : n ∈ (computeDepths ntd).map Prod.fst := alookup_some_mem_keys _ n d2 h1
      exact alookup_isSome_of_mem ntd n
        (computeDepths_keys ntd n (alookup_isSome_of_mem _ n h2))
    have hside : ∀ n ∈ bucketNames (computeDepths ntd) d, ∀ pk,
        resolveStep ntd n = some pk → srcNormOfKey ntd pk ∈ stL.lookup.map Prod.fst := by
      intro n hn pk hpk
      have hdn : alookup (computeDepths ntd) n = some d := bucket_depth ntd n d hn
      obtain ⟨dp, hdp, hdn2⟩ := depth_parent_eq ntd ρ hbound hρ n pk hpk
      have hdd : d = dp + 1 := by
        rw [hdn] at hdn2
        simp only [Option.some.injEq] at hdn2
        exact hdn2
      have hdpmem : dp ∈ dsDone ++ d :: rest2 := hcov (pk, dp) (alookup_mem_pair _ _ _ hdp)
      have hdpdone : dp ∈ dsDone :=
        sorted_split_mem dsDone d rest2 dp hsorted hdpmem (by omega)
      exact hLInv pk dp hdp hdpdone
    obtain ⟨hc', hmono', hbmem'⟩ :=
      fold_coupled cfg tgts srcs ntd lk0 hntd hlive hretry hcreate hsrc hlk0names
        (bucketNames (computeDepths ntd) d) (rest2.flatMap (bucketNames (computeDepths ntd)))
        stD stL hbkeys hrkeys hnd hside hc
    have hLInv' : ∀ n dn, alookup (computeDepths ntd) n = some dn → dn ∈ dsDone ++ [d] →
        srcNormOfKey ntd n
          ∈ ((bucketNames (computeDepths ntd) d).foldl
            (processRecord cfg ntd) stL).lookup.map Prod.fst := by
      intro n dn hdn hmem
      rcases List.mem_append.mp hmem with h1 | h1
      · exact hmono' _ (hLInv n dn hdn h1)
      · have hdd : dn = d := List.mem_singleton.mp h1
        exact hbmem' n ((mem_bucketNames _ d n).mpr
          (alookup_mem_pair _ n d (hdd ▸ hdn)))
    have hsorted' : List.Sorted (fun a b => a ≤ b) ((dsDone ++ [d]) ++ rest2) := by
      rw [List.append_assoc, List.singleton_append]
      exact hsorted
    have hcov' : ∀ p ∈ computeDepths ntd, p.2 ∈ (dsDone ++ [d]) ++ rest2 := by
      intro p hp
      rw [List.append_assoc, List.singleton_append]
      exact hcov p hp
    have hnd' : ((rest2.flatMap (bucketNames (computeDepths ntd))).map
        (srcNormOfKey ntd)).Nodup := by
      rw [List.map_append] at hnd
      exact (List.nodup_append.mp hnd).2.1
    exact ih (dsDone ++ [d]) _ _ hsorted' hcov' hnd' hLInv' hc'

/-! ## Claim C5: dry-run invariance -/

/-- Claim C5 (amended).  Dry-run invariance holds under the stated
conditions: every source record has a nonempty string `name`, every target
record has a nonempty string `name`, the normalized keys of the source
records are pairwise distinct, the resolved-parent relation is acyclic
(witnessed by a rank function), the retry budget is positive, and remote
creates succeed.  Then the dry run and the live run log the same decision
sequence and the dry run performs zero remote mutations.  Without the
distinct-normalized-keys condition the decision sequences can diverge
(see the counterexample). -/
theorem claim_C5 (cfg : Cfg) (srcs tgts : List Doc) (ntd : List (LC × Doc)) (ρ : LC → Nat)
    (hntd : mkNameToDoc srcs = some ntd)
    (hlive : cfg.dryRun = false)
    (hretry : 0 < cfg.maxParentRetries)
    (hcreate : ∀ i, cfg.createOk i = true)
    (hsrc : ∀ a ∈ srcs, ∃ s, s ≠ [] ∧ dget a Field.name = some (PyVal.vStr s))
    (htgt : ∀ t ∈ tgts, ∃ s, s ≠ [] ∧ dget t Field.name = some (PyVal.vStr s))
    (hnodup : ((ntd.map Prod.fst).map (srcNormOfKey ntd)).Nodup)
    (hbound : ∀ x, ρ x ≤ ntd.length)
    (hρ : ∀ x y, resolveStep ntd x = some y → ρ y < ρ x) :
    (syncAll { cfg with dryRun := true } srcs tgts).map St.decisions
        = (syncAll cfg srcs tgts).map St.decisions
      ∧ ∀ stD, syncAll { cfg with dryRun := true } srcs tgts = some stD → stD.muts = [] := by
  have hlk0names : ∀ k t, alookup (mkTargetLookup tgts) k = some t →
      ∃ s, s ≠ [] ∧ dget t Field.name = some (PyVal.vStr s) ∧ normalize_name s = k ∧
        t ∈ tgts := by
    intro k t h
    obtain ⟨hmem, s, hsne, hs, hnorm⟩ := mkTargetLookup_spec tgts k t htgt h
    exact ⟨s, hsne, hs, hnorm, hmem⟩
  have hndntd : (ntd.map Prod.fst).Nodup := (mkNameToDoc_spec srcs ntd hntd).1
  have hperm := processOrder_perm_ntd ntd hndntd
  have hordnd : ((processOrder (computeDepths ntd)).map (srcNormOfKey ntd)).Nodup :=
    ((hperm.map (srcNormOfKey ntd)).symm).nodup hnodup
  have hord : processOrder (computeDepths ntd)
      = (sortNat (((computeDepths ntd).map Prod.snd).dedup)).flatMap
        (bucketNames (computeDepths ntd)) := rfl
  have hsorted : List.Sorted (fun a b => a ≤ b)
      (([] : List Nat) ++ sortNat (((computeDepths ntd).map Prod.snd).dedup)) := by
    rw [List.nil_append]
    exact sortNat_sorted _
  have hcov : ∀ p ∈ computeDepths ntd,
      p.2 ∈ ([] : List Nat) ++ sortNat (((computeDepths ntd).map Prod.snd).dedup) := by
    intro p hp
    rw [List.nil_append]
    exact mem_sortNat _ _ (List.mem_dedup.mpr (List.mem_map_of_mem Prod.snd hp))
  have hc0 : coupled tgts (mkTargetLookup tgts) ntd
      ((sortNat (((computeDepths ntd).map Prod.snd).dedup)).flatMap
        (bucketNames (computeDepths ntd)))
      { lookup := mkTargetLookup tgts, store := tgts, cidx := 0, decisions := [], muts := [] }
      { lookup := mkTargetLookup tgts, store := tgts, cidx := 0, decisions := [], muts := [] } :=
    ⟨rfl, rfl, rfl, rfl, fun n _ => rfl, fun n _ => rfl, fun n _ t s _ _ => rfl⟩
  have hfinal := levels_coupled cfg tgts srcs ntd (mkTargetLookup tgts) ρ hntd hlive hretry
    hcreate hsrc hlk0names hbound hρ
    (sortNat (((computeDepths ntd).map Prod.snd).dedup)) [] _ _
    hsorted hcov (by rw [← hord]; exact hordnd) (fun n dn _ h => absurd h (by simp)) hc0
  obtain ⟨hdecs, _, hmutsD, _, _, _, _⟩ := hfinal
  constructor
  · unfold syncAll
    rw [hntd]
    dsimp only
    rw [hord]
    exact congrArg some hdecs
  · intro stD h
    unfold syncAll at h
    rw [hntd] at h
    dsimp only at h
    simp only [Option.some.injEq] at h
    rw [← h, hord]
    exact hmutsD

/-- Claim C5, counterexample.  On the duplicate-normalized-key source pair
`dupSrcs` against an empty target, the dry run logs two creates while the
live run logs a create and then a skip: the dry run's hypothetical create
is not entered into the remote store, so the second duplicate still misses
in dry mode but hits the freshly created account in live mode. -/
theorem claim_C5_counterexample :
    (syncAll cfgDry dupSrcs []).map St.decisions
        = some [Decision.create (some (PyVal.vStr "1 - Cash".data)),
          Decision.create (some (PyVal.vStr "2 - Cash".data))] ∧
      (syncAll cfgLive dupSrcs []).map St.decisions
        = some [Decision.create (some (PyVal.vStr "1 - Cash".data)),
          Decision.skip (some (PyVal.vStr "2 - Cash".data))] ∧
      (syncAll cfgDry dupSrcs []).map St.decisions
        ≠ (syncAll cfgLive dupSrcs []).map St.decisions :=
  ⟨by decide, by decide, by decide⟩

/-- Witness for claim C5: the amended dry-run-invariance theorem applied to
the concrete two-record chain inventory `witSrcs` (root `A`, child `B`)
against an empty target, with the live configuration. -/
theorem claim_C5_witness :
    (syncAll { cfgLive with dryRun := true } witSrcs []).map St.decisions
        = (syncAll cfgLive witSrcs []).map St.decisions
      ∧ ∀ stD, syncAll { cfgLive with dryRun := true } witSrcs [] = some stD →
          stD.muts = [] := by
  have hbound : ∀ x, chainRank x ≤ chainNtd.length := by
    intro x
    unfold chainRank
    split <;> decide
  have hρ : ∀ x y, resolveStep chainNtd x = some y → chainRank y < chainRank x := by
    intro x y h
    by_cases hxa : x = "A".data
    · subst hxa
      rw [show resolveStep chainNtd "A".data = none from by decide] at h
      simp at h
    · by_cases hxb : x = "B".data
      · subst hxb
        rw [show resolveStep chainNtd "B".data = some "A".data from by decide] at h
        simp only [Option.some.injEq] at h
        rw [← h]
        show chainRank "A".data < chainRank "B".data
        decide
      · have hnone : alookup chainNtd x = none := by
          have hA : ¬("A".data = x) := fun hh => hxa hh.symm
          have hB : ¬("B".data = x) := fun hh => hxb hh.symm
          simp only [chainNtd, alookup]
          rw [if_neg hA, if_neg hB]
        unfold resolveStep at h
        rw [hnone] at h
        simp at h
  have hsrc : ∀ a ∈ witSrcs, ∃ s, s ≠ [] ∧ dget a Field.name = some (PyVal.vStr s) := by
    intro a ha
    simp only [witSrcs, List.mem_cons, List.not_mem_nil, or_false] at ha
    rcases ha with h | h
    · exact ⟨"A".data, by decide, by rw [h]; decide⟩
    · exact ⟨"B".data, by decide, by rw [h]; decide⟩
  exact claim_C5 cfgLive witSrcs [] chainNtd chainRank (by decide) rfl (by decide)
    (fun i => rfl) hsrc (fun t ht => absurd ht (List.not_mem_nil t)) (by decide) hbound hρ

end AccountSync

